import Mathlib

set_option maxHeartbeats 1600000

/- Batteries marks the `Rat` field operations `@[irreducible]`, which blocks `decide`
and `rfl` on concrete rational computations at elaboration time (the kernel reduces
them fine).  Restore the default reducibility so concrete runs of the embedded
interpreters can be evaluated inside proofs. -/
set_option allowUnsafeReducibility true in
attribute [semireducible] Rat.add Rat.sub Rat.mul Rat.inv Rat.ofScientific

/-!
Verification of the turtle-language interpreter (`src/lib/turtle-lang/interpreter.js`,
current revision) of the pixel-programmer repository.

The interpreter consumes a token tree (produced by the lexer) and runs it with one of
three engines: `interpret` (synchronous), `interpretAsync` (delay-paced), and
`createStepper` (explicit frame-stack machine).  This file gives a shallow embedding of
all three engines and of the helper functions they share (`wrapHue`, `clamp`,
`applyHSVParam`, `rasterLine`, `evalExpr`/`evalValue`).

Modelling conventions:
* JavaScript numbers are modelled as exact rationals.  A JS value that flows through
  the evaluator can also be `NaN` (from `/ 0`, `% 0`, or arithmetic on undefined) or
  `undefined` (a lookup of a missing variable); these are the `JsNum.nan` and
  `JsNum.undef` constructors.  `Number.isFinite` is `JsNum.toQ? ≠ none`.
* `Math.cos(dir * Math.PI / 180)` and `Math.sin(...)` are abstracted as an arbitrary
  pair of functions `Trig` of the heading in degrees: every engine applies the same
  functions at the same arguments, so all inter-engine statements hold for every
  interpretation, including the intended real-valued one.
* The external renderer (`canvas`, `onPixel`) is write-only and never read back, so it
  is dropped; the recorded operation log is the observable.  `delayMs` only inserts
  waits and is dropped.
* The three JS engines contain textually identical copies of `evalValue`, `evalExpr`
  and of the VAR/PEN/TURN/HSV/MOVE instruction bodies; those copies are embedded once
  (`evalValue`, `evalExpr`, `varStep`, `penStep`, `turnStep`, `hsvStep`, `moveStep`)
  and used by all three engine embeddings.
* JS `while` loops (`repeat until`, the stepper's `nextToken`/`step` loops) need not
  terminate, so every engine takes an explicit fuel parameter; `RunRes.out` marks fuel
  exhaustion and is never identified with an actual outcome of the program.
* A thrown JS `Error` is `.err msg`/`Except.error msg`; the message is all the caller
  receives from `interpret`/`interpretAsync` (the local `ops` array is lost).  The
  stepper's caller keeps the closure, so its step results carry the machine state at
  the point of the throw (quote marks of the JS messages are dropped).
-/

namespace Turtle

/-- JS `Math.round` (round half toward +∞, as JS does: `Math.round(-2.5) = -2`). -/
def jsRound (q : ℚ) : ℤ := ⌊q + 1/2⌋

/-- Truncation toward zero, as JS number-to-integer conversion in `a % b`. -/
def jsTrunc (q : ℚ) : ℤ := if 0 ≤ q then ⌊q⌋ else -⌊-q⌋

/-- The JS remainder operator `a % b` on finite numbers with `b ≠ 0`
(sign follows the dividend). -/
def jsRem (a b : ℚ) : ℚ := a - b * jsTrunc (a / b)

/-- `const wrapHue = h => ((h % 360) + 360) % 360;` -/
def wrapHue (h : ℚ) : ℚ := jsRem (jsRem h 360 + 360) 360

/-- `const clamp = (v, min, max) => v < min ? min : (v > max ? max : v);` -/
def clamp (v lo hi : ℚ) : ℚ := if v < lo then lo else if v > hi then hi else v

/-- An HSV color triple `{h, s, v}`. -/
structure HSV where
  h : ℚ
  s : ℚ
  v : ℚ
deriving DecidableEq, Repr

/-- A JS numeric value as seen by the evaluator: a finite number, `NaN`
(also standing for the infinities, which cannot arise here), or `undefined`
(the result of reading a missing object property). -/
inductive JsNum where
  | fin (q : ℚ)
  | nan
  | undef
deriving DecidableEq, Repr

/-- The finite value, if any.  `Number.isFinite` is `toQ? ≠ none` (both `NaN` and
`undefined` fail the check; arithmetic coerces `undefined` to `NaN`). -/
def JsNum.toQ? : JsNum → Option ℚ
  | .fin q => some q
  | .nan => none
  | .undef => none

/-- The variable environment: a JS object used as a map from (lowercased) identifier
to a number.  Only finite values are ever stored (every write is guarded by
`Number.isFinite`), so entries are rationals.  Insertion order is preserved, as in JS. -/
abbrev Env := List (String × ℚ)

def envGet : Env → String → Option ℚ
  | [], _ => none
  | (k', v) :: r, k => if k' = k then some v else envGet r k

def envSet : Env → String → ℚ → Env
  | [], k, v => [(k, v)]
  | (k', v') :: r, k, v => if k' = k then (k', v) :: r else (k', v') :: envSet r k v

/-- `name in vars` -/
def envHas (e : Env) (k : String) : Bool := (envGet e k).isSome

inductive UnOp where
  | plus
  | minus
deriving DecidableEq, Repr

inductive BinOp where
  | add | sub | mul | div | mod
  | beq | bne | blt | ble | bgt | bge
deriving DecidableEq, Repr

/-- The expression AST produced by the lexer's recursive-descent expression parser:
`{kind:'num'}`, `{kind:'var'}`, `{kind:'unary'}`, `{kind:'bin'}`. -/
inductive Expr where
  | num (q : ℚ)
  | evar (name : String)
  | unary (op : UnOp) (arg : Expr)
  | bin (op : BinOp) (l r : Expr)
deriving Repr

/-- JS `===` on evaluator values: `NaN === x` is false for every `x`;
`undefined === undefined` is true; distinct kinds are never equal. -/
def jsStrictEq : JsNum → JsNum → Bool
  | .fin x, .fin y => x = y
  | .undef, .undef => true
  | _, _ => false

/-- Arithmetic on two JS values: `undefined` coerces to `NaN`, `NaN` propagates. -/
def arith2 (f : ℚ → ℚ → ℚ) (a b : JsNum) : JsNum :=
  match a.toQ?, b.toQ? with
  | some x, some y => .fin (f x y)
  | _, _ => .nan

/-- An ordering comparison (`<`, `<=`, `>`, `>=`): false whenever either side is
`NaN`/`undefined`, else the numeric comparison; the engine turns it into `1`/`0`. -/
def cmp2 (f : ℚ → ℚ → Bool) (a b : JsNum) : JsNum :=
  match a, b with
  | .fin x, .fin y => .fin (if f x y then 1 else 0)
  | _, _ => .fin 0

/-- One `case 'bin'` step of `evalExpr`.  `/` and `%` check `b === 0` first and
return `NaN`; comparisons return exactly `1` or `0`. -/
def binEval (op : BinOp) (a b : JsNum) : JsNum :=
  match op with
  | .add => arith2 (fun x y => x + y) a b
  | .sub => arith2 (fun x y => x - y) a b
  | .mul => arith2 (fun x y => x * y) a b
  | .div => if b = .fin 0 then .nan else arith2 (fun x y => x / y) a b
  | .mod => if b = .fin 0 then .nan else arith2 (fun x y => jsRem x y) a b
  | .beq => .fin (if jsStrictEq a b then 1 else 0)
  | .bne => .fin (if jsStrictEq a b then 0 else 1)
  | .blt => cmp2 (fun x y => x < y) a b
  | .ble => cmp2 (fun x y => x ≤ y) a b
  | .bgt => cmp2 (fun x y => y < x) a b
  | .bge => cmp2 (fun x y => y ≤ x) a b

/-- `evalExpr(ast)` of the engines (all three copies are identical): a missing
variable reads as `undefined`; unary `+`/`-` coerce to number. -/
def evalExpr (vars : Env) : Expr → JsNum
  | .num q => .fin q
  | .evar n =>
    match envGet vars n with
    | some q => .fin q
    | none => .undef
  | .unary op e =>
    match (evalExpr vars e).toQ? with
    | some q => .fin (if op = .minus then -q else q)
    | none => .nan
  | .bin op l r => binEval op (evalExpr vars l) (evalExpr vars r)

/-- A value slot in a token, as built by the lexer: a plain number (fast path),
a bare variable reference `{ref}`, or a wrapped expression `{expr}`. -/
inductive Value where
  | num (q : ℚ)
  | ref (name : String)
  | expr (e : Expr)
deriving Repr

/-- `evalValue(node)` of the engines: numbers pass through, `{ref}` is a raw
property read (missing → `undefined`), `{expr}` evaluates the AST. -/
def evalValue (vars : Env) : Value → JsNum
  | .num q => .fin q
  | .ref n =>
    match envGet vars n with
    | some q => .fin q
    | none => .undef
  | .expr e => evalExpr vars e

/-- `testVal` is "finite and non-zero" (`Number.isFinite(v) && v !== 0`). -/
def truthy (n : JsNum) : Bool :=
  match n.toQ? with
  | some q => q ≠ 0
  | none => false

/-- An `hsv` parameter: `_` (ignore), `±literal`, `±identifier`, `literal`,
`identifier` — the shapes the lexer's `parseHSVParam` can produce. -/
inductive HSVParam where
  | ignore
  | offsetNum (q : ℚ)
  | offsetRef (name : String) (neg : Bool)
  | absNum (q : ℚ)
  | absRef (name : String)
deriving Repr

/-- `applyHSVParam(current, param, component, vars)`: resolve an HSV parameter
against the current component value; hue wraps via `wrapHue`, saturation/value clamp
to `[0,100]`; an unresolved variable throws. -/
def applyHSVParam (current : ℚ) (p : HSVParam) (isHue : Bool) (vars : Env) :
    Except String ℚ :=
  match p with
  | .ignore => .ok current
  | .offsetNum d =>
    let val := current + d
    .ok (if isHue then wrapHue val else clamp val 0 100)
  | .offsetRef n neg =>
    match envGet vars n with
    | none => .error ("Undefined variable " ++ n ++ " in hsv")
    | some base =>
      let val := current + (if neg then -base else base)
      .ok (if isHue then wrapHue val else clamp val 0 100)
  | .absNum q => .ok (if isHue then wrapHue q else clamp q 0 100)
  | .absRef n =>
    match envGet vars n with
    | none => .error ("Undefined variable " ++ n ++ " in hsv")
    | some q => .ok (if isHue then wrapHue q else clamp q 0 100)

/-- The Bresenham loop body of `rasterLine`, after the endpoints were rounded:
`x1 y1 sx sy dx dy` are the loop constants, `x0 y0 err` the mutable state.  Returns
the list of visited cells in walk order, or `none` if the fuel runs out (the JS loop
has no bound of its own; termination is proved below). -/
def rasterAux (x1 y1 sx sy dx dy : ℤ) : ℕ → ℤ → ℤ → ℤ → Option (List (ℤ × ℤ))
  | 0, _, _, _ => none
  | n + 1, x0, y0, err =>
    if x0 = x1 ∧ y0 = y1 then some [(x0, y0)]
    else
      let e2 := 2 * err
      let x0' := if dy ≤ e2 then x0 + sx else x0
      let err1 := if dy ≤ e2 then err + dy else err
      let y0' := if e2 ≤ dx then y0 + sy else y0
      let err2 := if e2 ≤ dx then err1 + dx else err1
      (rasterAux x1 y1 sx sy dx dy n x0' y0' err2).map (fun l => (x0, y0) :: l)

/-- `rasterLine(x0, y0, x1, y1, visit)`: round both endpoints and walk; the list of
cells passed to `visit`, in order.  The fuel is the Chebyshev distance plus one,
which is proved sufficient below (`rasterCells_spec`). -/
def rasterCells (qx0 qy0 qx1 qy1 : ℚ) : Option (List (ℤ × ℤ)) :=
  let x0 := jsRound qx0
  let y0 := jsRound qy0
  let x1 := jsRound qx1
  let y1 := jsRound qy1
  let dx := |x1 - x0|
  let sx : ℤ := if x0 < x1 then 1 else -1
  let dy := -|y1 - y0|
  let sy : ℤ := if y0 < y1 then 1 else -1
  rasterAux x1 y1 sx sy dx dy ((max dx (-dy)).toNat + 1) x0 y0 (dx + dy)

/-- An entry of the recorded operation log. -/
inductive Operation where
  | plot (x y : ℤ) (color : HSV)
  | move (x y : ℤ)
  | pen (down : Bool)
  | turn (heading : ℚ)
  | hsvOp (color : HSV)
deriving DecidableEq, Repr

/-- The instruction tokens produced by the lexer (`MOVE`, `TURN`, `PEN`, `HSV`,
`VAR`, `REPEAT` in count or until mode, `IF`, `BREAK`, `CONTINUE`). -/
inductive Tok where
  | moveT (forward : Bool) (value : Value)
  | turnT (left : Bool) (value : Value)
  | penT (down : Bool)
  | hsvT (ph ps pv : HSVParam)
  | varT (name : String) (value : Value) (reassign : Bool)
  | repC (count : Value) (body : List Tok)
  | repU (cond : Value) (body : List Tok)
  | ifT (test : Value) (body : List Tok)
  | brk
  | cont
deriving Repr

/-- The options record shared by all three engines (renderer hooks and `delayMs`
dropped; `width`/`height` are the optional plot-culling bounds). -/
structure Opts where
  startX : ℚ := 0
  startY : ℚ := 0
  heading : ℚ := 0
  initialHSV : HSV := ⟨0, 0, 100⟩
  initialPenDown : Bool := false
  width : Option ℚ := none
  height : Option ℚ := none
  record : Bool := true
deriving Repr

/-- The abstracted `Math.cos(d·π/180)` / `Math.sin(d·π/180)` as functions of the
heading `d` in degrees. -/
structure Trig where
  cosDeg : ℚ → ℚ
  sinDeg : ℚ → ℚ

/-- The mutable turtle state shared by the engines: position, heading, pen flag,
color, recorded operation log, variable environment. -/
structure TState where
  x : ℚ
  y : ℚ
  dir : ℚ
  penDown : Bool
  color : HSV
  ops : List Operation
  vars : Env
deriving DecidableEq, Repr

def initState (O : Opts) : TState :=
  ⟨O.startX, O.startY, O.heading, O.initialPenDown, O.initialHSV, [], []⟩

/-- `if (record) ops.push(op)` -/
def pushOp (O : Opts) (op : Operation) (s : TState) : TState :=
  if O.record then { s with ops := s.ops ++ [op] } else s

/-- The `case 'VAR'` body (identical in all three engines). -/
def varStep (name : String) (v : Value) (reassign : Bool) (s : TState) :
    Except String TState :=
  match (evalValue s.vars v).toQ? with
  | none => .error ("Undefined variable or invalid value in assignment to " ++ name)
  | some q =>
    if reassign then
      if envHas s.vars name then .ok { s with vars := envSet s.vars name q }
      else .error ("Cannot reassign undeclared variable " ++ name)
    else .ok { s with vars := envSet s.vars name q }

/-- The `case 'PEN'` body. -/
def penStep (O : Opts) (down : Bool) (s : TState) : TState :=
  pushOp O (.pen down) { s with penDown := down }

/-- The `case 'TURN'` body: `left` subtracts, `right` adds, wrapped by `wrapHue`. -/
def turnStep (O : Opts) (left : Bool) (v : Value) (s : TState) :
    Except String TState :=
  match (evalValue s.vars v).toQ? with
  | none => .error "Invalid turn value"
  | some q =>
    let dir' := wrapHue (s.dir + (if left then -q else q))
    .ok (pushOp O (.turn dir') { s with dir := dir' })

/-- The `case 'HSV'` body: all three components are resolved against the color and
environment before the update. -/
def hsvStep (O : Opts) (ph ps pv : HSVParam) (s : TState) : Except String TState :=
  match applyHSVParam s.color.h ph true s.vars with
  | .error e => .error e
  | .ok h' =>
    match applyHSVParam s.color.s ps false s.vars with
    | .error e => .error e
    | .ok s' =>
      match applyHSVParam s.color.v pv false s.vars with
      | .error e => .error e
      | .ok v' =>
        let c : HSV := ⟨h', s', v'⟩
        .ok (pushOp O (.hsvOp c) { s with color := c })

/-- Is the cell culled by the optional `width`/`height` bounds?
(`typeof width === 'number' && (cx < 0 || cx >= width)`, same for `cy`.) -/
def culled (w h : Option ℚ) (cx cy : ℤ) : Bool :=
  (match w with
   | some W => decide ((cx : ℚ) < 0 ∨ W ≤ (cx : ℚ))
   | none => false) ||
  (match h with
   | some H => decide ((cy : ℚ) < 0 ∨ H ≤ (cy : ℚ))
   | none => false)

/-- One `visit(cx, cy)` callback of the MOVE rasterization: skip culled cells, then
emit a `plot` (when recording) whenever the cell differs from `lastCell`, updating
`lastCell`. -/
def plotVisit (O : Opts) (c : HSV) (acc : List Operation × (ℤ × ℤ)) (cell : ℤ × ℤ) :
    List Operation × (ℤ × ℤ) :=
  if culled O.width O.height cell.1 cell.2 then acc
  else if cell = acc.2 then acc
  else (acc.1 ++ (if O.record then [.plot cell.1 cell.2 c] else []), cell)

/-- The `plot` operations emitted by rasterizing one pen-down move whose visited
cells are `cells`, with `lastCell` initialized to the rounded current position. -/
def plotsFor (O : Opts) (c : HSV) (last0 : ℤ × ℤ) (cells : List (ℤ × ℤ)) :
    List Operation :=
  (cells.foldl (plotVisit O c) ([], last0)).1

/-- The `case 'MOVE'` body (identical in all three engines): evaluate the distance,
step along the heading, rasterize when the pen is down (culling by the optional
bounds), update the unrounded position, record a `move` with the rounded position. -/
def moveStep (T : Trig) (O : Opts) (forward : Bool) (v : Value) (s : TState) :
    Except String TState :=
  match (evalValue s.vars v).toQ? with
  | none => .error "Invalid move value"
  | some mv =>
    let dist := if forward then mv else -mv
    let tx := s.x + dist * T.cosDeg s.dir
    let ty := s.y + dist * T.sinDeg s.dir
    let s₁ :=
      if s.penDown then
        let cells := (rasterCells s.x s.y tx ty).getD []
        { s with ops := s.ops ++ plotsFor O s.color (jsRound s.x, jsRound s.y) cells }
      else s
    .ok (pushOp O (.move (jsRound tx) (jsRound ty)) { s₁ with x := tx, y := ty })

/-- The control signal returned by `execList`/`execToken`: `'break'` or `'continue'`
(`Option Sig` with `none` for a normal completion, i.e. JS `undefined`). -/
inductive Sig where
  | brk
  | cont
deriving DecidableEq, Repr

/-- Outcome of a fuelled run: a value, a thrown `Error` message, or fuel exhaustion
(`.out` — the modelled JS would still be looping). -/
inductive RunRes (α : Type) where
  | ok (a : α)
  | err (msg : String)
  | out
deriving DecidableEq, Repr

/-- The three loop shapes inside the synchronous engine's `execList`: the `for` walk
over an instruction list, the count-mode `for (k … times)` loop, and the until-mode
`while (true)` loop. -/
inductive SCfg where
  | list (l : List Tok)
  | cnt (k : ℕ) (body : List Tok)
  | unt (c : Value) (body : List Tok)

/-- The synchronous engine's `execList` (of `interpret`), including its inner repeat
loops.  Signals propagate exactly as in the source: a `break`/`continue` returned by
a nested `execList` inside `IF` is returned onward (skipping the rest of the list);
the repeat loops consume signals; `.cnt`/`.unt` always complete with signal `none`.
The count `k` of `.cnt` is the already-floored iteration count (`Math.floor` of the
evaluated count, iterated only when positive, hence `Int.toNat`). -/
def syncRun (T : Trig) (O : Opts) : ℕ → SCfg → TState → RunRes (TState × Option Sig)
  | 0, _, _ => .out
  | _ + 1, .list [], s => .ok (s, none)
  | n + 1, .list (t :: rest), s =>
    match t with
    | .varT name v re =>
      match varStep name v re s with
      | .error e => .err e
      | .ok s₁ => syncRun T O n (.list rest) s₁
    | .penT d => syncRun T O n (.list rest) (penStep O d s)
    | .turnT lf v =>
      match turnStep O lf v s with
      | .error e => .err e
      | .ok s₁ => syncRun T O n (.list rest) s₁
    | .hsvT ph ps pv =>
      match hsvStep O ph ps pv s with
      | .error e => .err e
      | .ok s₁ => syncRun T O n (.list rest) s₁
    | .moveT fw v =>
      match moveStep T O fw v s with
      | .error e => .err e
      | .ok s₁ => syncRun T O n (.list rest) s₁
    | .repC c body =>
      match (evalValue s.vars c).toQ? with
      | none => .err "Invalid repeat count"
      | some q =>
        match syncRun T O n (.cnt (Int.toNat ⌊q⌋) body) s with
        | .ok (s₁, _) => syncRun T O n (.list rest) s₁
        | .err e => .err e
        | .out => .out
    | .repU c body =>
      match syncRun T O n (.unt c body) s with
      | .ok (s₁, _) => syncRun T O n (.list rest) s₁
      | .err e => .err e
      | .out => .out
    | .ifT tst body =>
      if truthy (evalValue s.vars tst) then
        match syncRun T O n (.list body) s with
        | .ok (s₁, some sg) => .ok (s₁, some sg)
        | .ok (s₁, none) => syncRun T O n (.list rest) s₁
        | .err e => .err e
        | .out => .out
      else syncRun T O n (.list rest) s
    | .brk => .ok (s, some .brk)
    | .cont => .ok (s, some .cont)
  | _ + 1, .cnt 0 _, s => .ok (s, none)
  | n + 1, .cnt (k + 1) body, s =>
    match syncRun T O n (.list body) s with
    | .ok (s₁, some .brk) => .ok (s₁, none)
    | .ok (s₁, _) => syncRun T O n (.cnt k body) s₁
    | .err e => .err e
    | .out => .out
  | n + 1, .unt c body, s =>
    match (evalValue s.vars c).toQ? with
    | none => .err "Invalid until expression"
    | some q =>
      if q ≠ 0 then .ok (s, none)
      else
        match syncRun T O n (.list body) s with
        | .ok (s₁, some .brk) => .ok (s₁, none)
        | .ok (s₁, _) => syncRun T O n (.unt c body) s₁
        | .err e => .err e
        | .out => .out

/-- The result record every engine returns: rounded final position, final heading,
pen state, color, operation log (only when recording), variable snapshot (the JS
field is called `variables`; that is a reserved word here). -/
structure IResult where
  finalX : ℤ
  finalY : ℤ
  finalHeading : ℚ
  penDown : Bool
  color : HSV
  operations : List Operation
  varSnapshot : Env
deriving DecidableEq, Repr

def mkResult (O : Opts) (s : TState) : IResult :=
  ⟨jsRound s.x, jsRound s.y, s.dir, s.penDown, s.color,
    if O.record then s.ops else [], s.vars⟩

/-- `interpret(tokens, options)`: run `execList` on the whole program (the top-level
return value of `execList` — possibly a stray signal — is discarded) and package the
final state.  A thrown error carries only its message: the local `ops` array is not
part of it. -/
def interpret (T : Trig) (O : Opts) (fuel : ℕ) (tokens : List Tok) :
    RunRes IResult :=
  match syncRun T O fuel (.list tokens) (initState O) with
  | .ok (s, _) => .ok (mkResult O s)
  | .err e => .err e
  | .out => .out

/-- The loop shapes inside `interpretAsync`'s `execToken`: a single token, the inner
`for (const inner of t.body)` walk, and the two labelled repeat loops. -/
inductive ACfg where
  | tok (t : Tok)
  | seq (l : List Tok)
  | cnt (k : ℕ) (body : List Tok)
  | unt (c : Value) (body : List Tok)

/-- The async engine's `execToken` (of `interpretAsync`).  Structure differences from
the synchronous engine, as in the source: `REPEAT` iterates its body token-by-token
with labelled `break outer`/`continue outer` on a signal from a direct child; the
`IF` case runs its body but `return;`s on a signal, i.e. the signal is *discarded*
rather than propagated (its comment notwithstanding), so an `IF` token always
completes with signal `none`.  Delays only suspend and are not modelled. -/
def asyncRun (T : Trig) (O : Opts) : ℕ → ACfg → TState → RunRes (TState × Option Sig)
  | 0, _, _ => .out
  | n + 1, .tok t, s =>
    match t with
    | .varT name v re =>
      match varStep name v re s with
      | .error e => .err e
      | .ok s₁ => .ok (s₁, none)
    | .penT d => .ok (penStep O d s, none)
    | .turnT lf v =>
      match turnStep O lf v s with
      | .error e => .err e
      | .ok s₁ => .ok (s₁, none)
    | .hsvT ph ps pv =>
      match hsvStep O ph ps pv s with
      | .error e => .err e
      | .ok s₁ => .ok (s₁, none)
    | .moveT fw v =>
      match moveStep T O fw v s with
      | .error e => .err e
      | .ok s₁ => .ok (s₁, none)
    | .repC c body =>
      match (evalValue s.vars c).toQ? with
      | none => .err "Invalid repeat count"
      | some q =>
        match asyncRun T O n (.cnt (Int.toNat ⌊q⌋) body) s with
        | .ok (s₁, _) => .ok (s₁, none)
        | .err e => .err e
        | .out => .out
    | .repU c body =>
      match asyncRun T O n (.unt c body) s with
      | .ok (s₁, _) => .ok (s₁, none)
      | .err e => .err e
      | .out => .out
    | .ifT tst body =>
      if truthy (evalValue s.vars tst) then
        match asyncRun T O n (.seq body) s with
        | .ok (s₁, _) => .ok (s₁, none)
        | .err e => .err e
        | .out => .out
      else .ok (s, none)
    | .brk => .ok (s, some .brk)
    | .cont => .ok (s, some .cont)
  | _ + 1, .seq [], s => .ok (s, none)
  | n + 1, .seq (t :: rest), s =>
    match asyncRun T O n (.tok t) s with
    | .ok (s₁, some sg) => .ok (s₁, some sg)
    | .ok (s₁, none) => asyncRun T O n (.seq rest) s₁
    | .err e => .err e
    | .out => .out
  | _ + 1, .cnt 0 _, s => .ok (s, none)
  | n + 1, .cnt (k + 1) body, s =>
    match asyncRun T O n (.seq body) s with
    | .ok (s₁, some .brk) => .ok (s₁, none)
    | .ok (s₁, _) => asyncRun T O n (.cnt k body) s₁
    | .err e => .err e
    | .out => .out
  | n + 1, .unt c body, s =>
    match (evalValue s.vars c).toQ? with
    | none => .err "Invalid until expression"
    | some q =>
      if q ≠ 0 then .ok (s, none)
      else
        match asyncRun T O n (.seq body) s with
        | .ok (s₁, some .brk) => .ok (s₁, none)
        | .ok (s₁, _) => asyncRun T O n (.unt c body) s₁
        | .err e => .err e
        | .out => .out

/-- `interpretAsync`'s top-level loop: run each token; a `break`/`continue` signal
reaching the top level is explicitly ignored and the walk continues. -/
def asyncTop (T : Trig) (O : Opts) : ℕ → List Tok → TState → RunRes TState
  | 0, _, _ => .out
  | _ + 1, [], s => .ok s
  | n + 1, t :: rest, s =>
    match asyncRun T O n (.tok t) s with
    | .ok (s₁, _) => asyncTop T O n rest s₁
    | .err e => .err e
    | .out => .out

/-- `interpretAsync(tokens, options)` (same result shape as `interpret`). -/
def interpretAsync (T : Trig) (O : Opts) (fuel : ℕ) (tokens : List Tok) :
    RunRes IResult :=
  match asyncTop T O fuel tokens (initState O) with
  | .ok s => .ok (mkResult O s)
  | .err e => .err e
  | .out => .out

/-- A stepper frame: `{body, index, remaining, kind, mode, until, breakFlag}`.
A count-repeat frame carries its remaining iterations; an until-repeat frame its
condition and `breakFlag` (its JS `remaining` is `Infinity` and never read); an `if`
frame (JS `remaining = 1`) pops as soon as its body is exhausted. -/
inductive Frame where
  | fCount (body : List Tok) (idx : ℕ) (rem : ℕ)
  | fUntil (body : List Tok) (idx : ℕ) (c : Value) (brkFlag : Bool)
  | fIf (body : List Tok) (idx : ℕ)
deriving Repr

/-- The stepper's closure state: turtle state, cursor into the root token list,
frame stack (head of the list = innermost frame = top of the JS array), and the
`finished` flag. -/
structure Mach where
  ts : TState
  mainIdx : ℕ
  frames : List Frame
  finished : Bool
deriving Repr

def initMach (O : Opts) : Mach := ⟨initState O, 0, [], false⟩

/-- The stepper's `nextToken()`: pull the next token from the innermost frame,
handling body exhaustion (count decrement and re-entry, until-condition re-check,
`breakFlag`, frame popping) or from the root list.  `none` means the program is
exhausted.  The JS `while (true)` loop is fuelled (an until-frame with an empty body
and a false condition spins forever). -/
def nextTok (root : List Tok) : ℕ → Mach → RunRes (Option Tok × Mach)
  | 0, _ => .out
  | n + 1, m =>
    match m.frames with
    | [] =>
      match root.get? m.mainIdx with
      | none => .ok (none, m)
      | some t => .ok (some t, { m with mainIdx := m.mainIdx + 1 })
    | fr :: outer =>
      match fr with
      | .fCount body idx rem =>
        match body.get? idx with
        | some t => .ok (some t, { m with frames := .fCount body (idx + 1) rem :: outer })
        | none =>
          if rem - 1 > 0 then
            nextTok root n { m with frames := .fCount body 0 (rem - 1) :: outer }
          else nextTok root n { m with frames := outer }
      | .fIf body idx =>
        match body.get? idx with
        | some t => .ok (some t, { m with frames := .fIf body (idx + 1) :: outer })
        | none => nextTok root n { m with frames := outer }
      | .fUntil body idx c bflag =>
        match body.get? idx with
        | some t =>
          .ok (some t, { m with frames := .fUntil body (idx + 1) c bflag :: outer })
        | none =>
          if bflag then nextTok root n { m with frames := outer }
          else
            match (evalValue m.ts.vars c).toQ? with
            | none => .err "Invalid until expression"
            | some q =>
              if q ≠ 0 then nextTok root n { m with frames := outer }
              else nextTok root n { m with frames := .fUntil body 0 c bflag :: outer }

/-- Does the stack contain a repeat frame? (used by the BREAK/CONTINUE scan). -/
def hasRepeat : List Frame → Bool
  | [] => false
  | .fCount _ _ _ :: _ => true
  | .fUntil _ _ _ _ :: _ => true
  | .fIf _ _ :: rest => hasRepeat rest

/-- The stepper's `case 'BREAK'`: find the nearest repeat frame scanning inward-out,
finish its current body (`index = body.length`), force a count frame to exit after
the pending decrement (`remaining = 1`) or set an until frame's `breakFlag`, and
discard the frames nested inside it.  If there is no repeat frame the stack is left
unchanged (the JS scan finds nothing and never truncates). -/
def breakFrames : List Frame → List Frame
  | [] => []
  | .fCount body _ _ :: rest => .fCount body body.length 1 :: rest
  | .fUntil body _ c _ :: rest => .fUntil body body.length c true :: rest
  | .fIf body idx :: rest =>
    if hasRepeat rest then breakFrames rest else .fIf body idx :: rest

/-- The stepper's `case 'CONTINUE'`: fast-forward the nearest repeat frame's current
iteration (`index = body.length`, keeping its remaining count / flag), discarding
the frames nested inside it; no repeat frame means no change. -/
def contFrames : List Frame → List Frame
  | [] => []
  | .fCount body _ rem :: rest => .fCount body body.length rem :: rest
  | .fUntil body _ c f :: rest => .fUntil body body.length c f :: rest
  | .fIf body idx :: rest =>
    if hasRepeat rest then contFrames rest else .fIf body idx :: rest

/-- The stepper's `execToken(tok)`: leaf instructions update the turtle state via the
shared instruction bodies; `REPEAT`/`IF` push a frame (count only when the floored
count is positive, until only when the condition is exactly `0`, `if` only when the
test is truthy); `BREAK`/`CONTINUE` edit the frame stack. -/
def stepExecTok (T : Trig) (O : Opts) (t : Tok) (m : Mach) : Except String Mach :=
  match t with
  | .varT name v re =>
    match varStep name v re m.ts with
    | .error e => .error e
    | .ok s => .ok { m with ts := s }
  | .penT d => .ok { m with ts := penStep O d m.ts }
  | .turnT lf v =>
    match turnStep O lf v m.ts with
    | .error e => .error e
    | .ok s => .ok { m with ts := s }
  | .hsvT ph ps pv =>
    match hsvStep O ph ps pv m.ts with
    | .error e => .error e
    | .ok s => .ok { m with ts := s }
  | .moveT fw v =>
    match moveStep T O fw v m.ts with
    | .error e => .error e
    | .ok s => .ok { m with ts := s }
  | .repC c body =>
    match (evalValue m.ts.vars c).toQ? with
    | none => .error "Invalid repeat count"
    | some q =>
      if 0 < ⌊q⌋ then
        .ok { m with frames := .fCount body 0 (Int.toNat ⌊q⌋) :: m.frames }
      else .ok m
  | .repU c body =>
    match (evalValue m.ts.vars c).toQ? with
    | none => .error "Invalid until expression"
    | some q =>
      if q = 0 then .ok { m with frames := .fUntil body 0 c false :: m.frames }
      else .ok m
  | .ifT tst body =>
    if truthy (evalValue m.ts.vars tst) then
      .ok { m with frames := .fIf body 0 :: m.frames }
    else .ok m
  | .brk => .ok { m with frames := breakFrames m.frames }
  | .cont => .ok { m with frames := contFrames m.frames }

/-- Outcome of a stepper call.  Unlike `interpret`, an error keeps the machine: the
caller holds the stepper closure, whose state survives the throw (the state carried
by `.err` is the one at the failing instruction; frame-cursor edits that an erroring
`nextToken` made before throwing are not observable through `getState`). -/
inductive MRes where
  | ok (m : Mach)
  | err (msg : String) (m : Mach)
  | out
deriving Repr

def isMoveTurn : Tok → Bool
  | .moveT _ _ => true
  | .turnT _ _ => true
  | _ => false

/-- The stepper's `step()`: consume tokens, executing each, until one `MOVE`/`TURN`
has executed (yield) or the program is exhausted (set `finished`). -/
def stepFn (T : Trig) (O : Opts) (root : List Tok) : ℕ → Mach → MRes
  | 0, _ => .out
  | n + 1, m =>
    if m.finished then .ok m
    else
      match nextTok root n m with
      | .out => .out
      | .err e => .err e m
      | .ok (none, m₁) => .ok { m₁ with finished := true }
      | .ok (some t, m₁) =>
        match stepExecTok T O t m₁ with
        | .error e => .err e m₁
        | .ok m₂ => if isMoveTurn t then .ok m₂ else stepFn T O root n m₂

/-- Driving the stepper to completion: `while (!stepper.done()) stepper.step();`. -/
def drive (T : Trig) (O : Opts) (root : List Tok) : ℕ → Mach → MRes
  | 0, _ => .out
  | n + 1, m =>
    if m.finished then .ok m
    else
      match stepFn T O root n m with
      | .ok m₁ => drive T O root n m₁
      | .err e m₁ => .err e m₁
      | .out => .out

/-- The stepper's `getState()` shape. -/
structure GState where
  x : ℤ
  y : ℤ
  heading : ℚ
  penDown : Bool
  color : HSV
  vars : Env
  ops : List Operation
deriving DecidableEq, Repr

def getStateM (m : Mach) : GState :=
  ⟨jsRound m.ts.x, jsRound m.ts.y, m.ts.dir, m.ts.penDown, m.ts.color,
    m.ts.vars, m.ts.ops⟩

/-- The stepper's `result()`: `null` until `done()`, then the same shape as the
other engines. -/
def stepResult (O : Opts) (m : Mach) : Option IResult :=
  if m.finished then some (mkResult O m.ts) else none

/-! ### Predicates and relations used by the statements -/

/-- Every `turn` operation in the log carries a heading in `[0, 360)`. -/
def turnOpsGood (l : List Operation) : Prop :=
  ∀ q : ℚ, Operation.turn q ∈ l → 0 ≤ q ∧ q < 360

/-- State relation for the heading invariant: a run step preserves
well-formed turn records and a well-formed heading. -/
def dirStep (s s' : TState) : Prop :=
  (turnOpsGood s.ops → turnOpsGood s'.ops) ∧
  (0 ≤ s.dir ∧ s.dir < 360 → 0 ≤ s'.dir ∧ s'.dir < 360)

/-- Big-step evaluation relation of the synchronous engine: `Ev c s (s', sg)` holds
iff `syncRun` maps `c, s` to `.ok (s', sg)` for sufficiently large fuel.  One
constructor per control path of `execList` and its repeat loops. -/
inductive Ev (T : Trig) (O : Opts) : SCfg → TState → TState × Option Sig → Prop where
  | nil (s : TState) : Ev T O (.list []) s (s, none)
  | varC {name v re s s₁ rest r} :
      varStep name v re s = .ok s₁ → Ev T O (.list rest) s₁ r →
      Ev T O (.list (.varT name v re :: rest)) s r
  | penC {d s rest r} :
      Ev T O (.list rest) (penStep O d s) r →
      Ev T O (.list (.penT d :: rest)) s r
  | turnC {lf v s s₁ rest r} :
      turnStep O lf v s = .ok s₁ → Ev T O (.list rest) s₁ r →
      Ev T O (.list (.turnT lf v :: rest)) s r
  | hsvC {ph ps pv s s₁ rest r} :
      hsvStep O ph ps pv s = .ok s₁ → Ev T O (.list rest) s₁ r →
      Ev T O (.list (.hsvT ph ps pv :: rest)) s r
  | moveC {fw v s s₁ rest r} :
      moveStep T O fw v s = .ok s₁ → Ev T O (.list rest) s₁ r →
      Ev T O (.list (.moveT fw v :: rest)) s r
  | repCC {c q body s s₁ sg₁ rest r} :
      (evalValue s.vars c).toQ? = some q →
      Ev T O (.cnt (Int.toNat ⌊q⌋) body) s (s₁, sg₁) →
      Ev T O (.list rest) s₁ r →
      Ev T O (.list (.repC c body :: rest)) s r
  | repUC {c body s s₁ sg₁ rest r} :
      Ev T O (.unt c body) s (s₁, sg₁) →
      Ev T O (.list rest) s₁ r →
      Ev T O (.list (.repU c body :: rest)) s r
  | ifSig {tst body s s₁ sg rest} :
      truthy (evalValue s.vars tst) = true →
      Ev T O (.list body) s (s₁, some sg) →
      Ev T O (.list (.ifT tst body :: rest)) s (s₁, some sg)
  | ifNone {tst body s s₁ rest r} :
      truthy (evalValue s.vars tst) = true →
      Ev T O (.list body) s (s₁, none) →
      Ev T O (.list rest) s₁ r →
      Ev T O (.list (.ifT tst body :: rest)) s r
  | ifSkip {tst body s rest r} :
      truthy (evalValue s.vars tst) = false →
      Ev T O (.list rest) s r →
      Ev T O (.list (.ifT tst body :: rest)) s r
  | brkC {s rest} : Ev T O (.list (.brk :: rest)) s (s, some .brk)
  | contC {s rest} : Ev T O (.list (.cont :: rest)) s (s, some .cont)
  | cnt0 {body s} : Ev T O (.cnt 0 body) s (s, none)
  | cntBrk {k body s s₁} :
      Ev T O (.list body) s (s₁, some .brk) →
      Ev T O (.cnt (k + 1) body) s (s₁, none)
  | cntGo {k body s s₁ sg r} :
      sg ≠ some Sig.brk →
      Ev T O (.list body) s (s₁, sg) →
      Ev T O (.cnt k body) s₁ r →
      Ev T O (.cnt (k + 1) body) s r
  | untStop {c body s q} :
      (evalValue s.vars c).toQ? = some q → q ≠ 0 →
      Ev T O (.unt c body) s (s, none)
  | untBrk {c body s s₁} :
      (evalValue s.vars c).toQ? = some 0 →
      Ev T O (.list body) s (s₁, some .brk) →
      Ev T O (.unt c body) s (s₁, none)
  | untGo {c body s s₁ sg r} :
      (evalValue s.vars c).toQ? = some 0 →
      sg ≠ some Sig.brk →
      Ev T O (.list body) s (s₁, sg) →
      Ev T O (.unt c body) s₁ r →
      Ev T O (.unt c body) s r

mutual
/-- A token is signal-safe when every `break`/`continue` nested anywhere in it is a
*direct* child of an enclosing repeat body.  This is the regime in which all three
engines agree on break/continue (the async engine discards a signal crossing an `if`
frame; a signal reaching the top level stops the sync engine but not the others). -/
inductive SafeT : Tok → Prop where
  | moveT {fw v} : SafeT (.moveT fw v)
  | turnT {lf v} : SafeT (.turnT lf v)
  | penT {d} : SafeT (.penT d)
  | hsvT {ph ps pv} : SafeT (.hsvT ph ps pv)
  | varT {n v re} : SafeT (.varT n v re)
  | repC {c body} : SafeB body → SafeT (.repC c body)
  | repU {c body} : SafeB body → SafeT (.repU c body)
  | ifT {tst body} : SafeL body → SafeT (.ifT tst body)

/-- A list in non-loop position (the top level, or an `if` body): no direct
`break`/`continue`, every member safe. -/
inductive SafeL : List Tok → Prop where
  | nil : SafeL []
  | cons {t rest} : SafeT t → SafeL rest → SafeL (t :: rest)

/-- A repeat body: direct `break`/`continue` children are allowed. -/
inductive SafeB : List Tok → Prop where
  | nil : SafeB []
  | consBrk {rest} : SafeB rest → SafeB (.brk :: rest)
  | consCont {rest} : SafeB rest → SafeB (.cont :: rest)
  | cons {t rest} : SafeT t → SafeB rest → SafeB (t :: rest)
end

/-- `M' simulates M`: whatever final outcome driving the stepper reaches from `M'`,
driving it from `M` reaches the same outcome. -/
def Sim (T : Trig) (O : Opts) (root : List Tok) (m m' : Mach) : Prop :=
  ∀ r : Mach, (∃ n, drive T O root n m' = .ok r) → ∃ n, drive T O root n m = .ok r

/-- Advance a frame's cursor to the end of its body (the state of a frame whose
current body pass has been fully executed). -/
def setIdxEnd : Frame → Frame
  | .fCount body _ rem => .fCount body body.length rem
  | .fUntil body _ c f => .fUntil body body.length c f
  | .fIf body _ => .fIf body body.length

/-- The frame stack after the body suffix of the top frame finished with signal
`sg`: a normal finish parks the cursor at the end; a `break`/`continue` applies the
stepper's BREAK/CONTINUE edit to the top frame (which, for the runs we relate, is
the repeat frame the signal targets). -/
def sigFrames : Option Sig → Frame → List Frame → List Frame
  | none, fr, rest => setIdxEnd fr :: rest
  | some .brk, fr, rest => breakFrames (fr :: rest)
  | some .cont, fr, rest => contFrames (fr :: rest)

/-- The tokens a frame has yet to deliver in its current body pass. -/
def frameRest (fr : Frame) : List Tok :=
  match fr with
  | .fCount body idx _ => body.drop idx
  | .fUntil body idx _ _ => body.drop idx
  | .fIf body idx => body.drop idx

/-- Safety of the pending part of a frame, by frame kind. -/
def frOkAt (fr : Frame) : Prop :=
  match fr with
  | .fCount body idx _ => SafeB (body.drop idx)
  | .fUntil body idx _ _ => SafeB (body.drop idx)
  | .fIf body idx => SafeL (body.drop idx)

/-- Advance a frame's cursor by one: the frame shape after `nextToken` delivers the
token at the cursor. -/
def bumpIdx : Frame → Frame
  | .fCount b i r => .fCount b (i + 1) r
  | .fUntil b i c f => .fUntil b (i + 1) c f
  | .fIf b i => .fIf b (i + 1)

/-- The async loop shape corresponding to a synchronous configuration. -/
def acfgOf : SCfg → ACfg
  | .list l => .seq l
  | .cnt k b => .cnt k b
  | .unt c b => .unt c b

/-- Signal-safety of a configuration's pending program text. -/
def SafeCfg : SCfg → Prop
  | .list l => SafeB l
  | .cnt _ b => SafeB b
  | .unt _ b => SafeB b

/-- Two cells are 8-connected neighbours (distinct, and within one step in each
coordinate). -/
def adj8 (a b : ℤ × ℤ) : Prop :=
  a ≠ b ∧ |b.1 - a.1| ≤ 1 ∧ |b.2 - a.2| ≤ 1

/-- A body run of the synchronous engine finishing without a pending signal. -/
def BodyRun (T : Trig) (O : Opts) (body : List Tok) (s s' : TState) : Prop :=
  ∃ n, syncRun T O n (.list body) s = .ok (s', none)

/-- `k` successive signal-free body runs. -/
def BodyIter (T : Trig) (O : Opts) (body : List Tok) : ℕ → TState → TState → Prop
  | 0, s, s' => s' = s
  | k + 1, s, s' => ∃ mid, BodyRun T O body s mid ∧ BodyIter T O body k mid s'

/-- Is the operation kept by the `width`/`height` culling?  (Only `plot`s are ever
culled.) -/
def keepOp (w h : Option ℚ) : Operation → Bool
  | .plot x y _ => !culled w h x y
  | _ => true

/-- Observational relation for the bounds claim: the run with bounds `w,h` has the
same position, heading, pen, color and variables as the unbounded run, and its log
is the unbounded log with the out-of-range plots removed. -/
def obsEq (w h : Option ℚ) (sb su : TState) : Prop :=
  sb.x = su.x ∧ sb.y = su.y ∧ sb.dir = su.dir ∧ sb.penDown = su.penDown ∧
  sb.color = su.color ∧ sb.vars = su.vars ∧ sb.ops = su.ops.filter (keepOp w h)

/-- `obsEq` on the result of one instruction body. -/
def exRel (w h : Option ℚ) : Except String TState → Except String TState → Prop
  | .error e, .error e' => e = e'
  | .ok sb, .ok su => obsEq w h sb su
  | _, _ => False

/-- `obsEq` on engine results. -/
def resRel (w h : Option ℚ) : RunRes (TState × Option Sig) → RunRes (TState × Option Sig) → Prop
  | .ok (sb, sgb), .ok (su, sgu) => obsEq w h sb su ∧ sgb = sgu
  | .err e, .err e' => e = e'
  | .out, .out => True
  | _, _ => False

/-- `obsEq` on whole-run results (`interpret`/`interpretAsync` shape). -/
def iresRel (w h : Option ℚ) : RunRes IResult → RunRes IResult → Prop
  | .ok rb, .ok ru =>
    rb.finalX = ru.finalX ∧ rb.finalY = ru.finalY ∧
    rb.finalHeading = ru.finalHeading ∧ rb.penDown = ru.penDown ∧
    rb.color = ru.color ∧ rb.varSnapshot = ru.varSnapshot ∧
    rb.operations = ru.operations.filter (keepOp w h)
  | .err e, .err e' => e = e'
  | .out, .out => True
  | _, _ => False

/-- `obsEq` on machines (frame stacks and cursors coincide). -/
def machRel (w h : Option ℚ) (mb mu : Mach) : Prop :=
  obsEq w h mb.ts mu.ts ∧ mb.mainIdx = mu.mainIdx ∧ mb.frames = mu.frames ∧
  mb.finished = mu.finished

/-- `machRel` on stepper outcomes. -/
def mresRel (w h : Option ℚ) : MRes → MRes → Prop
  | .ok mb, .ok mu => machRel w h mb mu
  | .err e mb, .err e' mu => e = e' ∧ machRel w h mb mu
  | .out, .out => True
  | _, _ => False

/-- `obsEq` on `asyncTop` results. -/
def tresRel (w h : Option ℚ) : RunRes TState → RunRes TState → Prop
  | .ok sb, .ok su => obsEq w h sb su
  | .err e, .err e' => e = e'
  | .out, .out => True
  | _, _ => False

/-- `machRel` on `nextTok` results: same fetched token, related machines. -/
def ntRel (w h : Option ℚ) : RunRes (Option Tok × Mach) → RunRes (Option Tok × Mach) → Prop
  | .ok (tb, mb), .ok (tu, mu) => tb = tu ∧ machRel w h mb mu
  | .err e, .err e' => e = e'
  | .out, .out => True
  | _, _ => False

/-- `machRel` on `stepExecTok` results. -/
def mexRel (w h : Option ℚ) : Except String Mach → Except String Mach → Prop
  | .ok mb, .ok mu => machRel w h mb mu
  | .error e, .error e' => e = e'
  | _, _ => False

/-! ### Arithmetic facts about `wrapHue` -/

lemma jsTrunc_intCast (n : ℤ) : jsTrunc (n : ℚ) = n := by
  unfold jsTrunc
  split
  · exact Int.floor_intCast n
  · rw [← Int.cast_neg, Int.floor_intCast]; ring

/-- `wrapHue` agrees with the mathematical floor-mod by 360. -/
lemma wrapHue_eq (h : ℚ) : wrapHue h = h - 360 * ⌊h / 360⌋ := by
  have h360 : (0 : ℚ) < 360 := by norm_num
  set n : ℤ := ⌊h / 360⌋ with hn
  set f : ℚ := h - 360 * n with hf
  have hle : (n : ℚ) ≤ h / 360 := Int.floor_le _
  have hlt : h / 360 < n + 1 := Int.lt_floor_add_one _
  have hf0 : 0 ≤ f := by
    have := (le_div_iff h360).mp hle
    simp only [hf]; linarith
  have hf1 : f < 360 := by
    have := (div_lt_iff h360).mp hlt
    simp only [hf]; push_cast at this ⊢; linarith
  have hh : h = 360 * n + f := by rw [hf]; ring
  have key : jsRem h 360 = (if f = 0 then 0 else if 0 ≤ h then f else f - 360) := by
    by_cases hz : f = 0
    · have he : h / 360 = (n : ℚ) := by
        rw [hh, hz]; field_simp
      simp only [hz, if_pos]
      rw [jsRem, he, jsTrunc_intCast]
      rw [hh, hz]; ring
    · have hfpos : 0 < f := lt_of_le_of_ne hf0 (Ne.symm hz)
      by_cases hpos : 0 ≤ h
      · have htr : jsTrunc (h / 360) = n := by
          unfold jsTrunc
          rw [if_pos (by positivity)]
        rw [if_neg hz, if_pos hpos, jsRem, htr, hh]; ring
      · have hneg : h / 360 < 0 := div_neg_of_neg_of_pos (lt_of_not_le hpos) h360
        have hfloor : ⌊-(h / 360)⌋ = -n - 1 := by
          have he : -(h / 360) = (-f) / 360 + (-n : ℤ) := by
            rw [hh]; push_cast; field_simp; ring
          rw [he, Int.floor_add_int]
          have : ⌊(-f) / 360⌋ = -1 := by
            apply Int.floor_eq_iff.mpr
            constructor
            · push_cast
              rw [le_div_iff h360]; linarith
            · push_cast
              apply div_neg_of_neg_of_pos (by linarith) h360 |>.trans_le
              norm_num
          omega
        have htr : jsTrunc (h / 360) = n + 1 := by
          unfold jsTrunc
          rw [if_neg (not_le.mpr hneg), hfloor]; ring
        rw [if_neg hz, if_neg hpos, jsRem, htr, hh]; push_cast; ring
  rw [wrapHue, key]
  by_cases hz : f = 0
  · rw [if_pos hz]
    have : jsTrunc ((0 + 360 : ℚ) / 360) = 1 := by
      norm_num
      exact jsTrunc_intCast 1
    rw [jsRem, this]
    simp [hf] at hz ⊢
    linarith
  · have hfpos : 0 < f := lt_of_le_of_ne hf0 (Ne.symm hz)
    rw [if_neg hz]
    by_cases hpos : 0 ≤ h
    · rw [if_pos hpos]
      have he : (f + 360) / 360 = f / 360 + (1 : ℤ) := by field_simp
      have hfl : jsTrunc ((f + 360) / 360) = 1 := by
        unfold jsTrunc
        rw [if_pos (by positivity), he, Int.floor_add_int]
        have : ⌊f / 360⌋ = 0 := by
          apply Int.floor_eq_iff.mpr
          constructor
          · push_cast; positivity
          · push_cast; rw [div_lt_iff h360]; linarith
        omega
      rw [jsRem, hfl]
      push_cast; ring
    · rw [if_neg hpos]
      have he2 : f - 360 + 360 = f := by ring
      rw [he2, jsRem]
      have hfl : jsTrunc (f / 360) = 0 := by
        unfold jsTrunc
        rw [if_pos (by positivity)]
        apply Int.floor_eq_iff.mpr
        constructor
        · push_cast; positivity
        · push_cast; rw [div_lt_iff h360]; linarith
      rw [hfl]
      push_cast; ring

lemma wrapHue_nonneg (h : ℚ) : 0 ≤ wrapHue h := by
  rw [wrapHue_eq]
  have hle : ((⌊h / 360⌋ : ℚ)) ≤ h / 360 := Int.floor_le _
  have := (le_div_iff (by norm_num : (0:ℚ) < 360)).mp hle
  linarith

lemma wrapHue_lt (h : ℚ) : wrapHue h < 360 := by
  rw [wrapHue_eq]
  have hlt : h / 360 < ⌊h / 360⌋ + 1 := Int.lt_floor_add_one _
  have := (div_lt_iff (by norm_num : (0:ℚ) < 360)).mp hlt
  push_cast at this
  linarith

lemma wrapHue_period (h : ℚ) (k : ℤ) : wrapHue (h + 360 * k) = wrapHue h := by
  rw [wrapHue_eq, wrapHue_eq]
  have he : (h + 360 * k) / 360 = h / 360 + (k : ℚ) := by field_simp; ring
  rw [he]
  have : ⌊h / 360 + (k : ℚ)⌋ = ⌊h / 360⌋ + k := Int.floor_add_int _ _
  rw [this]
  push_cast
  ring

/-- C7: for every angle `h`, `wrapHue h ∈ [0, 360)`; `wrapHue` is 360-periodic
(`wrapHue (h + 360·k) = wrapHue h` for every integer `k`); and the very same
`wrapHue` is the normalization applied both to the heading by TURN
(`dir = wrapHue(dir + delta)` in `turnStep`) and to the hue component by
`applyHSVParam` (offset and absolute modes). -/
theorem claim_c7 :
    (∀ h : ℚ, 0 ≤ wrapHue h ∧ wrapHue h < 360) ∧
    (∀ (h : ℚ) (k : ℤ), wrapHue (h + 360 * k) = wrapHue h) ∧
    (∀ (O : Opts) (lf : Bool) (q : ℚ) (s : TState),
      turnStep O lf (Value.num q) s =
        .ok (pushOp O (.turn (wrapHue (s.dir + (if lf then -q else q))))
          { s with dir := wrapHue (s.dir + (if lf then -q else q)) })) ∧
    (∀ (cur d : ℚ) (env : Env),
      applyHSVParam cur (.offsetNum d) true env = .ok (wrapHue (cur + d))) ∧
    (∀ (cur q : ℚ) (env : Env),
      applyHSVParam cur (.absNum q) true env = .ok (wrapHue q)) :=
  ⟨fun h => ⟨wrapHue_nonneg h, wrapHue_lt h⟩, wrapHue_period,
    fun _ _ _ _ => rfl, fun _ _ _ => rfl, fun _ _ _ => rfl⟩

/-- C6: expression evaluation yields exactly `1` or `0` for every comparison
operator, and `/` and `%` with a right operand evaluating to `0` yield the
non-finite `NaN` value instead of an error. -/
theorem claim_c6 :
    (∀ (env : Env) (l r : Expr), evalExpr env r = .fin 0 →
      evalExpr env (.bin .div l r) = .nan ∧ evalExpr env (.bin .mod l r) = .nan) ∧
    (∀ (env : Env) (op : BinOp) (l r : Expr),
      op = .beq ∨ op = .bne ∨ op = .blt ∨ op = .ble ∨ op = .bgt ∨ op = .bge →
      evalExpr env (.bin op l r) = .fin 0 ∨ evalExpr env (.bin op l r) = .fin 1) := by
  constructor
  · intro env l r h
    constructor <;> simp [evalExpr, binEval, h]
  · intro env op l r h
    have hcmp : ∀ f : ℚ → ℚ → Bool,
        cmp2 f (evalExpr env l) (evalExpr env r) = .fin 0 ∨
        cmp2 f (evalExpr env l) (evalExpr env r) = .fin 1 := by
      intro f
      cases evalExpr env l <;> cases evalExpr env r <;> simp [cmp2]
    rcases h with h | h | h | h | h | h <;> subst h <;>
      simp only [evalExpr, binEval]
    · by_cases h : jsStrictEq (evalExpr env l) (evalExpr env r) <;> simp [h]
    · by_cases h : jsStrictEq (evalExpr env l) (evalExpr env r) <;> simp [h]
    · exact hcmp _
    · exact hcmp _
    · exact hcmp _
    · exact hcmp _

/-- Witness for C6 at concrete inputs: `1/0` is `NaN`; `1 < 2` is `1` or `0`. -/
theorem claim_c6_witness :
    (evalExpr [] (.bin .div (.num 1) (.num 0)) = .nan ∧
      evalExpr [] (.bin .mod (.num 1) (.num 0)) = .nan) ∧
    (evalExpr [] (.bin .blt (.num 1) (.num 2)) = .fin 0 ∨
      evalExpr [] (.bin .blt (.num 1) (.num 2)) = .fin 1) :=
  ⟨claim_c6.1 [] (.num 1) (.num 0) rfl,
    claim_c6.2 [] .blt (.num 1) (.num 2) (.inr (.inr (.inl rfl)))⟩

/-- C10: in every engine, an `IF` whose test is non-finite (e.g. an undefined
variable) is *not* an error — the body is skipped and execution continues with the
next instruction — whereas a non-finite `repeat until` condition throws
`Invalid until expression`.  Sync: the `IF` line reduces to running the rest of the
list.  Async: the `IF` token completes normally with no signal.  Stepper: `IF`
pushes no frame and leaves the machine unchanged, while the until-`REPEAT` throws. -/
theorem claim_c10 (T : Trig) (O : Opts) (tst c : Value) (body rest : List Tok)
    (s : TState) (m : Mach) (n : ℕ)
    (hs : truthy (evalValue s.vars tst) = false)
    (hc : (evalValue s.vars c).toQ? = none)
    (hms : truthy (evalValue m.ts.vars tst) = false)
    (hmc : (evalValue m.ts.vars c).toQ? = none) :
    syncRun T O (n + 1) (.list (Tok.ifT tst body :: rest)) s =
      syncRun T O n (.list rest) s ∧
    syncRun T O (n + 1) (.unt c body) s = .err "Invalid until expression" ∧
    asyncRun T O (n + 1) (.tok (Tok.ifT tst body)) s = .ok (s, none) ∧
    asyncRun T O (n + 1) (.unt c body) s = .err "Invalid until expression" ∧
    stepExecTok T O (Tok.ifT tst body) m = .ok m ∧
    stepExecTok T O (Tok.repU c body) m = .error "Invalid until expression" := by
  refine ⟨?_, ?_, ?_, ?_, ?_, ?_⟩
  · simp [syncRun, hs]
  · simp [syncRun, hc]
  · simp [asyncRun, hs]
  · simp [asyncRun, hc]
  · simp [stepExecTok, hms]
  · simp [stepExecTok, hmc]

/-- Witness for C10: the test/condition is a reference to the undefined variable
`z` in the empty environment. -/
theorem claim_c10_witness :
    syncRun ⟨fun _ => 1, fun _ => 0⟩ {} 3 (.list [Tok.ifT (.ref "z") [], Tok.penT true])
        (initState {}) =
      syncRun ⟨fun _ => 1, fun _ => 0⟩ {} 2 (.list [Tok.penT true]) (initState {}) ∧
    syncRun ⟨fun _ => 1, fun _ => 0⟩ {} 3 (.unt (.ref "z") []) (initState {}) =
      .err "Invalid until expression" ∧
    asyncRun ⟨fun _ => 1, fun _ => 0⟩ {} 3 (.tok (Tok.ifT (.ref "z") []))
        (initState {}) = .ok (initState {}, none) ∧
    asyncRun ⟨fun _ => 1, fun _ => 0⟩ {} 3 (.unt (.ref "z") []) (initState {}) =
      .err "Invalid until expression" ∧
    stepExecTok ⟨fun _ => 1, fun _ => 0⟩ {} (Tok.ifT (.ref "z") []) (initMach {}) =
      .ok (initMach {}) ∧
    stepExecTok ⟨fun _ => 1, fun _ => 0⟩ {} (Tok.repU (.ref "z") []) (initMach {}) =
      .error "Invalid until expression" :=
  claim_c10 ⟨fun _ => 1, fun _ => 0⟩ {} (.ref "z") (.ref "z") [] [Tok.penT true]
    (initState {}) (initMach {}) 2 rfl rfl rfl rfl

/-! ### The heading invariant (C4) -/

lemma turnOpsGood_nil : turnOpsGood [] := by
  intro q hq; cases hq

lemma turnOpsGood_append {l₁ l₂ : List Operation}
    (h₁ : turnOpsGood l₁) (h₂ : turnOpsGood l₂) : turnOpsGood (l₁ ++ l₂) := by
  intro q hq
  rcases List.mem_append.mp hq with h | h
  · exact h₁ q h
  · exact h₂ q h

lemma plotVisit_no_turn (O : Opts) (c : HSV) (acc : List Operation × (ℤ × ℤ))
    (cell : ℤ × ℤ) (q : ℚ) (hq : Operation.turn q ∈ (plotVisit O c acc cell).1) :
    Operation.turn q ∈ acc.1 := by
  unfold plotVisit at hq
  split at hq
  · exact hq
  · split at hq
    · exact hq
    · simp only at hq
      rcases List.mem_append.mp hq with h | h
      · exact h
      · exfalso
        rcases O.record with _ | _ <;> simp at h

lemma plotsFor_no_turn (O : Opts) (c : HSV) (last0 : ℤ × ℤ) (cells : List (ℤ × ℤ))
    (q : ℚ) : Operation.turn q ∉ plotsFor O c last0 cells := by
  suffices h : ∀ (cells : List (ℤ × ℤ)) (acc : List Operation × (ℤ × ℤ)),
      Operation.turn q ∈ (cells.foldl (plotVisit O c) acc).1 →
      Operation.turn q ∈ acc.1 by
    intro hq
    exact absurd (h cells ([], last0) hq) (by intro hh; cases hh)
  intro cells
  induction cells with
  | nil => intro acc hq; exact hq
  | cons cell rest ih =>
    intro acc hq
    rw [List.foldl_cons] at hq
    exact plotVisit_no_turn O c acc cell q (ih _ hq)

lemma dirStep_refl (s : TState) : dirStep s s := ⟨id, id⟩

lemma dirStep_trans {s₁ s₂ s₃ : TState} (h₁ : dirStep s₁ s₂) (h₂ : dirStep s₂ s₃) :
    dirStep s₁ s₃ := ⟨fun h => h₂.1 (h₁.1 h), fun h => h₂.2 (h₁.2 h)⟩

/-- A step that appends only well-formed operations and keeps the heading. -/
lemma dirStep_of_ops_dir {s s' : TState} (l : List Operation)
    (hops : s'.ops = s.ops ++ l) (hl : turnOpsGood l) (hdir : s'.dir = s.dir) :
    dirStep s s' := by
  constructor
  · intro hg
    rw [hops]
    exact turnOpsGood_append hg hl
  · intro hd
    rw [hdir]
    exact hd

lemma turnOpsGood_single (op : Operation) (hop : ∀ q : ℚ, op = Operation.turn q → 0 ≤ q ∧ q < 360) :
    turnOpsGood [op] := by
  intro q hq
  exact hop q (List.mem_singleton.mp hq).symm

/-- Pushing one non-turn operation onto a base state that shares `s`'s log and
heading is `dirStep`-safe. -/
lemma dirStep_push_general (O' : Opts) (op : Operation) (s base : TState)
    (hops : base.ops = s.ops) (hdir : base.dir = s.dir)
    (hop : ∀ q : ℚ, op ≠ Operation.turn q) : dirStep s (pushOp O' op base) := by
  unfold pushOp
  split
  · exact dirStep_of_ops_dir [op] (by simp [hops])
      (turnOpsGood_single op (fun q hq => absurd hq (hop q))) hdir
  · exact dirStep_of_ops_dir [] (by simp [hops]) turnOpsGood_nil hdir

/-- The `dirStep` fact for the exact state shape built by the MOVE case with the
pen down. -/
lemma dirStep_move_shape (O' : Opts) (op : Operation) (s : TState)
    (l : List Operation) (tx ty : ℚ)
    (hl : turnOpsGood l) (hop : ∀ q : ℚ, op ≠ Operation.turn q) :
    dirStep s (pushOp O' op
      { x := tx, y := ty, dir := s.dir, penDown := s.penDown, color := s.color,
        ops := s.ops ++ l, vars := s.vars }) := by
  unfold pushOp
  split
  · refine dirStep_of_ops_dir (l ++ [op]) (by simp) ?_ rfl
    exact turnOpsGood_append hl (turnOpsGood_single op (fun q hq => absurd hq (hop q)))
  · exact dirStep_of_ops_dir l rfl hl rfl

lemma dirStep_varStep {name v re s s₁} (h : varStep name v re s = .ok s₁) :
    dirStep s s₁ := by
  unfold varStep at h
  split at h
  · cases h
  · split at h
    · split at h
      · cases h; exact ⟨id, id⟩
      · cases h
    · cases h; exact ⟨id, id⟩

lemma dirStep_penStep (O : Opts) (d : Bool) (s : TState) :
    dirStep s (penStep O d s) := by
  unfold penStep
  refine dirStep_push_general O _ s _ rfl rfl ?_
  intro q
  simp

lemma dirStep_turnStep {O lf v s s₁} (h : turnStep O lf v s = .ok s₁) :
    dirStep s s₁ := by
  unfold turnStep at h
  split at h
  · cases h
  · cases h
    constructor
    · intro hgood
      unfold pushOp
      split
      · simp only
        refine turnOpsGood_append hgood (turnOpsGood_single _ ?_)
        intro q hq
        injection hq with h4
        rw [← h4]
        exact ⟨wrapHue_nonneg _, wrapHue_lt _⟩
      · exact hgood
    · intro _
      unfold pushOp
      split <;> exact ⟨wrapHue_nonneg _, wrapHue_lt _⟩

lemma dirStep_hsvStep {O ph ps pv s s₁} (h : hsvStep O ph ps pv s = .ok s₁) :
    dirStep s s₁ := by
  unfold hsvStep at h
  split at h
  · cases h
  · split at h
    · cases h
    · split at h
      · cases h
      · cases h
        refine dirStep_push_general O _ s _ rfl rfl ?_
        intro q
        simp

lemma dirStep_moveStep {T O fw v s s₁} (h : moveStep T O fw v s = .ok s₁) :
    dirStep s s₁ := by
  unfold moveStep at h
  split at h
  · cases h
  · cases h
    dsimp only
    by_cases hp : s.penDown = true
    · rw [if_pos hp]
      refine dirStep_move_shape O _ s _ _ _ ?_ ?_
      · intro q hq
        exact absurd hq (plotsFor_no_turn _ _ _ _ q)
      · intro q
        simp
    · rw [if_neg hp]
      refine dirStep_push_general O _ s _ rfl rfl ?_
      intro q
      simp

/-- Every successful `execList`/repeat-loop run of the synchronous engine is a
`dirStep`: it keeps turn records normalized and preserves a normalized heading. -/
lemma syncRun_dirStep (T : Trig) (O : Opts) :
    ∀ (n : ℕ) (c : SCfg) (s : TState) (r : TState × Option Sig),
      syncRun T O n c s = .ok r → dirStep s r.1 := by
  intro n
  induction n with
  | zero => intro c s r h; cases h
  | succ n ih =>
    intro c s r h
    match c with
    | .list [] =>
      cases h
      exact dirStep_refl s
    | .list (t :: rest) =>
      match t with
      | .varT name v re =>
        simp only [syncRun] at h
        split at h
        next e hv => cases h
        next s₁ hv => exact dirStep_trans (dirStep_varStep hv) (ih _ _ _ h)
      | .penT d =>
        simp only [syncRun] at h
        exact dirStep_trans (dirStep_penStep O d s) (ih _ _ _ h)
      | .turnT lf v =>
        simp only [syncRun] at h
        split at h
        next e hv => cases h
        next s₁ hv => exact dirStep_trans (dirStep_turnStep hv) (ih _ _ _ h)
      | .hsvT ph ps pv =>
        simp only [syncRun] at h
        split at h
        next e hv => cases h
        next s₁ hv => exact dirStep_trans (dirStep_hsvStep hv) (ih _ _ _ h)
      | .moveT fw v =>
        simp only [syncRun] at h
        split at h
        next e hv => cases h
        next s₁ hv => exact dirStep_trans (dirStep_moveStep hv) (ih _ _ _ h)
      | .repC c body =>
        simp only [syncRun] at h
        split at h
        next hq => cases h
        next q hq =>
          split at h
          next s₁ sg hr => exact dirStep_trans (ih _ _ _ hr) (ih _ _ _ h)
          next e hr => cases h
          next hr => cases h
      | .repU c body =>
        simp only [syncRun] at h
        split at h
        next s₁ sg hr => exact dirStep_trans (ih _ _ _ hr) (ih _ _ _ h)
        next e hr => cases h
        next hr => cases h
      | .ifT tst body =>
        simp only [syncRun] at h
        split at h
        · split at h
          next s₁ sg hr => cases h; have hd := ih _ _ _ hr; exact hd
          next s₁ hr => exact dirStep_trans (ih _ _ _ hr) (ih _ _ _ h)
          next e hr => cases h
          next hr => cases h
        · exact ih _ _ _ h
      | .brk => cases h; exact dirStep_refl s
      | .cont => cases h; exact dirStep_refl s
    | .cnt 0 body =>
      cases h
      exact dirStep_refl s
    | .cnt (k + 1) body =>
      simp only [syncRun] at h
      split at h
      next s₁ hr => cases h; have hd := ih _ _ _ hr; exact hd
      next s₁ sg hns hr => exact dirStep_trans (ih _ _ _ hr) (ih _ _ _ h)
      next e hr => cases h
      next hr => cases h
    | .unt c body =>
      simp only [syncRun] at h
      split at h
      next hq => cases h
      next q hq =>
        split at h
        · cases h; exact dirStep_refl s
        · split at h
          next s₁ hr => cases h; have hd := ih _ _ _ hr; exact hd
          next s₁ sg hns hr => exact dirStep_trans (ih _ _ _ hr) (ih _ _ _ h)
          next e hr => cases h
          next hr => cases h

/-- C4 (amended): in the synchronous engine, every `turn` operation in a returned
log carries a heading in `[0, 360)` (for *every* caller-supplied initial heading),
and whenever the caller-supplied initial heading itself lies in `[0, 360)` the
returned `finalHeading` also lies in `[0, 360)`.  (The claim's unconditional form
fails: the initial heading is stored unnormalized — see the counterexample.) -/
theorem claim_c4 (T : Trig) (O : Opts) (fuel : ℕ) (toks : List Tok) (r : IResult)
    (h : interpret T O fuel toks = .ok r) :
    turnOpsGood r.operations ∧
    (0 ≤ O.heading ∧ O.heading < 360 → 0 ≤ r.finalHeading ∧ r.finalHeading < 360) := by
  unfold interpret at h
  split at h
  next s sg hrun =>
    cases h
    have hd := syncRun_dirStep T O fuel _ _ _ hrun
    constructor
    · unfold mkResult
      simp only
      split
      · exact hd.1 turnOpsGood_nil
      · exact turnOpsGood_nil
    · intro hh
      exact hd.2 hh
  next e hrun => cases h
  next hrun => cases h

/-- Counterexample to C4 as stated: with initial heading `400` and the empty
program, the state heading and the returned `finalHeading` are `400 ∉ [0, 360)` —
the caller-supplied heading is never normalized. -/
theorem claim_c4_counterexample :
    interpret ⟨fun _ => 1, fun _ => 0⟩ { heading := 400 } 1 [] =
      .ok ⟨0, 0, 400, false, ⟨0, 0, 100⟩, [], []⟩ ∧
    ¬((400 : ℚ) < 360) := ⟨rfl, by norm_num⟩

/-! ### Error reporting (C3) and the async break-in-if bug (C2) -/

lemma stepExecTok_finished {T O t m m'} (h : stepExecTok T O t m = .ok m') :
    m'.finished = m.finished := by
  cases t with
  | varT nm v re =>
    simp only [stepExecTok] at h
    split at h
    · cases h
    · cases h; rfl
  | penT d =>
    simp only [stepExecTok] at h
    cases h; rfl
  | turnT lf v =>
    simp only [stepExecTok] at h
    split at h
    · cases h
    · cases h; rfl
  | hsvT ph ps pv =>
    simp only [stepExecTok] at h
    split at h
    · cases h
    · cases h; rfl
  | moveT fw v =>
    simp only [stepExecTok] at h
    split at h
    · cases h
    · cases h; rfl
  | repC c body =>
    simp only [stepExecTok] at h
    split at h
    · cases h
    · split at h <;> (cases h; rfl)
  | repU c body =>
    simp only [stepExecTok] at h
    split at h
    · cases h
    · split at h <;> (cases h; rfl)
  | ifT tst body =>
    simp only [stepExecTok] at h
    split at h <;> (cases h; rfl)
  | brk =>
    simp only [stepExecTok] at h
    cases h; rfl
  | cont =>
    simp only [stepExecTok] at h
    cases h; rfl

lemma nextTok_finished {root} : ∀ {n m t m'},
    nextTok root n m = .ok (t, m') → m'.finished = m.finished := by
  intro n
  induction n with
  | zero => intro m t m' h; cases h
  | succ n ih =>
    intro m t m' h
    unfold nextTok at h
    split at h
    · split at h <;> (cases h; rfl)
    · split at h
      · split at h
        · cases h; rfl
        · split at h <;> (have hx := ih h; exact hx)
      · split at h
        · cases h; rfl
        · have hx := ih h; exact hx
      · split at h
        · cases h; rfl
        · split at h
          · have hx := ih h; exact hx
          · split at h
            next => cases h
            next =>
              split at h
              · have hx := ih h; exact hx
              · have hx := ih h; exact hx

lemma stepFn_err_finished {T O root} : ∀ {n m e m'},
    stepFn T O root n m = .err e m' → m'.finished = false := by
  intro n
  induction n with
  | zero => intro m e m' h; cases h
  | succ n ih =>
    intro m e m' h
    unfold stepFn at h
    split at h
    · cases h
    next hfin =>
      split at h
      · cases h
      · cases h
        exact Bool.not_eq_true _ ▸ (by simpa using hfin)
      · cases h
      next t m₁ hnt =>
        split at h
        · cases h
          rw [nextTok_finished hnt]
          simpa using hfin
        next m₂ hex =>
          split at h
          · cases h
          · exact ih h

lemma drive_err_finished {T O root} : ∀ {n m e m'},
    drive T O root n m = .err e m' → m'.finished = false := by
  intro n
  induction n with
  | zero => intro m e m' h; cases h
  | succ n ih =>
    intro m e m' h
    unfold drive at h
    split at h
    · cases h
    · split at h
      · exact ih h
      · cases h
        exact stepFn_err_finished (by assumption)
      · cases h

/-- C3 (amended): a run-time error aborts every engine at the failing instruction.
The stepper's caller keeps the closure: after a failed drive, `result()` is still
`null` (the run is not reported complete) and `getState()` still exposes the
operations appended before the failure — concretely, for
`pen down; forward z` (`z` undefined) the machine retains the `pen` operation.  The
sync and async engines, in contrast, propagate the thrown error and return *only*
its message — the operations logged before the failure are not part of what the
caller receives. -/
theorem claim_c3 (T : Trig) (O : Opts) (root : List Tok) (n : ℕ) (e : String)
    (m' : Mach) (h : drive T O root n (initMach O) = .err e m') :
    stepResult O m' = none ∧ getStateM m' =
      ⟨jsRound m'.ts.x, jsRound m'.ts.y, m'.ts.dir, m'.ts.penDown, m'.ts.color,
        m'.ts.vars, m'.ts.ops⟩ ∧
    interpret ⟨fun _ => 1, fun _ => 0⟩ {} 9 [.penT true, .moveT true (.ref "z")] =
      .err "Invalid move value" ∧
    interpretAsync ⟨fun _ => 1, fun _ => 0⟩ {} 9 [.penT true, .moveT true (.ref "z")] =
      .err "Invalid move value" ∧
    drive ⟨fun _ => 1, fun _ => 0⟩ {} [.penT true, .moveT true (.ref "z")] 9
        (initMach {}) =
      .err "Invalid move value"
        ⟨⟨0, 0, 0, true, ⟨0, 0, 100⟩, [.pen true], []⟩, 2, [], false⟩ ∧
    (getStateM ⟨⟨0, 0, 0, true, ⟨0, 0, 100⟩, [.pen true], []⟩, 2, [], false⟩).ops =
      [.pen true] := by
  refine ⟨?_, rfl, rfl, rfl, rfl, rfl⟩
  unfold stepResult
  rw [if_neg]
  rw [drive_err_finished h]
  simp

/-- Witness for C3 at the concrete failing program. -/
theorem claim_c3_witness :
    stepResult ({} : Opts)
        ⟨⟨0, 0, 0, true, ⟨0, 0, 100⟩, [.pen true], []⟩, 2, [], false⟩ = none ∧
    getStateM ⟨⟨0, 0, 0, true, ⟨0, 0, 100⟩, [.pen true], []⟩, 2, [], false⟩ =
      ⟨0, 0, 0, true, ⟨0, 0, 100⟩, [], [.pen true]⟩ ∧
    interpret ⟨fun _ => 1, fun _ => 0⟩ {} 9 [.penT true, .moveT true (.ref "z")] =
      .err "Invalid move value" ∧
    interpretAsync ⟨fun _ => 1, fun _ => 0⟩ {} 9 [.penT true, .moveT true (.ref "z")] =
      .err "Invalid move value" ∧
    drive ⟨fun _ => 1, fun _ => 0⟩ {} [.penT true, .moveT true (.ref "z")] 9
        (initMach {}) =
      .err "Invalid move value"
        ⟨⟨0, 0, 0, true, ⟨0, 0, 100⟩, [.pen true], []⟩, 2, [], false⟩ ∧
    (getStateM ⟨⟨0, 0, 0, true, ⟨0, 0, 100⟩, [.pen true], []⟩, 2, [], false⟩).ops =
      [.pen true] :=
  claim_c3 ⟨fun _ => 1, fun _ => 0⟩ {} [.penT true, .moveT true (.ref "z")] 9
    "Invalid move value" ⟨⟨0, 0, 0, true, ⟨0, 0, 100⟩, [.pen true], []⟩, 2, [], false⟩ rfl

/-- Counterexample to C3 as stated: on `pen down; forward z` (`z` undefined) the
synchronous and async engines return only the thrown error message — the `.err`
outcome (a thrown JS `Error`) carries no partial result, although a `pen` operation
had been appended before the failing instruction, so the logged operations are
*not* available to their caller. -/
theorem claim_c3_counterexample :
    interpret ⟨fun _ => 1, fun _ => 0⟩ {} 9 [.penT true, .moveT true (.ref "z")] =
      .err "Invalid move value" ∧
    interpretAsync ⟨fun _ => 1, fun _ => 0⟩ {} 9 [.penT true, .moveT true (.ref "z")] =
      .err "Invalid move value" := ⟨rfl, rfl⟩

/-- C2 (code bug in the async engine): for
`repeat 2: { if 1: break; right 90 }`, the sync engine and the stepper exit the
repeat at the first iteration's `break` (no `turn` executes, as the spec demands),
but the async engine's `IF` case swallows the break signal (`return;` where its own
comment says "propagate to enclosing repeat"), so the loop runs both iterations and
two `turn`s execute. -/
theorem claim_c2_bug :
    interpret ⟨fun _ => 1, fun _ => 0⟩ {} 20
        [.repC (.num 2) [.ifT (.num 1) [.brk], .turnT false (.num 90)]] =
      .ok ⟨0, 0, 0, false, ⟨0, 0, 100⟩, [], []⟩ ∧
    drive ⟨fun _ => 1, fun _ => 0⟩ {}
        [.repC (.num 2) [.ifT (.num 1) [.brk], .turnT false (.num 90)]] 20
        (initMach {}) =
      .ok ⟨⟨0, 0, 0, false, ⟨0, 0, 100⟩, [], []⟩, 1, [], true⟩ ∧
    interpretAsync ⟨fun _ => 1, fun _ => 0⟩ {} 20
        [.repC (.num 2) [.ifT (.num 1) [.brk], .turnT false (.num 90)]] =
      .ok ⟨0, 0, 180, false, ⟨0, 0, 100⟩, [.turn 90, .turn 180], []⟩ :=
  ⟨rfl, rfl, rfl⟩

/-! ### The Bresenham rasterizer (C8)

The walk is analysed through the exact invariant of the error accumulator: writing
`rx`/`ry` for the remaining steps along x/y, every loop entry satisfies
`err = dx + dy + (dx - rx)·dy + (-dy - ry)·dx` together with `dy ≤ 2·err` in the
x-major regime (`dx + dy ≥ 0`).  That invariant forces x to advance on every
iteration and y never to overshoot, so the loop performs exactly `dx` steps.  The
y-major case is obtained from the exact symmetry `(x, y, err) ↦ (y, x, -err)`. -/

lemma rasterAux_xmajor (X1 Y1 sx sy dx dy : ℤ)
    (hsx : sx = 1 ∨ sx = -1) (hsy : sy = 1 ∨ sy = -1)
    (hdx : 0 ≤ dx) (hdy : dy ≤ 0) (hmaj : 0 ≤ dx + dy) :
    ∀ (n : ℕ) (x y err rx ry : ℤ),
      rx = sx * (X1 - x) → ry = sy * (Y1 - y) →
      0 ≤ rx → rx ≤ dx → 0 ≤ ry → ry ≤ -dy →
      err = dx + dy + (dx - rx) * dy + (-dy - ry) * dx →
      dy ≤ 2 * err →
      rx.toNat < n →
      ∃ l, rasterAux X1 Y1 sx sy dx dy n x y err = some l ∧
        l.length = rx.toNat + 1 ∧
        l.head? = some (x, y) ∧
        l.getLast? = some (X1, Y1) ∧
        List.Chain' (fun a b => b.1 = a.1 + sx ∧ (b.2 = a.2 ∨ b.2 = a.2 + sy)) l ∧
        l.Nodup ∧
        (∀ p ∈ l, sx * x ≤ sx * p.1) := by
  have hsx2 : sx * sx = 1 := by rcases hsx with rfl | rfl <;> norm_num
  have hsy2 : sy * sy = 1 := by rcases hsy with rfl | rfl <;> norm_num
  intro n
  induction n with
  | zero => intro x y err rx ry _ _ _ _ _ _ _ _ hn; omega
  | succ n ih =>
    intro x y err rx ry hrx hry hrx0 hrxd hry0 hryd herr h2e hn
    by_cases hx : x = X1
    · -- x has arrived; the invariant forces y to have arrived as well
      have hrxz : rx = 0 := by rw [hrx, hx]; ring
      have hryz : ry = 0 := by
        by_contra hne
        have h1 : 1 ≤ ry := by omega
        have hdy1 : dy ≤ -1 := by omega
        nlinarith [mul_le_mul_of_nonneg_right h1 hdx]
      have hy : y = Y1 := by
        rcases hsy with rfl | rfl <;> [skip; skip] <;> omega
      subst hx; subst hy
      refine ⟨[(x, y)], ?_, ?_, rfl, rfl, ?_, ?_, ?_⟩
      · unfold rasterAux
        rw [if_pos ⟨rfl, rfl⟩]
      · simp [hrxz]
      · simp
      · simp
      · intro p hp
        simp at hp
        simp [hp]
    · -- x still to go: x advances this iteration
      have hrx1 : 1 ≤ rx := by
        rcases lt_or_eq_of_le hrx0 with h | h
        · omega
        · exfalso
          apply hx
          rcases hsx with rfl | rfl <;> omega
      have hdx1 : 1 ≤ dx := le_trans hrx1 hrxd
      have hcond : ¬(x = X1 ∧ y = Y1) := fun hc => hx hc.1
      have hrx' : rx - 1 = sx * (X1 - (x + sx)) := by
        rw [hrx]
        have : sx * (X1 - (x + sx)) = sx * (X1 - x) - sx * sx := by ring
        rw [this, hsx2]
      have hstep : ∀ l', rasterAux X1 Y1 sx sy dx dy n (x + sx)
            (if 2 * err ≤ dx then y + sy else y)
            (if 2 * err ≤ dx then err + dy + dx else err + dy) = some l' →
          rasterAux X1 Y1 sx sy dx dy (n + 1) x y err = some ((x, y) :: l') := by
        intro l' hl'
        unfold rasterAux
        rw [if_neg hcond]
        simp only [if_pos h2e]
        by_cases hc2 : 2 * err ≤ dx
        · simp only [if_pos hc2] at hl' ⊢
          rw [hl']
          rfl
        · simp only [if_neg hc2] at hl' ⊢
          rw [hl']
          rfl
      by_cases hc2 : 2 * err ≤ dx
      · -- both x and y advance
        have hry1 : 1 ≤ ry := by
          by_contra hne
          have hryz : ry = 0 := by omega
          nlinarith [mul_le_mul_of_nonneg_left (by omega : 1 - rx ≤ 0) (neg_nonneg.mpr hdy)]
        have hry' : ry - 1 = sy * (Y1 - (y + sy)) := by
          rw [hry]
          have : sy * (Y1 - (y + sy)) = sy * (Y1 - y) - sy * sy := by ring
          rw [this, hsy2]
        obtain ⟨l', hsome, hlen, hhead, hlast, hchain, hnd, hmono⟩ :=
          ih (x + sx) (y + sy) (err + dy + dx) (rx - 1) (ry - 1)
            hrx' hry'
            (by omega) (by omega) (by omega) (by omega)
            (by rw [herr]; ring) (by nlinarith) (by omega)
        refine ⟨(x, y) :: l', ?_, ?_, rfl, ?_, ?_, ?_, ?_⟩
        · exact hstep l' (by simp only [if_pos hc2]; exact hsome)
        · simp [hlen]; omega
        · cases l' with
          | nil => simp at hlen
          | cons b t => rw [List.getLast?_cons_cons]; exact hlast
        · cases l' with
          | nil => simp at hlen
          | cons b t =>
            rw [List.chain'_cons]
            refine ⟨?_, hchain⟩
            have hb : b = (x + sx, y + sy) := by
              simp at hhead
              exact hhead
            subst hb
            exact ⟨rfl, Or.inr rfl⟩
        · refine List.Nodup.cons ?_ hnd
          intro hmem
          have := hmono _ hmem
          simp only at this
          nlinarith [hsx2]
        · intro p hp
          rcases List.mem_cons.mp hp with rfl | hp
          · exact le_refl _
          · have := hmono p hp
            nlinarith [hsx2]
      · -- only x advances
        have h2e' : dx < 2 * err := lt_of_not_le hc2
        obtain ⟨l', hsome, hlen, hhead, hlast, hchain, hnd, hmono⟩ :=
          ih (x + sx) y (err + dy) (rx - 1) ry
            hrx' hry
            (by omega) (by omega) hry0 hryd
            (by rw [herr]; ring) (by linarith) (by omega)
        refine ⟨(x, y) :: l', ?_, ?_, rfl, ?_, ?_, ?_, ?_⟩
        · exact hstep l' (by simp only [if_neg hc2]; exact hsome)
        · simp [hlen]; omega
        · cases l' with
          | nil => simp at hlen
          | cons b t => rw [List.getLast?_cons_cons]; exact hlast
        · cases l' with
          | nil => simp at hlen
          | cons b t =>
            rw [List.chain'_cons]
            refine ⟨?_, hchain⟩
            have hb : b = (x + sx, y) := by
              simp at hhead
              exact hhead
            subst hb
            exact ⟨rfl, Or.inl rfl⟩
        · refine List.Nodup.cons ?_ hnd
          intro hmem
          have := hmono _ hmem
          simp only at this
          nlinarith [hsx2]
        · intro p hp
          rcases List.mem_cons.mp hp with rfl | hp
          · exact le_refl _
          · have := hmono p hp
            nlinarith [hsx2]

/-- The Bresenham loop is symmetric under swapping the two axes (and negating the
error accumulator). -/
lemma rasterAux_swap (X1 Y1 sx sy dx dy : ℤ) : ∀ (n : ℕ) (x y err : ℤ),
    rasterAux X1 Y1 sx sy dx dy n x y err =
      (rasterAux Y1 X1 sy sx (-dy) (-dx) n y x (-err)).map (List.map Prod.swap) := by
  intro n
  induction n with
  | zero => intro x y err; rfl
  | succ n ih =>
    intro x y err
    unfold rasterAux
    by_cases htgt : x = X1 ∧ y = Y1
    · rw [if_pos htgt, if_pos ⟨htgt.2, htgt.1⟩]
      rfl
    · rw [if_neg htgt, if_neg (fun hc => htgt ⟨hc.2, hc.1⟩)]
      dsimp only
      by_cases hc1 : dy ≤ 2 * err <;> by_cases hc2 : 2 * err ≤ dx
      · rw [if_pos hc1, if_pos hc1, if_pos hc2, if_pos hc2,
          if_pos (by linarith : -dx ≤ 2 * -err), if_pos (by linarith : -dx ≤ 2 * -err),
          if_pos (by linarith : 2 * -err ≤ -dy), if_pos (by linarith : 2 * -err ≤ -dy)]
        rw [ih (x + sx) (y + sy) (err + dy + dx),
          (by ring : -(err + dy + dx) = -err + -dx + -dy),
          Option.map_map, Option.map_map]
        rfl
      · rw [if_pos hc1, if_pos hc1, if_neg hc2, if_neg hc2,
          if_neg (by intro hcc; exact hc2 (by linarith) : ¬(-dx ≤ 2 * -err)),
          if_neg (by intro hcc; exact hc2 (by linarith) : ¬(-dx ≤ 2 * -err)),
          if_pos (by linarith : 2 * -err ≤ -dy), if_pos (by linarith : 2 * -err ≤ -dy)]
        rw [ih (x + sx) y (err + dy),
          (by ring : -(err + dy) = -err + -dy),
          Option.map_map, Option.map_map]
        rfl
      · rw [if_neg hc1, if_neg hc1, if_pos hc2, if_pos hc2,
          if_pos (by linarith : -dx ≤ 2 * -err), if_pos (by linarith : -dx ≤ 2 * -err),
          if_neg (by intro hcc; exact hc1 (by linarith) : ¬(2 * -err ≤ -dy)),
          if_neg (by intro hcc; exact hc1 (by linarith) : ¬(2 * -err ≤ -dy))]
        rw [ih x (y + sy) (err + dx),
          (by ring : -(err + dx) = -err + -dx),
          Option.map_map, Option.map_map]
        rfl
      · rw [if_neg hc1, if_neg hc1, if_neg hc2, if_neg hc2,
          if_neg (by intro hcc; exact hc2 (by linarith) : ¬(-dx ≤ 2 * -err)),
          if_neg (by intro hcc; exact hc2 (by linarith) : ¬(-dx ≤ 2 * -err)),
          if_neg (by intro hcc; exact hc1 (by linarith) : ¬(2 * -err ≤ -dy)),
          if_neg (by intro hcc; exact hc1 (by linarith) : ¬(2 * -err ≤ -dy))]
        rw [ih x y err, Option.map_map, Option.map_map]
        rfl

/-- Full specification of `rasterLine`: with the fuel used by `rasterCells`
(the Chebyshev distance of the rounded endpoints plus one), the walk terminates and
visits an 8-connected, repetition-free chain of cells from the rounded start to the
rounded end, of length exactly the Chebyshev distance plus one. -/
lemma rasterCells_spec (qx0 qy0 qx1 qy1 : ℚ) :
    ∃ l, rasterCells qx0 qy0 qx1 qy1 = some l ∧
      l.head? = some (jsRound qx0, jsRound qy0) ∧
      l.getLast? = some (jsRound qx1, jsRound qy1) ∧
      List.Chain' adj8 l ∧ l.Nodup ∧
      l.length =
        (max |jsRound qx1 - jsRound qx0| |jsRound qy1 - jsRound qy0|).toNat + 1 := by
  set X0 := jsRound qx0 with hX0
  set Y0 := jsRound qy0 with hY0
  set X1 := jsRound qx1 with hX1
  set Y1 := jsRound qy1 with hY1
  set dx := |X1 - X0| with hdxd
  set dy := -|Y1 - Y0| with hdyd
  set sx : ℤ := if X0 < X1 then 1 else -1 with hsxd
  set sy : ℤ := if Y0 < Y1 then 1 else -1 with hsyd
  have hsx : sx = 1 ∨ sx = -1 := by
    rw [hsxd]; split <;> simp
  have hsy : sy = 1 ∨ sy = -1 := by
    rw [hsyd]; split <;> simp
  have hdx : 0 ≤ dx := abs_nonneg _
  have hdy : dy ≤ 0 := neg_nonpos.mpr (abs_nonneg _)
  have hrx0 : sx * (X1 - X0) = dx := by
    rw [hsxd, hdxd]
    rcases lt_trichotomy X0 X1 with h | h | h
    · rw [if_pos h, abs_of_pos (by omega)]; ring
    · rw [if_neg (by omega), h]; simp
    · rw [if_neg (by omega), abs_of_neg (by omega)]; ring
  have hry0 : sy * (Y1 - Y0) = -dy := by
    rw [hsyd, hdyd]
    rcases lt_trichotomy Y0 Y1 with h | h | h
    · rw [if_pos h, abs_of_pos (by omega)]; ring
    · rw [if_neg (by omega), h]; simp
    · rw [if_neg (by omega), abs_of_neg (by omega)]; ring
  have hcells : rasterCells qx0 qy0 qx1 qy1 =
      rasterAux X1 Y1 sx sy dx dy ((max dx (-dy)).toNat + 1) X0 Y0 (dx + dy) := rfl
  have hchain_imp : ∀ (s t : ℤ) (hs : s = 1 ∨ s = -1) (ht : t = 1 ∨ t = -1)
      (l : List (ℤ × ℤ)),
      List.Chain' (fun a b => b.1 = a.1 + s ∧ (b.2 = a.2 ∨ b.2 = a.2 + t)) l →
      List.Chain' adj8 l := by
    intro s t hs ht l hl
    refine List.Chain'.imp ?_ hl
    intro a b hab
    refine ⟨?_, ?_, ?_⟩
    · intro hab2
      rw [hab2] at hab
      rcases hs with rfl | rfl <;> omega
    · rw [hab.1]
      rcases hs with rfl | rfl <;> simp
    · rcases hab.2 with h2 | h2 <;> rw [h2] <;> rcases ht with rfl | rfl <;> simp
  by_cases hmaj : 0 ≤ dx + dy
  · -- x-major
    have hmax : max dx (-dy) = dx := max_eq_left (by omega)
    obtain ⟨l, hsome, hlen, hhead, hlast, hchain, hnd, _⟩ :=
      rasterAux_xmajor X1 Y1 sx sy dx dy hsx hsy hdx hdy hmaj
        ((max dx (-dy)).toNat + 1) X0 Y0 (dx + dy) dx (-dy)
        hrx0.symm (by omega)
        hdx (le_refl dx) (by omega) (le_refl _)
        (by ring) (by omega) (by omega)
    refine ⟨l, by rw [hcells]; exact hsome, hhead, hlast,
      hchain_imp sx sy hsx hsy l hchain, hnd, ?_⟩
    rw [hlen, (by rw [hdyd]; ring : |Y1 - Y0| = -dy), hmax]
  · -- y-major: use the axis swap
    have hmaj' : 0 ≤ -dy + -dx := by omega
    have hmax : max dx (-dy) = -dy := max_eq_right (by omega)
    obtain ⟨l, hsome, hlen, hhead, hlast, hchain, hnd, _⟩ :=
      rasterAux_xmajor Y1 X1 sy sx (-dy) (-dx) hsy hsx (by omega) (by omega) hmaj'
        ((max dx (-dy)).toNat + 1) Y0 X0 (-dy + -dx) (-dy) (dx)
        hry0.symm hrx0.symm
        (by omega) (le_refl _) hdx (by omega)
        (by ring) (by omega) (by omega)
    refine ⟨l.map Prod.swap, ?_, ?_, ?_, ?_, ?_, ?_⟩
    · rw [hcells, rasterAux_swap, (by ring : -(dx + dy) = -dy + -dx), hsome]
      rfl
    · rw [List.head?_map, hhead]
      rfl
    · rw [List.getLast?_map, hlast]
      rfl
    · rw [List.chain'_map]
      refine List.Chain'.imp ?_ (hchain_imp sy sx hsy hsx l hchain)
      intro a b hab
      exact ⟨fun hss => hab.1 (by
        have := congrArg Prod.swap hss
        simpa using this), hab.2.2, hab.2.1⟩
    · exact hnd.map (fun a b hab => by
        have := congrArg Prod.swap hab
        simpa using this)
    · rw [List.length_map, hlen, (by rw [hdyd]; ring : |Y1 - Y0| = -dy), hmax]

/-- C8: for all (rational) endpoints, the Bresenham walk of `rasterLine` terminates
(with fuel = Chebyshev distance of the rounded endpoints + 1 it returns `some`),
visits the rounded start cell first and the rounded end cell last, the visited
cells form an 8-connected chain with no repetition (each cell exactly once, in walk
order), and the number of visited cells is bounded by the Chebyshev distance plus
one (it is in fact exactly that, `rasterCells_spec`). -/
theorem claim_c8 (qx0 qy0 qx1 qy1 : ℚ) :
    ∃ l, rasterCells qx0 qy0 qx1 qy1 = some l ∧
      l.head? = some (jsRound qx0, jsRound qy0) ∧
      l.getLast? = some (jsRound qx1, jsRound qy1) ∧
      List.Chain' adj8 l ∧ l.Nodup ∧
      l.length ≤
        (max |jsRound qx1 - jsRound qx0| |jsRound qy1 - jsRound qy0|).toNat + 1 := by
  obtain ⟨l, h1, h2, h3, h4, h5, h6⟩ := rasterCells_spec qx0 qy0 qx1 qy1
  exact ⟨l, h1, h2, h3, h4, h5, le_of_eq h6⟩

/-! ### `width`/`height` only cull plots (C9) -/

section BoundsRel

variable {w h : Option ℚ}

lemma keepOp_non_plot_pen (d : Bool) : keepOp w h (.pen d) = true := rfl
lemma keepOp_non_plot_move (x y : ℤ) : keepOp w h (.move x y) = true := rfl
lemma keepOp_non_plot_turn (q : ℚ) : keepOp w h (.turn q) = true := rfl
lemma keepOp_non_plot_hsv (c : HSV) : keepOp w h (.hsvOp c) = true := rfl

lemma culled_none (cx cy : ℤ) : culled none none cx cy = false := rfl

/-- Core fold relation: processing a nodup cell list that avoids both `lastCell`s
keeps the bounded accumulator equal to the filtered unbounded accumulator. -/
lemma foldPlots_rel (Ob Ou : Opts) (hw : Ob.width = w) (hh : Ob.height = h)
    (huw : Ou.width = none) (huh : Ou.height = none) (hrec : Ob.record = Ou.record)
    (c : HSV) :
    ∀ (cells : List (ℤ × ℤ)) (accB accU : List Operation) (lastB lastU : ℤ × ℤ),
      cells.Nodup → (∀ p ∈ cells, p ≠ lastB) → (∀ p ∈ cells, p ≠ lastU) →
      accB = accU.filter (keepOp w h) →
      (cells.foldl (plotVisit Ob c) (accB, lastB)).1 =
        ((cells.foldl (plotVisit Ou c) (accU, lastU)).1).filter (keepOp w h) := by
  intro cells
  induction cells with
  | nil => intro accB accU lastB lastU _ _ _ hacc; exact hacc
  | cons c₀ tl ih =>
    intro accB accU lastB lastU hnd hlb hlu hacc
    rw [List.foldl_cons, List.foldl_cons]
    have hndtl : tl.Nodup := (List.nodup_cons.mp hnd).2
    have hmemtl : c₀ ∉ tl := (List.nodup_cons.mp hnd).1
    have hvU : plotVisit Ou c (accU, lastU) c₀ =
        (accU ++ (if Ou.record then [.plot c₀.1 c₀.2 c] else []), c₀) := by
      unfold plotVisit
      rw [huw, huh]
      rw [if_neg (by simp [culled]), if_neg (by simpa using hlu c₀ (by simp))]
    by_cases hcul : culled w h c₀.1 c₀.2
    · -- the bounded run culls this cell
      have hvB : plotVisit Ob c (accB, lastB) c₀ = (accB, lastB) := by
        unfold plotVisit
        rw [if_pos (by rw [hw, hh]; exact hcul)]
      rw [hvB, hvU]
      refine ih _ _ _ _ hndtl
        (fun p hp => hlb p (by simp [hp]))
        (fun p hp => by
          intro hpc
          exact hmemtl (hpc ▸ hp))
        ?_
      rw [List.filter_append, hacc]
      split
      · simp [keepOp, hcul]
      · simp
    · -- the cell is in range: both runs emit (when recording) and move `lastCell`
      have hvB : plotVisit Ob c (accB, lastB) c₀ =
          (accB ++ (if Ob.record then [.plot c₀.1 c₀.2 c] else []), c₀) := by
        unfold plotVisit
        rw [if_neg (by rw [hw, hh]; exact hcul),
          if_neg (by simpa using hlb c₀ (by simp))]
      rw [hvB, hvU]
      refine ih _ _ _ _ hndtl
        (fun p hp => by intro hpc; exact hmemtl (hpc ▸ hp))
        (fun p hp => by intro hpc; exact hmemtl (hpc ▸ hp))
        ?_
      rw [List.filter_append, hacc, hrec]
      congr 1
      split
      · simp [keepOp, hcul]
      · simp

/-- The `plot` operations of a bounded pen-down move are the unbounded ones with
the out-of-range cells removed. -/
lemma plotsFor_filter (Ob Ou : Opts) (hw : Ob.width = w) (hh : Ob.height = h)
    (huw : Ou.width = none) (huh : Ou.height = none) (hrec : Ob.record = Ou.record)
    (c : HSV) (cells : List (ℤ × ℤ)) (start : ℤ × ℤ)
    (hnd : cells.Nodup) (hhd : cells = [] ∨ cells.head? = some start) :
    plotsFor Ob c start cells = (plotsFor Ou c start cells).filter (keepOp w h) := by
  rcases hhd with rfl | hhd
  · rfl
  · cases cells with
    | nil => rfl
    | cons c₀ tl =>
      have hc₀ : c₀ = start := by simpa using hhd
      subst hc₀
      unfold plotsFor
      rw [List.foldl_cons, List.foldl_cons]
      have hB : plotVisit Ob c ([], c₀) c₀ = ([], c₀) := by
        unfold plotVisit
        split
        · rfl
        · rw [if_pos rfl]
      have hU : plotVisit Ou c ([], c₀) c₀ = ([], c₀) := by
        unfold plotVisit
        split
        · rfl
        · rw [if_pos rfl]
      rw [hB, hU]
      have hmem := (List.nodup_cons.mp hnd).1
      exact foldPlots_rel Ob Ou hw hh huw huh hrec c tl [] [] c₀ c₀
        (List.nodup_cons.mp hnd).2
        (fun p hp => by intro hpc; exact hmem (hpc ▸ hp))
        (fun p hp => by intro hpc; exact hmem (hpc ▸ hp))
        rfl

/-- `pushOp` of an operation the bounds keep preserves `obsEq` (on states agreeing
as `obsEq` demands, with equal record flags). -/
lemma obsEq_pushOp {Ob Ou : Opts} (hrec : Ob.record = Ou.record)
    (op : Operation) (hop : keepOp w h op = true) {sb su : TState}
    (hrel : obsEq w h sb su) : obsEq w h (pushOp Ob op sb) (pushOp Ou op su) := by
  obtain ⟨hx, hy, hdir, hpen, hcol, hvars, hops⟩ := hrel
  unfold pushOp
  rw [hrec]
  split
  · exact ⟨hx, hy, hdir, hpen, hcol, hvars, by
      simp only [List.filter_append, hops, List.filter, hop]⟩
  · exact ⟨hx, hy, hdir, hpen, hcol, hvars, hops⟩

lemma varStep_rel (nm : String) (v : Value) (re : Bool) {sb su : TState}
    (hrel : obsEq w h sb su) :
    exRel w h (varStep nm v re sb) (varStep nm v re su) := by
  obtain ⟨hx, hy, hdir, hpen, hcol, hvars, hops⟩ := hrel
  unfold varStep
  rw [hvars]
  cases (evalValue su.vars v).toQ? with
  | none => exact rfl
  | some q =>
    simp only
    cases re with
    | false => exact ⟨hx, hy, hdir, hpen, hcol, rfl, hops⟩
    | true =>
      simp only [Bool.false_eq_true, if_true]
      cases envHas su.vars nm with
      | false => simp only [Bool.false_eq_true, if_false]; exact rfl
      | true =>
        simp only [if_true]
        exact ⟨hx, hy, hdir, hpen, hcol, rfl, hops⟩

lemma penStep_rel {Ob Ou : Opts} (hrec : Ob.record = Ou.record) (d : Bool)
    {sb su : TState} (hrel : obsEq w h sb su) :
    obsEq w h (penStep Ob d sb) (penStep Ou d su) := by
  obtain ⟨hx, hy, hdir, hpen, hcol, hvars, hops⟩ := hrel
  unfold penStep
  exact obsEq_pushOp hrec _ (keepOp_non_plot_pen d) ⟨hx, hy, hdir, rfl, hcol, hvars, hops⟩

lemma turnStep_rel {Ob Ou : Opts} (hrec : Ob.record = Ou.record) (lf : Bool)
    (v : Value) {sb su : TState} (hrel : obsEq w h sb su) :
    exRel w h (turnStep Ob lf v sb) (turnStep Ou lf v su) := by
  obtain ⟨hx, hy, hdir, hpen, hcol, hvars, hops⟩ := hrel
  unfold turnStep
  rw [hvars, hdir]
  cases (evalValue su.vars v).toQ? with
  | none => exact rfl
  | some q =>
    simp only
    exact obsEq_pushOp hrec _ (keepOp_non_plot_turn _) ⟨hx, hy, rfl, hpen, hcol, rfl, hops⟩

lemma hsvStep_rel {Ob Ou : Opts} (hrec : Ob.record = Ou.record)
    (ph ps pv : HSVParam) {sb su : TState} (hrel : obsEq w h sb su) :
    exRel w h (hsvStep Ob ph ps pv sb) (hsvStep Ou ph ps pv su) := by
  obtain ⟨hx, hy, hdir, hpen, hcol, hvars, hops⟩ := hrel
  unfold hsvStep
  rw [hvars, hcol]
  cases applyHSVParam su.color.h ph true su.vars with
  | error e => exact rfl
  | ok h' =>
    simp only
    cases applyHSVParam su.color.s ps false su.vars with
    | error e => exact rfl
    | ok s' =>
      simp only
      cases applyHSVParam su.color.v pv false su.vars with
      | error e => exact rfl
      | ok v' =>
        simp only
        exact obsEq_pushOp hrec _ (keepOp_non_plot_hsv _) ⟨hx, hy, hdir, hpen, rfl, rfl, hops⟩

lemma moveStep_rel (T : Trig) {Ob Ou : Opts} (hw : Ob.width = w) (hh : Ob.height = h)
    (huw : Ou.width = none) (huh : Ou.height = none) (hrec : Ob.record = Ou.record)
    (fw : Bool) (v : Value) {sb su : TState} (hrel : obsEq w h sb su) :
    exRel w h (moveStep T Ob fw v sb) (moveStep T Ou fw v su) := by
  obtain ⟨hx, hy, hdir, hpen, hcol, hvars, hops⟩ := hrel
  unfold moveStep
  rw [hvars, hx, hy, hdir, hpen, hcol]
  cases (evalValue su.vars v).toQ? with
  | none => exact rfl
  | some mv =>
    simp only
    by_cases hp : su.penDown = true
    · rw [if_pos hp, if_pos hp]
      refine obsEq_pushOp hrec _ (keepOp_non_plot_move _ _) ?_
      refine ⟨rfl, rfl, rfl, rfl, rfl, rfl, ?_⟩
      obtain ⟨l, hsome, hhead, _, _, hnd, _⟩ := rasterCells_spec su.x su.y
        (su.x + (if fw = true then mv else -mv) * T.cosDeg su.dir)
        (su.y + (if fw = true then mv else -mv) * T.sinDeg su.dir)
      simp only [hsome, Option.getD_some]
      rw [List.filter_append, hops]
      congr 1
      exact plotsFor_filter Ob Ou hw hh huw huh hrec su.color l _ hnd
        (Or.inr hhead)
    · rw [if_neg hp, if_neg hp]
      exact obsEq_pushOp hrec _ (keepOp_non_plot_move _ _)
        ⟨rfl, rfl, hdir, hpen, hcol, hvars, hops⟩

/-- The bounds relation for whole synchronous runs: any two runs of the same
program from `obsEq`-related states, one with bounds and one without, stay related
(same control flow, same errors, plot-filtered logs). -/
lemma syncRun_rel (T : Trig) {Ob Ou : Opts}
    (hw : Ob.width = w) (hh : Ob.height = h) (huw : Ou.width = none)
    (huh : Ou.height = none) (hrec : Ob.record = Ou.record) :
    ∀ (n : ℕ) (c : SCfg) {sb su : TState}, obsEq w h sb su →
      resRel w h (syncRun T Ob n c sb) (syncRun T Ou n c su) := by
  intro n
  induction n with
  | zero => intro c sb su hrel; exact trivial
  | succ n ih =>
    intro c sb su hrel
    have hvars : sb.vars = su.vars := hrel.2.2.2.2.2.1
    match c with
    | .list [] => exact ⟨hrel, rfl⟩
    | .list (t :: rest) =>
      match t with
      | .varT nm v re =>
        have hstep := varStep_rel nm v re hrel
        simp only [syncRun]
        cases hb : varStep nm v re sb <;> cases hu : varStep nm v re su <;>
          rw [hb, hu] at hstep
        · exact hstep
        · exact hstep.elim
        · exact hstep.elim
        · exact ih _ hstep
      | .penT d =>
        simp only [syncRun]
        exact ih _ (penStep_rel hrec d hrel)
      | .turnT lf v =>
        have hstep := turnStep_rel hrec lf v hrel
        simp only [syncRun]
        cases hb : turnStep Ob lf v sb <;> cases hu : turnStep Ou lf v su <;>
          rw [hb, hu] at hstep
        · exact hstep
        · exact hstep.elim
        · exact hstep.elim
        · exact ih _ hstep
      | .hsvT ph ps pv =>
        have hstep := hsvStep_rel hrec ph ps pv hrel
        simp only [syncRun]
        cases hb : hsvStep Ob ph ps pv sb <;> cases hu : hsvStep Ou ph ps pv su <;>
          rw [hb, hu] at hstep
        · exact hstep
        · exact hstep.elim
        · exact hstep.elim
        · exact ih _ hstep
      | .moveT fw v =>
        have hstep := moveStep_rel T hw hh huw huh hrec fw v hrel
        simp only [syncRun]
        cases hb : moveStep T Ob fw v sb <;> cases hu : moveStep T Ou fw v su <;>
          rw [hb, hu] at hstep
        · exact hstep
        · exact hstep.elim
        · exact hstep.elim
        · exact ih _ hstep
      | .repC c body =>
        simp only [syncRun]
        rw [hvars]
        cases hq : (evalValue su.vars c).toQ? with
        | none => exact rfl
        | some q =>
          dsimp only
          have hcnt := ih (.cnt (Int.toNat ⌊q⌋) body) hrel
          cases hcB : syncRun T Ob n (.cnt (Int.toNat ⌊q⌋) body) sb <;>
            cases hcU : syncRun T Ou n (.cnt (Int.toNat ⌊q⌋) body) su <;>
            rw [hcB, hcU] at hcnt
          case ok.ok pb pu =>
            obtain ⟨pb1, pb2⟩ := pb
            obtain ⟨pu1, pu2⟩ := pu
            exact ih _ hcnt.1
          case err.err eb eu => exact hcnt
          case out.out => exact trivial
          all_goals exact hcnt.elim
      | .repU c body =>
        simp only [syncRun]
        have hunt := ih (.unt c body) hrel
        cases hcB : syncRun T Ob n (.unt c body) sb <;>
          cases hcU : syncRun T Ou n (.unt c body) su <;>
          rw [hcB, hcU] at hunt
        case ok.ok pb pu =>
          obtain ⟨pb1, pb2⟩ := pb
          obtain ⟨pu1, pu2⟩ := pu
          exact ih _ hunt.1
        case err.err eb eu => exact hunt
        case out.out => exact trivial
        all_goals exact hunt.elim
      | .ifT tst body =>
        simp only [syncRun]
        rw [hvars]
        by_cases ht : truthy (evalValue su.vars tst) = true
        · rw [if_pos ht, if_pos ht]
          have hbody := ih (.list body) hrel
          cases hbB : syncRun T Ob n (.list body) sb <;>
            cases hbU : syncRun T Ou n (.list body) su <;>
            rw [hbB, hbU] at hbody
          next pb pu =>
            obtain ⟨pb1, pb2⟩ := pb
            obtain ⟨pu1, pu2⟩ := pu
            obtain ⟨hrel', hsg⟩ := hbody
            subst hsg
            cases pb2 with
            | none => exact ih _ hrel'
            | some sg => exact ⟨hrel', rfl⟩
          next => exact hbody.elim
          next => exact hbody.elim
          next => exact hbody.elim
          next => exact hbody
          next => exact hbody.elim
          next => exact hbody.elim
          next => exact hbody.elim
          next => exact trivial
        · rw [if_neg ht, if_neg ht]
          exact ih _ hrel
      | .brk => exact ⟨hrel, rfl⟩
      | .cont => exact ⟨hrel, rfl⟩
    | .cnt 0 body => exact ⟨hrel, rfl⟩
    | .cnt (k + 1) body =>
      simp only [syncRun]
      have hbody := ih (.list body) hrel
      cases hbB : syncRun T Ob n (.list body) sb <;>
        cases hbU : syncRun T Ou n (.list body) su <;>
        rw [hbB, hbU] at hbody
      case ok.ok pb pu =>
        obtain ⟨pb1, pb2⟩ := pb
        obtain ⟨pu1, pu2⟩ := pu
        obtain ⟨hrel', hsg⟩ := hbody
        subst hsg
        cases pb2 with
        | none => exact ih _ hrel'
        | some sg =>
          cases sg with
          | brk => exact ⟨hrel', rfl⟩
          | cont => exact ih _ hrel'
      case err.err eb eu => exact hbody
      case out.out => exact trivial
      all_goals exact hbody.elim
    | .unt c body =>
      simp only [syncRun]
      rw [hvars]
      cases hq : (evalValue su.vars c).toQ? with
      | none => exact rfl
      | some q =>
        dsimp only
        by_cases hz : q ≠ 0
        · rw [if_pos hz, if_pos hz]
          exact ⟨hrel, rfl⟩
        · rw [if_neg hz, if_neg hz]
          have hbody := ih (.list body) hrel
          cases hbB : syncRun T Ob n (.list body) sb <;>
            cases hbU : syncRun T Ou n (.list body) su <;>
            rw [hbB, hbU] at hbody
          next pb pu =>
            obtain ⟨pb1, pb2⟩ := pb
            obtain ⟨pu1, pu2⟩ := pu
            obtain ⟨hrel', hsg⟩ := hbody
            subst hsg
            cases pb2 with
            | none => exact ih _ hrel'
            | some sg =>
              cases sg with
              | brk => exact ⟨hrel', rfl⟩
              | cont => exact ih _ hrel'
          next => exact hbody.elim
          next => exact hbody.elim
          next => exact hbody.elim
          next => exact hbody
          next => exact hbody.elim
          next => exact hbody.elim
          next => exact hbody.elim
          next => exact trivial

/-- The bounds relation for the asynchronous engine's `execToken` loop shapes. -/
lemma asyncRun_rel (T : Trig) {Ob Ou : Opts}
    (hw : Ob.width = w) (hh : Ob.height = h) (huw : Ou.width = none)
    (huh : Ou.height = none) (hrec : Ob.record = Ou.record) :
    ∀ (n : ℕ) (c : ACfg) {sb su : TState}, obsEq w h sb su →
      resRel w h (asyncRun T Ob n c sb) (asyncRun T Ou n c su) := by
  intro n
  induction n with
  | zero => intro c sb su hrel; exact trivial
  | succ n ih =>
    intro c sb su hrel
    have hvars : sb.vars = su.vars := hrel.2.2.2.2.2.1
    match c with
    | .tok t =>
      match t with
      | .varT nm v re =>
        have hstep := varStep_rel nm v re hrel
        simp only [asyncRun]
        cases hb : varStep nm v re sb <;> cases hu : varStep nm v re su <;>
          rw [hb, hu] at hstep
        · exact hstep
        · exact hstep.elim
        · exact hstep.elim
        · exact ⟨hstep, rfl⟩
      | .penT d =>
        exact ⟨penStep_rel hrec d hrel, rfl⟩
      | .turnT lf v =>
        have hstep := turnStep_rel hrec lf v hrel
        simp only [asyncRun]
        cases hb : turnStep Ob lf v sb <;> cases hu : turnStep Ou lf v su <;>
          rw [hb, hu] at hstep
        · exact hstep
        · exact hstep.elim
        · exact hstep.elim
        · exact ⟨hstep, rfl⟩
      | .hsvT ph ps pv =>
        have hstep := hsvStep_rel hrec ph ps pv hrel
        simp only [asyncRun]
        cases hb : hsvStep Ob ph ps pv sb <;> cases hu : hsvStep Ou ph ps pv su <;>
          rw [hb, hu] at hstep
        · exact hstep
        · exact hstep.elim
        · exact hstep.elim
        · exact ⟨hstep, rfl⟩
      | .moveT fw v =>
        have hstep := moveStep_rel T hw hh huw huh hrec fw v hrel
        simp only [asyncRun]
        cases hb : moveStep T Ob fw v sb <;> cases hu : moveStep T Ou fw v su <;>
          rw [hb, hu] at hstep
        · exact hstep
        · exact hstep.elim
        · exact hstep.elim
        · exact ⟨hstep, rfl⟩
      | .repC c body =>
        simp only [asyncRun]
        rw [hvars]
        cases hq : (evalValue su.vars c).toQ? with
        | none => exact rfl
        | some q =>
          dsimp only
          have hcnt := ih (.cnt (Int.toNat ⌊q⌋) body) hrel
          cases hcB : asyncRun T Ob n (.cnt (Int.toNat ⌊q⌋) body) sb <;>
            cases hcU : asyncRun T Ou n (.cnt (Int.toNat ⌊q⌋) body) su <;>
            rw [hcB, hcU] at hcnt
          case ok.ok pb pu =>
            obtain ⟨pb1, pb2⟩ := pb
            obtain ⟨pu1, pu2⟩ := pu
            exact ⟨hcnt.1, rfl⟩
          case err.err eb eu => exact hcnt
          case out.out => exact trivial
          all_goals exact hcnt.elim
      | .repU c body =>
        simp only [asyncRun]
        have hunt := ih (.unt c body) hrel
        cases hcB : asyncRun T Ob n (.unt c body) sb <;>
          cases hcU : asyncRun T Ou n (.unt c body) su <;>
          rw [hcB, hcU] at hunt
        case ok.ok pb pu =>
          obtain ⟨pb1, pb2⟩ := pb
          obtain ⟨pu1, pu2⟩ := pu
          exact ⟨hunt.1, rfl⟩
        case err.err eb eu => exact hunt
        case out.out => exact trivial
        all_goals exact hunt.elim
      | .ifT tst body =>
        simp only [asyncRun]
        rw [hvars]
        by_cases ht : truthy (evalValue su.vars tst) = true
        · rw [if_pos ht, if_pos ht]
          have hbody := ih (.seq body) hrel
          cases hbB : asyncRun T Ob n (.seq body) sb <;>
            cases hbU : asyncRun T Ou n (.seq body) su <;>
            rw [hbB, hbU] at hbody
          next pb pu =>
            obtain ⟨pb1, pb2⟩ := pb
            obtain ⟨pu1, pu2⟩ := pu
            exact ⟨hbody.1, rfl⟩
          next => exact hbody.elim
          next => exact hbody.elim
          next => exact hbody.elim
          next => exact hbody
          next => exact hbody.elim
          next => exact hbody.elim
          next => exact hbody.elim
          next => exact trivial
        · rw [if_neg ht, if_neg ht]
          exact ⟨hrel, rfl⟩
      | .brk => exact ⟨hrel, rfl⟩
      | .cont => exact ⟨hrel, rfl⟩
    | .seq [] => exact ⟨hrel, rfl⟩
    | .seq (t :: rest) =>
      simp only [asyncRun]
      have htok := ih (.tok t) hrel
      cases hbB : asyncRun T Ob n (.tok t) sb <;>
        cases hbU : asyncRun T Ou n (.tok t) su <;>
        rw [hbB, hbU] at htok
      case ok.ok pb pu =>
        obtain ⟨pb1, pb2⟩ := pb
        obtain ⟨pu1, pu2⟩ := pu
        obtain ⟨hrel', hsg⟩ := htok
        subst hsg
        cases pb2 with
        | none => exact ih _ hrel'
        | some sg => exact ⟨hrel', rfl⟩
      case err.err eb eu => exact htok
      case out.out => exact trivial
      all_goals exact htok.elim
    | .cnt 0 body => exact ⟨hrel, rfl⟩
    | .cnt (k + 1) body =>
      simp only [asyncRun]
      have hbody := ih (.seq body) hrel
      cases hbB : asyncRun T Ob n (.seq body) sb <;>
        cases hbU : asyncRun T Ou n (.seq body) su <;>
        rw [hbB, hbU] at hbody
      case ok.ok pb pu =>
        obtain ⟨pb1, pb2⟩ := pb
        obtain ⟨pu1, pu2⟩ := pu
        obtain ⟨hrel', hsg⟩ := hbody
        subst hsg
        cases pb2 with
        | none => exact ih _ hrel'
        | some sg =>
          cases sg with
          | brk => exact ⟨hrel', rfl⟩
          | cont => exact ih _ hrel'
      case err.err eb eu => exact hbody
      case out.out => exact trivial
      all_goals exact hbody.elim
    | .unt c body =>
      simp only [asyncRun]
      rw [hvars]
      cases hq : (evalValue su.vars c).toQ? with
      | none => exact rfl
      | some q =>
        dsimp only
        by_cases hz : q ≠ 0
        · rw [if_pos hz, if_pos hz]
          exact ⟨hrel, rfl⟩
        · rw [if_neg hz, if_neg hz]
          have hbody := ih (.seq body) hrel
          cases hbB : asyncRun T Ob n (.seq body) sb <;>
            cases hbU : asyncRun T Ou n (.seq body) su <;>
            rw [hbB, hbU] at hbody
          next pb pu =>
            obtain ⟨pb1, pb2⟩ := pb
            obtain ⟨pu1, pu2⟩ := pu
            obtain ⟨hrel', hsg⟩ := hbody
            subst hsg
            cases pb2 with
            | none => exact ih _ hrel'
            | some sg =>
              cases sg with
              | brk => exact ⟨hrel', rfl⟩
              | cont => exact ih _ hrel'
          next => exact hbody.elim
          next => exact hbody.elim
          next => exact hbody.elim
          next => exact hbody
          next => exact hbody.elim
          next => exact hbody.elim
          next => exact hbody.elim
          next => exact trivial

/-- The bounds relation for `interpretAsync`'s top-level loop. -/
lemma asyncTop_rel (T : Trig) {Ob Ou : Opts}
    (hw : Ob.width = w) (hh : Ob.height = h) (huw : Ou.width = none)
    (huh : Ou.height = none) (hrec : Ob.record = Ou.record) :
    ∀ (n : ℕ) (l : List Tok) {sb su : TState}, obsEq w h sb su →
      tresRel w h (asyncTop T Ob n l sb) (asyncTop T Ou n l su) := by
  intro n
  induction n with
  | zero => intro l sb su hrel; exact trivial
  | succ n ih =>
    intro l sb su hrel
    match l with
    | [] => exact hrel
    | t :: rest =>
      simp only [asyncTop]
      have htok := asyncRun_rel T hw hh huw huh hrec n (.tok t) hrel
      cases hbB : asyncRun T Ob n (.tok t) sb <;>
        cases hbU : asyncRun T Ou n (.tok t) su <;>
        rw [hbB, hbU] at htok
      case ok.ok pb pu =>
        obtain ⟨pb1, pb2⟩ := pb
        obtain ⟨pu1, pu2⟩ := pu
        exact ih _ htok.1
      case err.err eb eu => exact htok
      case out.out => exact trivial
      all_goals exact htok.elim

/-- `nextToken()` reads nothing affected by the bounds: related machines fetch the
same token and stay related. -/
lemma nextTok_rel (root : List Tok) :
    ∀ (n : ℕ) {mb mu : Mach}, machRel w h mb mu →
      ntRel w h (nextTok root n mb) (nextTok root n mu) := by
  intro n
  induction n with
  | zero => intro mb mu hrel; exact trivial
  | succ n ih =>
    intro mb mu hrel
    obtain ⟨hts, hmi, hfr, hfin⟩ := hrel
    have hvars : mb.ts.vars = mu.ts.vars := hts.2.2.2.2.2.1
    simp only [nextTok]
    rw [hfr, hmi, hfin, hvars]
    cases hfr2 : mu.frames with
    | nil =>
      cases hg : root.get? mu.mainIdx with
      | none => exact ⟨rfl, hts, hmi, hfr, hfin⟩
      | some t => exact ⟨rfl, hts, rfl, rfl, rfl⟩
    | cons fr outer =>
      cases fr with
      | fCount body idx rem =>
        dsimp only
        cases hg : body.get? idx with
        | some t => exact ⟨rfl, hts, rfl, rfl, rfl⟩
        | none =>
          dsimp only
          by_cases hrm : rem - 1 > 0
          · rw [if_pos hrm, if_pos hrm]
            exact ih ⟨hts, rfl, rfl, rfl⟩
          · rw [if_neg hrm, if_neg hrm]
            exact ih ⟨hts, rfl, rfl, rfl⟩
      | fIf body idx =>
        dsimp only
        cases hg : body.get? idx with
        | some t => exact ⟨rfl, hts, rfl, rfl, rfl⟩
        | none => exact ih ⟨hts, rfl, rfl, rfl⟩
      | fUntil body idx c bflag =>
        dsimp only
        cases hg : body.get? idx with
        | some t => exact ⟨rfl, hts, rfl, rfl, rfl⟩
        | none =>
          dsimp only
          cases bflag with
          | true => exact ih ⟨hts, rfl, rfl, rfl⟩
          | false =>
            cases hq : (evalValue mu.ts.vars c).toQ? with
            | none => exact rfl
            | some q =>
              dsimp only
              by_cases hz : q ≠ 0
              · rw [if_pos hz, if_pos hz]
                exact ih ⟨hts, rfl, rfl, rfl⟩
              · rw [if_neg hz, if_neg hz]
                exact ih ⟨hts, rfl, rfl, rfl⟩

/-- The bounds relation for the stepper's `execToken`. -/
lemma stepExecTok_rel (T : Trig) {Ob Ou : Opts}
    (hw : Ob.width = w) (hh : Ob.height = h) (huw : Ou.width = none)
    (huh : Ou.height = none) (hrec : Ob.record = Ou.record) (t : Tok)
    {mb mu : Mach} (hrel : machRel w h mb mu) :
    mexRel w h (stepExecTok T Ob t mb) (stepExecTok T Ou t mu) := by
  obtain ⟨hts, hmi, hfr, hfin⟩ := hrel
  have hvars : mb.ts.vars = mu.ts.vars := hts.2.2.2.2.2.1
  match t with
  | .varT nm v re =>
    have hstep := varStep_rel nm v re hts
    simp only [stepExecTok]
    cases hb : varStep nm v re mb.ts <;> cases hu : varStep nm v re mu.ts <;>
      rw [hb, hu] at hstep
    · exact hstep
    · exact hstep.elim
    · exact hstep.elim
    · exact ⟨hstep, hmi, hfr, hfin⟩
  | .penT d => exact ⟨penStep_rel hrec d hts, hmi, hfr, hfin⟩
  | .turnT lf v =>
    have hstep := turnStep_rel hrec lf v hts
    simp only [stepExecTok]
    cases hb : turnStep Ob lf v mb.ts <;> cases hu : turnStep Ou lf v mu.ts <;>
      rw [hb, hu] at hstep
    · exact hstep
    · exact hstep.elim
    · exact hstep.elim
    · exact ⟨hstep, hmi, hfr, hfin⟩
  | .hsvT ph ps pv =>
    have hstep := hsvStep_rel hrec ph ps pv hts
    simp only [stepExecTok]
    cases hb : hsvStep Ob ph ps pv mb.ts <;> cases hu : hsvStep Ou ph ps pv mu.ts <;>
      rw [hb, hu] at hstep
    · exact hstep
    · exact hstep.elim
    · exact hstep.elim
    · exact ⟨hstep, hmi, hfr, hfin⟩
  | .moveT fw v =>
    have hstep := moveStep_rel T hw hh huw huh hrec fw v hts
    simp only [stepExecTok]
    cases hb : moveStep T Ob fw v mb.ts <;> cases hu : moveStep T Ou fw v mu.ts <;>
      rw [hb, hu] at hstep
    · exact hstep
    · exact hstep.elim
    · exact hstep.elim
    · exact ⟨hstep, hmi, hfr, hfin⟩
  | .repC c body =>
    simp only [stepExecTok]
    rw [hvars]
    cases hq : (evalValue mu.ts.vars c).toQ? with
    | none => exact rfl
    | some q =>
      dsimp only
      by_cases hpos : 0 < ⌊q⌋
      · rw [if_pos hpos, if_pos hpos]
        rw [hfr]
        exact ⟨hts, hmi, rfl, hfin⟩
      · rw [if_neg hpos, if_neg hpos]
        exact ⟨hts, hmi, hfr, hfin⟩
  | .repU c body =>
    simp only [stepExecTok]
    rw [hvars]
    cases hq : (evalValue mu.ts.vars c).toQ? with
    | none => exact rfl
    | some q =>
      dsimp only
      by_cases hz : q = 0
      · rw [if_pos hz, if_pos hz]
        rw [hfr]
        exact ⟨hts, hmi, rfl, hfin⟩
      · rw [if_neg hz, if_neg hz]
        exact ⟨hts, hmi, hfr, hfin⟩
  | .ifT tst body =>
    simp only [stepExecTok]
    rw [hvars]
    by_cases ht : truthy (evalValue mu.ts.vars tst) = true
    · rw [if_pos ht, if_pos ht]
      rw [hfr]
      exact ⟨hts, hmi, rfl, hfin⟩
    · rw [if_neg ht, if_neg ht]
      exact ⟨hts, hmi, hfr, hfin⟩
  | .brk =>
    rw [show stepExecTok T Ob .brk mb = .ok { mb with frames := breakFrames mb.frames } from rfl]
    rw [hfr]
    exact ⟨hts, hmi, rfl, hfin⟩
  | .cont =>
    rw [show stepExecTok T Ob .cont mb = .ok { mb with frames := contFrames mb.frames } from rfl]
    rw [hfr]
    exact ⟨hts, hmi, rfl, hfin⟩

/-- The bounds relation for the stepper's `step()`. -/
lemma stepFn_rel (T : Trig) {Ob Ou : Opts}
    (hw : Ob.width = w) (hh : Ob.height = h) (huw : Ou.width = none)
    (huh : Ou.height = none) (hrec : Ob.record = Ou.record) (root : List Tok) :
    ∀ (n : ℕ) {mb mu : Mach}, machRel w h mb mu →
      mresRel w h (stepFn T Ob root n mb) (stepFn T Ou root n mu) := by
  intro n
  induction n with
  | zero => intro mb mu hrel; exact trivial
  | succ n ih =>
    intro mb mu hrel
    have hfin : mb.finished = mu.finished := hrel.2.2.2
    simp only [stepFn]
    rw [hfin]
    by_cases hfv : mu.finished = true
    · rw [if_pos hfv, if_pos hfv]
      exact hrel
    · rw [if_neg hfv, if_neg hfv]
      have hnt := nextTok_rel root n hrel
      cases hb : nextTok root n mb <;> cases hu : nextTok root n mu <;>
        rw [hb, hu] at hnt
      next pb pu =>
        obtain ⟨tb, m1b⟩ := pb
        obtain ⟨tu, m1u⟩ := pu
        obtain ⟨htk, hm1⟩ := hnt
        subst htk
        cases tb with
        | none => exact ⟨hm1.1, hm1.2.1, hm1.2.2.1, rfl⟩
        | some t =>
          dsimp only
          have hex := stepExecTok_rel T hw hh huw huh hrec t hm1
          cases heb : stepExecTok T Ob t m1b <;> cases heu : stepExecTok T Ou t m1u <;>
            rw [heb, heu] at hex
          next => exact ⟨hex, hm1⟩
          next => exact hex.elim
          next => exact hex.elim
          next m2b m2u =>
            dsimp only
            by_cases hmt : isMoveTurn t = true
            · rw [if_pos hmt, if_pos hmt]
              exact hex
            · rw [if_neg hmt, if_neg hmt]
              exact ih hex
      next => exact hnt.elim
      next => exact hnt.elim
      next => exact hnt.elim
      next => exact ⟨hnt, hrel⟩
      next => exact hnt.elim
      next => exact hnt.elim
      next => exact hnt.elim
      next => exact trivial

/-- The bounds relation for driving the stepper to completion. -/
lemma drive_rel (T : Trig) {Ob Ou : Opts}
    (hw : Ob.width = w) (hh : Ob.height = h) (huw : Ou.width = none)
    (huh : Ou.height = none) (hrec : Ob.record = Ou.record) (root : List Tok) :
    ∀ (n : ℕ) {mb mu : Mach}, machRel w h mb mu →
      mresRel w h (drive T Ob root n mb) (drive T Ou root n mu) := by
  intro n
  induction n with
  | zero => intro mb mu hrel; exact trivial
  | succ n ih =>
    intro mb mu hrel
    have hfin : mb.finished = mu.finished := hrel.2.2.2
    simp only [drive]
    rw [hfin]
    by_cases hfv : mu.finished = true
    · rw [if_pos hfv, if_pos hfv]
      exact hrel
    · rw [if_neg hfv, if_neg hfv]
      have hst := stepFn_rel T hw hh huw huh hrec root n hrel
      cases hb : stepFn T Ob root n mb <;> cases hu : stepFn T Ou root n mu <;>
        rw [hb, hu] at hst
      next m1b m1u => exact ih hst
      next => exact hst.elim
      next => exact hst.elim
      next => exact hst.elim
      next => exact hst
      next => exact hst.elim
      next => exact hst.elim
      next => exact hst.elim
      next => exact trivial

/-- Packaging related final states gives related results. -/
lemma mkResult_rel {Ob Ou : Opts} (hrec : Ob.record = Ou.record) {sb su : TState}
    (hrel : obsEq w h sb su) :
    iresRel w h (.ok (mkResult Ob sb)) (.ok (mkResult Ou su)) := by
  obtain ⟨hx, hy, hdir, hpen, hcol, hvars, hops⟩ := hrel
  refine ⟨?_, ?_, ?_, ?_, ?_, ?_, ?_⟩ <;> simp only [mkResult]
  · rw [hx]
  · rw [hy]
  · exact hdir
  · exact hpen
  · exact hcol
  · exact hvars
  · rw [hrec]
    by_cases hr : Ou.record = true
    · rw [if_pos hr, if_pos hr]
      exact hops
    · rw [if_neg hr, if_neg hr]
      rfl

end BoundsRel

/-- C9: the optional `width`/`height` bounds affect only which `plot` operations are
emitted.  For every program and every fuel, running with bounds versus without gives
the same final rounded position, heading, pen state, color and variables, the same
error (if any), and an operation log equal to the unbounded log with the
out-of-range `plot`s removed — in all three engines (`interpret`, `interpretAsync`,
and the stepper driven to completion); position is never clamped to the bounds. -/
theorem claim_c9 (T : Trig) (O : Opts) (fuel : ℕ) (toks : List Tok) :
    iresRel O.width O.height (interpret T O fuel toks)
      (interpret T { O with width := none, height := none } fuel toks) ∧
    iresRel O.width O.height (interpretAsync T O fuel toks)
      (interpretAsync T { O with width := none, height := none } fuel toks) ∧
    mresRel O.width O.height (drive T O toks fuel (initMach O))
      (drive T { O with width := none, height := none } toks fuel
        (initMach { O with width := none, height := none })) := by
  have hinit : obsEq O.width O.height (initState O)
      (initState { O with width := none, height := none }) :=
    ⟨rfl, rfl, rfl, rfl, rfl, rfl, rfl⟩
  refine ⟨?_, ?_, ?_⟩
  · simp only [interpret]
    have hs : resRel O.width O.height
        (syncRun T O fuel (.list toks) (initState O))
        (syncRun T { O with width := none, height := none } fuel (.list toks)
          (initState { O with width := none, height := none })) := by
      refine syncRun_rel T ?_ ?_ ?_ ?_ ?_ fuel (.list toks) hinit <;> rfl
    cases hb : syncRun T O fuel (.list toks) (initState O) <;>
      cases hu : syncRun T { O with width := none, height := none } fuel
        (.list toks) (initState { O with width := none, height := none }) <;>
      rw [hb, hu] at hs
    case ok.ok pb pu =>
      obtain ⟨pb1, pb2⟩ := pb
      obtain ⟨pu1, pu2⟩ := pu
      exact mkResult_rel rfl hs.1
    case err.err eb eu => exact hs
    case out.out => exact trivial
    all_goals exact hs.elim
  · simp only [interpretAsync]
    have hs : tresRel O.width O.height
        (asyncTop T O fuel toks (initState O))
        (asyncTop T { O with width := none, height := none } fuel toks
          (initState { O with width := none, height := none })) := by
      refine asyncTop_rel T ?_ ?_ ?_ ?_ ?_ fuel toks hinit <;> rfl
    cases hb : asyncTop T O fuel toks (initState O) <;>
      cases hu : asyncTop T { O with width := none, height := none } fuel toks
        (initState { O with width := none, height := none }) <;>
      rw [hb, hu] at hs
    case ok.ok sb su => exact mkResult_rel rfl hs
    case err.err eb eu => exact hs
    case out.out => exact trivial
    all_goals exact hs.elim
  · have hm : machRel O.width O.height (initMach O)
        (initMach { O with width := none, height := none }) :=
      ⟨hinit, rfl, rfl, rfl⟩
    show mresRel O.width O.height
      (drive T O toks fuel (initMach O))
      (drive T { O with width := none, height := none } toks fuel
        (initMach { O with width := none, height := none }))
    refine drive_rel T ?_ ?_ ?_ ?_ ?_ toks fuel hm <;> rfl

/-- Witness for C4 at a concrete input: `right 450` from heading `0` records and
returns heading `90`. -/
theorem claim_c4_witness :
    turnOpsGood (IResult.operations ⟨0, 0, 90, false, ⟨0, 0, 100⟩, [.turn 90], []⟩) ∧
    (0 ≤ (Opts.heading {}) ∧ (Opts.heading {}) < 360 →
      0 ≤ (IResult.finalHeading ⟨0, 0, 90, false, ⟨0, 0, 100⟩, [.turn 90], []⟩) ∧
        (IResult.finalHeading ⟨0, 0, 90, false, ⟨0, 0, 100⟩, [.turn 90], []⟩) < 360) :=
  claim_c4 ⟨fun _ => 1, fun _ => 0⟩ {} 3 [.turnT false (.num 450)]
    ⟨0, 0, 90, false, ⟨0, 0, 100⟩, [.turn 90], []⟩ rfl

/-! ### Engine equivalence for signal-safe programs (C1, C5) -/

/-- One-step unfolding of `syncRun` at a `REPEAT UNTIL` token (stated explicitly so
goals can be unfolded exactly once). -/
lemma syncRun_eq_repU (T : Trig) (O : Opts) (n : ℕ) (c : Value)
    (body rest : List Tok) (s : TState) :
    syncRun T O (n + 1) (.list (.repU c body :: rest)) s =
      (match syncRun T O n (.unt c body) s with
       | .ok (s₁, _) => syncRun T O n (.list rest) s₁
       | .err e => .err e
       | .out => .out) := rfl

/-- One-step unfolding of `syncRun` on an until-loop configuration. -/
lemma syncRun_eq_untS (T : Trig) (O : Opts) (n : ℕ) (c : Value)
    (body : List Tok) (s : TState) :
    syncRun T O (n + 1) (.unt c body) s =
      (match (evalValue s.vars c).toQ? with
       | none => .err "Invalid until expression"
       | some q =>
         if q ≠ 0 then .ok (s, none)
         else
           match syncRun T O n (.list body) s with
           | .ok (s₁, some .brk) => .ok (s₁, none)
           | .ok (s₁, _) => syncRun T O n (.unt c body) s₁
           | .err e => .err e
           | .out => .out) := rfl

/-- Fuel monotonicity of the synchronous engine: a completed run stays the same
with more fuel. -/
lemma syncRun_mono (T : Trig) (O : Opts) :
    ∀ {n : ℕ} {c : SCfg} {s : TState} {r : TState × Option Sig},
      syncRun T O n c s = .ok r → syncRun T O (n + 1) c s = .ok r := by
  intro n
  induction n with
  | zero => intro c s r h; cases h
  | succ n ih =>
    intro c s r h
    match c with
    | .list [] => exact h
    | .list (t :: rest) =>
      match t with
      | .varT name v re =>
        simp only [syncRun] at h ⊢
        split at h
        next e hv => cases h
        next s₁ hv => exact ih h
      | .penT d =>
        simp only [syncRun] at h ⊢
        exact ih h
      | .turnT lf v =>
        simp only [syncRun] at h ⊢
        split at h
        next e hv => cases h
        next s₁ hv => exact ih h
      | .hsvT ph ps pv =>
        simp only [syncRun] at h ⊢
        split at h
        next e hv => cases h
        next s₁ hv => exact ih h
      | .moveT fw v =>
        simp only [syncRun] at h ⊢
        split at h
        next e hv => cases h
        next s₁ hv => exact ih h
      | .repC c body =>
        simp only [syncRun] at h ⊢
        split at h
        next hq => cases h
        next q hq =>
          split at h
          next s₁ sg hr => rw [ih hr]; exact ih h
          next e hr => cases h
          next hr => cases h
      | .repU c body =>
        simp only [syncRun] at h
        rw [syncRun_eq_repU]
        split at h
        next s₁ sg hr => rw [ih hr]; exact ih h
        next e hr => cases h
        next hr => cases h
      | .ifT tst body =>
        simp only [syncRun] at h ⊢
        split at h
        next htr =>
          rw [if_pos htr]
          split at h
          next s₁ sg hr =>
            cases h
            rw [ih hr]
          next s₁ hr => rw [ih hr]; exact ih h
          next e hr => cases h
          next hr => cases h
        next htr =>
          rw [if_neg htr]
          exact ih h
      | .brk => exact h
      | .cont => exact h
    | .cnt 0 body => exact h
    | .cnt (k + 1) body =>
      simp only [syncRun] at h ⊢
      split at h
      next s₁ hr =>
        cases h
        rw [ih hr]
      next s₁ sg hns hr =>
        rw [ih hr]
        cases sg with
        | none => exact ih h
        | some sg' =>
          cases sg' with
          | brk => exact absurd rfl hns
          | cont => exact ih h
      next e hr => cases h
      next hr => cases h
    | .unt c body =>
      simp only [syncRun] at h
      rw [syncRun_eq_untS]
      split at h
      next hq => cases h
      next q hq =>
        split at h
        next hz =>
          rw [if_pos hz]
          exact h
        next hz =>
          rw [if_neg hz]
          split at h
          next s₁ hr =>
            cases h
            rw [ih hr]
          next s₁ sg hns hr =>
            rw [ih hr]
            cases sg with
            | none => exact ih h
            | some sg' =>
              cases sg' with
              | brk => exact absurd rfl hns
              | cont => exact ih h
          next e hr => cases h
          next hr => cases h

/-- `syncRun_mono` for an arbitrary larger fuel. -/
lemma syncRun_mono_le (T : Trig) (O : Opts) {n n' : ℕ} (hle : n ≤ n')
    {c : SCfg} {s : TState} {r : TState × Option Sig}
    (h : syncRun T O n c s = .ok r) : syncRun T O n' c s = .ok r := by
  induction hle with
  | refl => exact h
  | step _ ih => exact syncRun_mono T O ih

/-- One-step unfolding of `asyncRun` at a `REPEAT UNTIL` token. -/
lemma asyncRun_eq_tokU (T : Trig) (O : Opts) (n : ℕ) (c : Value)
    (body : List Tok) (s : TState) :
    asyncRun T O (n + 1) (.tok (.repU c body)) s =
      (match asyncRun T O n (.unt c body) s with
       | .ok (s₁, _) => .ok (s₁, none)
       | .err e => .err e
       | .out => .out) := rfl

/-- One-step unfolding of `asyncRun` on an until-loop configuration. -/
lemma asyncRun_eq_untS (T : Trig) (O : Opts) (n : ℕ) (c : Value)
    (body : List Tok) (s : TState) :
    asyncRun T O (n + 1) (.unt c body) s =
      (match (evalValue s.vars c).toQ? with
       | none => .err "Invalid until expression"
       | some q =>
         if q ≠ 0 then .ok (s, none)
         else
           match asyncRun T O n (.seq body) s with
           | .ok (s₁, some .brk) => .ok (s₁, none)
           | .ok (s₁, _) => asyncRun T O n (.unt c body) s₁
           | .err e => .err e
           | .out => .out) := rfl

/-- One-step unfolding of `asyncRun` on a non-empty token walk. -/
lemma asyncRun_eq_seqCons (T : Trig) (O : Opts) (n : ℕ) (t : Tok)
    (rest : List Tok) (s : TState) :
    asyncRun T O (n + 1) (.seq (t :: rest)) s =
      (match asyncRun T O n (.tok t) s with
       | .ok (s₁, some sg) => .ok (s₁, some sg)
       | .ok (s₁, none) => asyncRun T O n (.seq rest) s₁
       | .err e => .err e
       | .out => .out) := rfl

/-- Fuel monotonicity of the async engine. -/
lemma asyncRun_mono (T : Trig) (O : Opts) :
    ∀ {n : ℕ} {c : ACfg} {s : TState} {r : TState × Option Sig},
      asyncRun T O n c s = .ok r → asyncRun T O (n + 1) c s = .ok r := by
  intro n
  induction n with
  | zero => intro c s r h; cases h
  | succ n ih =>
    intro c s r h
    match c with
    | .tok t =>
      match t with
      | .varT name v re =>
        simp only [asyncRun] at h ⊢
        split at h
        next e hv => cases h
        next s₁ hv => exact h
      | .penT d => exact h
      | .turnT lf v =>
        simp only [asyncRun] at h ⊢
        split at h
        next e hv => cases h
        next s₁ hv => exact h
      | .hsvT ph ps pv =>
        simp only [asyncRun] at h ⊢
        split at h
        next e hv => cases h
        next s₁ hv => exact h
      | .moveT fw v =>
        simp only [asyncRun] at h ⊢
        split at h
        next e hv => cases h
        next s₁ hv => exact h
      | .repC c body =>
        simp only [asyncRun] at h ⊢
        split at h
        next hq => cases h
        next q hq =>
          split at h
          next s₁ sg hr => rw [ih hr]; exact h
          next e hr => cases h
          next hr => cases h
      | .repU c body =>
        simp only [asyncRun] at h
        rw [asyncRun_eq_tokU]
        split at h
        next s₁ sg hr => rw [ih hr]; exact h
        next e hr => cases h
        next hr => cases h
      | .ifT tst body =>
        simp only [asyncRun] at h ⊢
        split at h
        next htr =>
          rw [if_pos htr]
          split at h
          next s₁ sg hr => rw [ih hr]; exact h
          next e hr => cases h
          next hr => cases h
        next htr =>
          rw [if_neg htr]
          exact h
      | .brk => exact h
      | .cont => exact h
    | .seq [] => exact h
    | .seq (t :: rest) =>
      simp only [asyncRun] at h
      rw [asyncRun_eq_seqCons]
      split at h
      next s₁ sg hr =>
        cases h
        rw [ih hr]
      next s₁ hr => rw [ih hr]; exact ih h
      next e hr => cases h
      next hr => cases h
    | .cnt 0 body => exact h
    | .cnt (k + 1) body =>
      simp only [asyncRun] at h ⊢
      split at h
      next s₁ hr =>
        cases h
        rw [ih hr]
      next s₁ sg hns hr =>
        rw [ih hr]
        cases sg with
        | none => exact ih h
        | some sg' =>
          cases sg' with
          | brk => exact absurd rfl hns
          | cont => exact ih h
      next e hr => cases h
      next hr => cases h
    | .unt c body =>
      simp only [asyncRun] at h
      rw [asyncRun_eq_untS]
      split at h
      next hq => cases h
      next q hq =>
        split at h
        next hz =>
          rw [if_pos hz]
          exact h
        next hz =>
          rw [if_neg hz]
          split at h
          next s₁ hr =>
            cases h
            rw [ih hr]
          next s₁ sg hns hr =>
            rw [ih hr]
            cases sg with
            | none => exact ih h
            | some sg' =>
              cases sg' with
              | brk => exact absurd rfl hns
              | cont => exact ih h
          next e hr => cases h
          next hr => cases h

/-- `asyncRun_mono` for an arbitrary larger fuel. -/
lemma asyncRun_mono_le (T : Trig) (O : Opts) {n n' : ℕ} (hle : n ≤ n')
    {c : ACfg} {s : TState} {r : TState × Option Sig}
    (h : asyncRun T O n c s = .ok r) : asyncRun T O n' c s = .ok r := by
  induction hle with
  | refl => exact h
  | step _ ih => exact asyncRun_mono T O ih

/-- One-step unfolding of `asyncTop` on a cons. -/
lemma asyncTop_eq_cons (T : Trig) (O : Opts) (n : ℕ) (t : Tok) (rest : List Tok)
    (s : TState) :
    asyncTop T O (n + 1) (t :: rest) s =
      (match asyncRun T O n (.tok t) s with
       | .ok (s₁, _) => asyncTop T O n rest s₁
       | .err e => .err e
       | .out => .out) := rfl

/-- Fuel monotonicity of the async top-level loop. -/
lemma asyncTop_mono (T : Trig) (O : Opts) :
    ∀ {n : ℕ} {l : List Tok} {s : TState} {r : TState},
      asyncTop T O n l s = .ok r → asyncTop T O (n + 1) l s = .ok r := by
  intro n
  induction n with
  | zero => intro l s r h; cases h
  | succ n ih =>
    intro l s r h
    match l with
    | [] => exact h
    | t :: rest =>
      simp only [asyncTop] at h
      rw [asyncTop_eq_cons]
      split at h
      next s₁ sg hr => rw [asyncRun_mono T O hr]; exact ih h
      next e hr => cases h
      next hr => cases h

/-- `asyncTop_mono` for an arbitrary larger fuel. -/
lemma asyncTop_mono_le (T : Trig) (O : Opts) {n n' : ℕ} (hle : n ≤ n')
    {l : List Tok} {s : TState} {r : TState}
    (h : asyncTop T O n l s = .ok r) : asyncTop T O n' l s = .ok r := by
  induction hle with
  | refl => exact h
  | step _ ih => exact asyncTop_mono T O ih

/-- One-step unfolding of the stepper's `nextToken`. -/
lemma nextTok_eq (root : List Tok) (n : ℕ) (m : Mach) :
    nextTok root (n + 1) m =
      (match m.frames with
       | [] =>
         match root.get? m.mainIdx with
         | none => .ok (none, m)
         | some t => .ok (some t, { m with mainIdx := m.mainIdx + 1 })
       | fr :: outer =>
         match fr with
         | .fCount body idx rem =>
           match body.get? idx with
           | some t => .ok (some t, { m with frames := .fCount body (idx + 1) rem :: outer })
           | none =>
             if rem - 1 > 0 then
               nextTok root n { m with frames := .fCount body 0 (rem - 1) :: outer }
             else nextTok root n { m with frames := outer }
         | .fIf body idx =>
           match body.get? idx with
           | some t => .ok (some t, { m with frames := .fIf body (idx + 1) :: outer })
           | none => nextTok root n { m with frames := outer }
         | .fUntil body idx c bflag =>
           match body.get? idx with
           | some t =>
             .ok (some t, { m with frames := .fUntil body (idx + 1) c bflag :: outer })
           | none =>
             if bflag then nextTok root n { m with frames := outer }
             else
               match (evalValue m.ts.vars c).toQ? with
               | none => .err "Invalid until expression"
               | some q =>
                 if q ≠ 0 then nextTok root n { m with frames := outer }
                 else nextTok root n { m with frames := .fUntil body 0 c bflag :: outer }) := rfl

/-- Fuel monotonicity of the stepper's `nextToken`. -/
lemma nextTok_mono (root : List Tok) :
    ∀ {n : ℕ} {m : Mach} {r : Option Tok × Mach},
      nextTok root n m = .ok r → nextTok root (n + 1) m = .ok r := by
  intro n
  induction n with
  | zero => intro m r h; cases h
  | succ n ih =>
    intro m r h
    simp only [nextTok] at h
    rw [nextTok_eq]
    split at h
    next hfr =>
      split at h
      next hg => exact h
      next t hg => exact h
    next fr outer hfr =>
      match fr with
      | .fCount body idx rem =>
        dsimp only at h ⊢
        split at h
        next t hg => exact h
        next hg =>
          split at h
          next hrm => rw [if_pos hrm]; exact ih h
          next hrm => rw [if_neg hrm]; exact ih h
      | .fIf body idx =>
        dsimp only at h ⊢
        split at h
        next t hg => exact h
        next hg => exact ih h
      | .fUntil body idx c bflag =>
        dsimp only at h ⊢
        split at h
        next t hg => exact h
        next hg =>
          split at h
          next hbf => rw [if_pos hbf]; exact ih h
          next hbf =>
            rw [if_neg hbf]
            split at h
            next hq => cases h
            next q hq =>
              split at h
              next hz => rw [if_pos hz]; exact ih h
              next hz => rw [if_neg hz]; exact ih h

/-- `nextTok_mono` for an arbitrary larger fuel. -/
lemma nextTok_mono_le (root : List Tok) {n n' : ℕ} (hle : n ≤ n')
    {m : Mach} {r : Option Tok × Mach}
    (h : nextTok root n m = .ok r) : nextTok root n' m = .ok r := by
  induction hle with
  | refl => exact h
  | step _ ih => exact nextTok_mono root ih

/-- One-step unfolding of the stepper's `step()`. -/
lemma stepFn_eq (T : Trig) (O : Opts) (root : List Tok) (n : ℕ) (m : Mach) :
    stepFn T O root (n + 1) m =
      (if m.finished then .ok m
       else
         match nextTok root n m with
         | .out => .out
         | .err e => .err e m
         | .ok (none, m₁) => .ok { m₁ with finished := true }
         | .ok (some t, m₁) =>
           match stepExecTok T O t m₁ with
           | .error e => .err e m₁
           | .ok m₂ => if isMoveTurn t then .ok m₂ else stepFn T O root n m₂) := rfl

/-- One-step unfolding of `drive`. -/
lemma drive_eq (T : Trig) (O : Opts) (root : List Tok) (n : ℕ) (m : Mach) :
    drive T O root (n + 1) m =
      (if m.finished then .ok m
       else
         match stepFn T O root n m with
         | .ok m₁ => drive T O root n m₁
         | .err e m₁ => .err e m₁
         | .out => .out) := rfl

/-- Fuel monotonicity of the stepper's `step()`. -/
lemma stepFn_mono (T : Trig) (O : Opts) (root : List Tok) :
    ∀ {n : ℕ} {m m' : Mach},
      stepFn T O root n m = .ok m' → stepFn T O root (n + 1) m = .ok m' := by
  intro n
  induction n with
  | zero => intro m m' h; cases h
  | succ n ih =>
    intro m m' h
    simp only [stepFn] at h
    rw [stepFn_eq]
    split at h
    next hfin => rw [if_pos hfin]; exact h
    next hfin =>
      rw [if_neg hfin]
      split at h
      next hr => cases h
      next e hr => cases h
      next m₁ hr => rw [nextTok_mono root hr]; exact h
      next t m₁ hr =>
        rw [nextTok_mono root hr]
        dsimp only
        split at h
        next e he => cases h
        next m₂ he =>
          split at h
          next hmt => rw [if_pos hmt]; exact h
          next hmt => rw [if_neg hmt]; exact ih h

/-- `stepFn_mono` for an arbitrary larger fuel. -/
lemma stepFn_mono_le (T : Trig) (O : Opts) (root : List Tok) {n n' : ℕ}
    (hle : n ≤ n') {m m' : Mach}
    (h : stepFn T O root n m = .ok m') : stepFn T O root n' m = .ok m' := by
  induction hle with
  | refl => exact h
  | step _ ih => exact stepFn_mono T O root ih

/-- Fuel monotonicity of `drive`. -/
lemma drive_mono (T : Trig) (O : Opts) (root : List Tok) :
    ∀ {n : ℕ} {m m' : Mach},
      drive T O root n m = .ok m' → drive T O root (n + 1) m = .ok m' := by
  intro n
  induction n with
  | zero => intro m m' h; cases h
  | succ n ih =>
    intro m m' h
    simp only [drive] at h
    rw [drive_eq]
    split at h
    next hfin => rw [if_pos hfin]; exact h
    next hfin =>
      rw [if_neg hfin]
      split at h
      next m₁ hr => rw [stepFn_mono T O root hr]; exact ih h
      next e m₁ hr => cases h
      next hr => cases h

/-- `drive_mono` for an arbitrary larger fuel. -/
lemma drive_mono_le (T : Trig) (O : Opts) (root : List Tok) {n n' : ℕ}
    (hle : n ≤ n') {m m' : Mach}
    (h : drive T O root n m = .ok m') : drive T O root n' m = .ok m' := by
  induction hle with
  | refl => exact h
  | step _ ih => exact drive_mono T O root ih

/-- A signal-free list (`SafeL`) never completes with a pending signal. -/
lemma ev_safe_sig (T : Trig) (O : Opts) {cfg : SCfg} {s : TState}
    {r : TState × Option Sig} (hev : Ev T O cfg s r) :
    ∀ l, cfg = .list l → SafeL l → r.2 = none := by
  induction hev with
  | nil s => intro l hl hs; rfl
  | varC h1 h2 ih =>
    intro l hl hs
    cases hl
    cases hs with
    | cons hst hsr => exact ih _ rfl hsr
  | penC h ih =>
    intro l hl hs
    cases hl
    cases hs with
    | cons hst hsr => exact ih _ rfl hsr
  | turnC h1 h2 ih =>
    intro l hl hs
    cases hl
    cases hs with
    | cons hst hsr => exact ih _ rfl hsr
  | hsvC h1 h2 ih =>
    intro l hl hs
    cases hl
    cases hs with
    | cons hst hsr => exact ih _ rfl hsr
  | moveC h1 h2 ih =>
    intro l hl hs
    cases hl
    cases hs with
    | cons hst hsr => exact ih _ rfl hsr
  | repCC hq hcnt hrest ih1 ih2 =>
    intro l hl hs
    cases hl
    cases hs with
    | cons hst hsr => exact ih2 _ rfl hsr
  | repUC hunt hrest ih1 ih2 =>
    intro l hl hs
    cases hl
    cases hs with
    | cons hst hsr => exact ih2 _ rfl hsr
  | ifSig htr hbody ih =>
    intro l hl hs
    cases hl
    cases hs with
    | cons hst hsr =>
      cases hst with
      | ifT hb => exact ih _ rfl hb
  | ifNone htr hbody hrest ih1 ih2 =>
    intro l hl hs
    cases hl
    cases hs with
    | cons hst hsr => exact ih2 _ rfl hsr
  | ifSkip htr hrest ih =>
    intro l hl hs
    cases hl
    cases hs with
    | cons hst hsr => exact ih _ rfl hsr
  | brkC =>
    intro l hl hs
    cases hl
    cases hs with
    | cons hst hsr => cases hst
  | contC =>
    intro l hl hs
    cases hl
    cases hs with
    | cons hst hsr => cases hst
  | cnt0 => intro l hl hs; cases hl
  | cntBrk h ih => intro l hl hs; cases hl
  | cntGo hne h1 h2 ih1 ih2 => intro l hl hs; cases hl
  | untStop h1 h2 => intro l hl hs; cases hl
  | untBrk h1 h2 ih => intro l hl hs; cases hl
  | untGo h1 h2 h3 h4 ih1 ih2 => intro l hl hs; cases hl

/-- Repeat-loop configurations always complete with signal `none`. -/
lemma ev_loop_sig (T : Trig) (O : Opts) {cfg : SCfg} {s : TState}
    {r : TState × Option Sig} (hev : Ev T O cfg s r) :
    (match cfg with | SCfg.list _ => False | _ => True) → r.2 = none := by
  induction hev with
  | nil s => exact fun hF => hF.elim
  | varC h1 h2 ih => exact fun hF => hF.elim
  | penC h ih => exact fun hF => hF.elim
  | turnC h1 h2 ih => exact fun hF => hF.elim
  | hsvC h1 h2 ih => exact fun hF => hF.elim
  | moveC h1 h2 ih => exact fun hF => hF.elim
  | repCC hq hcnt hrest ih1 ih2 => exact fun hF => hF.elim
  | repUC hunt hrest ih1 ih2 => exact fun hF => hF.elim
  | ifSig htr hbody ih => exact fun hF => hF.elim
  | ifNone htr hbody hrest ih1 ih2 => exact fun hF => hF.elim
  | ifSkip htr hrest ih => exact fun hF => hF.elim
  | brkC => exact fun hF => hF.elim
  | contC => exact fun hF => hF.elim
  | cnt0 => exact fun _ => rfl
  | cntBrk h ih => exact fun _ => rfl
  | cntGo hne h1 h2 ih1 ih2 => exact fun _ => ih2 trivial
  | untStop h1 h2 => exact fun _ => rfl
  | untBrk h1 h2 ih => exact fun _ => rfl
  | untGo h1 h2 h3 h4 ih1 ih2 => exact fun _ => ih2 trivial

/-- Completeness of the synchronous engine for the big-step relation: every `Ev`
derivation is realized with enough fuel. -/
lemma syncComplete (T : Trig) (O : Opts) {cfg : SCfg} {s : TState}
    {r : TState × Option Sig} (hev : Ev T O cfg s r) :
    ∃ n, syncRun T O n cfg s = .ok r := by
  induction hev with
  | nil s => exact ⟨1, rfl⟩
  | varC hv _ ih =>
    obtain ⟨n₁, h₁⟩ := ih
    refine ⟨n₁ + 1, ?_⟩
    simp only [syncRun]
    rw [hv]
    exact h₁
  | penC _ ih =>
    obtain ⟨n₁, h₁⟩ := ih
    refine ⟨n₁ + 1, ?_⟩
    simp only [syncRun]
    exact h₁
  | turnC hv _ ih =>
    obtain ⟨n₁, h₁⟩ := ih
    refine ⟨n₁ + 1, ?_⟩
    simp only [syncRun]
    rw [hv]
    exact h₁
  | hsvC hv _ ih =>
    obtain ⟨n₁, h₁⟩ := ih
    refine ⟨n₁ + 1, ?_⟩
    simp only [syncRun]
    rw [hv]
    exact h₁
  | moveC hv _ ih =>
    obtain ⟨n₁, h₁⟩ := ih
    refine ⟨n₁ + 1, ?_⟩
    simp only [syncRun]
    rw [hv]
    exact h₁
  | repCC hq _ _ ih1 ih2 =>
    obtain ⟨n₁, h₁⟩ := ih1
    obtain ⟨n₂, h₂⟩ := ih2
    refine ⟨max n₁ n₂ + 1, ?_⟩
    simp only [syncRun]
    rw [hq]
    dsimp only
    rw [syncRun_mono_le T O (le_max_left n₁ n₂) h₁]
    exact syncRun_mono_le T O (le_max_right n₁ n₂) h₂
  | repUC _ _ ih1 ih2 =>
    obtain ⟨n₁, h₁⟩ := ih1
    obtain ⟨n₂, h₂⟩ := ih2
    refine ⟨max n₁ n₂ + 1, ?_⟩
    simp only [syncRun]
    rw [syncRun_mono_le T O (le_max_left n₁ n₂) h₁]
    exact syncRun_mono_le T O (le_max_right n₁ n₂) h₂
  | ifSig htr _ ih =>
    obtain ⟨n₁, h₁⟩ := ih
    refine ⟨n₁ + 1, ?_⟩
    simp only [syncRun]
    rw [if_pos htr, h₁]
  | ifNone htr _ _ ih1 ih2 =>
    obtain ⟨n₁, h₁⟩ := ih1
    obtain ⟨n₂, h₂⟩ := ih2
    refine ⟨max n₁ n₂ + 1, ?_⟩
    simp only [syncRun]
    rw [if_pos htr, syncRun_mono_le T O (le_max_left n₁ n₂) h₁]
    exact syncRun_mono_le T O (le_max_right n₁ n₂) h₂
  | ifSkip htr _ ih =>
    obtain ⟨n₁, h₁⟩ := ih
    refine ⟨n₁ + 1, ?_⟩
    simp only [syncRun]
    rw [if_neg (by simp [htr])]
    exact h₁
  | brkC => exact ⟨1, rfl⟩
  | contC => exact ⟨1, rfl⟩
  | cnt0 => exact ⟨1, rfl⟩
  | cntBrk _ ih =>
    obtain ⟨n₁, h₁⟩ := ih
    refine ⟨n₁ + 1, ?_⟩
    simp only [syncRun]
    rw [h₁]
  | cntGo hne hb hc ih1 ih2 =>
    obtain ⟨n₁, h₁⟩ := ih1
    obtain ⟨n₂, h₂⟩ := ih2
    refine ⟨max n₁ n₂ + 1, ?_⟩
    simp only [syncRun]
    rw [syncRun_mono_le T O (le_max_left n₁ n₂) h₁]
    rename_i sg rr
    cases sg with
    | none => exact syncRun_mono_le T O (le_max_right n₁ n₂) h₂
    | some sg' =>
      cases sg' with
      | brk => exact absurd rfl hne
      | cont => exact syncRun_mono_le T O (le_max_right n₁ n₂) h₂
  | untStop hq hnz =>
    refine ⟨1, ?_⟩
    simp only [syncRun]
    rw [hq]
    dsimp only
    rw [if_pos hnz]
  | untBrk hq hb ih =>
    obtain ⟨n₁, h₁⟩ := ih
    refine ⟨n₁ + 1, ?_⟩
    simp only [syncRun]
    rw [hq]
    dsimp only
    rw [if_neg (by simp), h₁]
  | untGo hq hne hb hu ih1 ih2 =>
    obtain ⟨n₁, h₁⟩ := ih1
    obtain ⟨n₂, h₂⟩ := ih2
    refine ⟨max n₁ n₂ + 1, ?_⟩
    simp only [syncRun]
    rw [hq]
    dsimp only
    rw [if_neg (by simp), syncRun_mono_le T O (le_max_left n₁ n₂) h₁]
    rename_i sg rr
    cases sg with
    | none => exact syncRun_mono_le T O (le_max_right n₁ n₂) h₂
    | some sg' =>
      cases sg' with
      | brk => exact absurd rfl hne
      | cont => exact syncRun_mono_le T O (le_max_right n₁ n₂) h₂

/-- A non-loop-safe list is in particular loop-body-safe. -/
lemma SafeL.toB : ∀ {l : List Tok}, SafeL l → SafeB l
  | [], _ => SafeB.nil
  | _ :: _, SafeL.cons ht hr => SafeB.cons ht (SafeL.toB hr)

/-- Completeness of the async engine for signal-safe programs: every `Ev`
derivation over safe program text is realized by `interpretAsync`'s `execToken`
with enough fuel.  (Safety matters at `IF`: the async engine discards a signal
crossing an `if` frame, but a `SafeL` body never produces one.) -/
lemma asyncComplete (T : Trig) (O : Opts) {cfg : SCfg} {s : TState}
    {r : TState × Option Sig} (hev : Ev T O cfg s r) :
    SafeCfg cfg → ∃ n, asyncRun T O n (acfgOf cfg) s = .ok r := by
  induction hev with
  | nil s => exact fun _ => ⟨1, rfl⟩
  | varC hv hr ih =>
    rename_i name v re s0 s₁ rest rr
    intro hs
    have hs' : SafeB _ := hs
    cases hs' with
    | cons hst hsr =>
      obtain ⟨n₁, h₁⟩ := ih hsr
      refine ⟨n₁ + 2, ?_⟩
      simp only [acfgOf]
      rw [asyncRun_eq_seqCons]
      have htok : asyncRun T O (n₁ + 1) (.tok (.varT name v re)) s0 = .ok (s₁, none) := by
        simp only [asyncRun]
        rw [hv]
      rw [htok]
      exact asyncRun_mono T O h₁
  | penC hr ih =>
    intro hs
    have hs' : SafeB _ := hs
    cases hs' with
    | cons hst hsr =>
      obtain ⟨n₁, h₁⟩ := ih hsr
      refine ⟨n₁ + 2, ?_⟩
      simp only [acfgOf]
      rw [asyncRun_eq_seqCons]
      exact asyncRun_mono T O h₁
  | turnC hv hr ih =>
    rename_i lf v s0 s₁ rest rr
    intro hs
    have hs' : SafeB _ := hs
    cases hs' with
    | cons hst hsr =>
      obtain ⟨n₁, h₁⟩ := ih hsr
      refine ⟨n₁ + 2, ?_⟩
      simp only [acfgOf]
      rw [asyncRun_eq_seqCons]
      have htok : asyncRun T O (n₁ + 1) (.tok (.turnT lf v)) s0 = .ok (s₁, none) := by
        simp only [asyncRun]
        rw [hv]
      rw [htok]
      exact asyncRun_mono T O h₁
  | hsvC hv hr ih =>
    rename_i ph ps pv s0 s₁ rest rr
    intro hs
    have hs' : SafeB _ := hs
    cases hs' with
    | cons hst hsr =>
      obtain ⟨n₁, h₁⟩ := ih hsr
      refine ⟨n₁ + 2, ?_⟩
      simp only [acfgOf]
      rw [asyncRun_eq_seqCons]
      have htok : asyncRun T O (n₁ + 1) (.tok (.hsvT ph ps pv)) s0 = .ok (s₁, none) := by
        simp only [asyncRun]
        rw [hv]
      rw [htok]
      exact asyncRun_mono T O h₁
  | moveC hv hr ih =>
    rename_i fw v s0 s₁ rest rr
    intro hs
    have hs' : SafeB _ := hs
    cases hs' with
    | cons hst hsr =>
      obtain ⟨n₁, h₁⟩ := ih hsr
      refine ⟨n₁ + 2, ?_⟩
      simp only [acfgOf]
      rw [asyncRun_eq_seqCons]
      have htok : asyncRun T O (n₁ + 1) (.tok (.moveT fw v)) s0 = .ok (s₁, none) := by
        simp only [asyncRun]
        rw [hv]
      rw [htok]
      exact asyncRun_mono T O h₁
  | repCC hq hcnt hrest ih1 ih2 =>
    rename_i c q body s0 s₁ sg₁ rest rr
    intro hs
    have hs' : SafeB _ := hs
    cases hs' with
    | cons hst hsr =>
      cases hst with
      | repC hbB =>
        obtain ⟨n₁, h₁⟩ := ih1 hbB
        obtain ⟨n₂, h₂⟩ := ih2 hsr
        simp only [acfgOf] at h₁
        refine ⟨max n₁ n₂ + 2, ?_⟩
        simp only [acfgOf]
        rw [asyncRun_eq_seqCons]
        have htok : asyncRun T O (max n₁ n₂ + 1) (.tok (.repC c body)) s0 = .ok (s₁, none) := by
          simp only [asyncRun]
          rw [hq]
          dsimp only
          rw [asyncRun_mono_le T O (le_max_left n₁ n₂) h₁]
        rw [htok]
        exact asyncRun_mono_le T O (le_trans (le_max_right n₁ n₂) (Nat.le_succ _)) h₂
  | repUC hunt hrest ih1 ih2 =>
    rename_i c body s0 s₁ sg₁ rest rr
    intro hs
    have hs' : SafeB _ := hs
    cases hs' with
    | cons hst hsr =>
      cases hst with
      | repU hbB =>
        obtain ⟨n₁, h₁⟩ := ih1 hbB
        obtain ⟨n₂, h₂⟩ := ih2 hsr
        simp only [acfgOf] at h₁
        refine ⟨max n₁ n₂ + 2, ?_⟩
        simp only [acfgOf]
        rw [asyncRun_eq_seqCons]
        have htok : asyncRun T O (max n₁ n₂ + 1) (.tok (.repU c body)) s0 = .ok (s₁, none) := by
          rw [asyncRun_eq_tokU]
          rw [asyncRun_mono_le T O (le_max_left n₁ n₂) h₁]
        rw [htok]
        exact asyncRun_mono_le T O (le_trans (le_max_right n₁ n₂) (Nat.le_succ _)) h₂
  | ifSig htr hbody ih =>
    intro hs
    have hs' : SafeB _ := hs
    cases hs' with
    | cons hst hsr =>
      cases hst with
      | ifT hbL =>
        exact absurd (ev_safe_sig T O hbody _ rfl hbL) (by simp)
  | ifNone htr hbody hrest ih1 ih2 =>
    rename_i tst body s0 s₁ rest rr
    intro hs
    have hs' : SafeB _ := hs
    cases hs' with
    | cons hst hsr =>
      cases hst with
      | ifT hbL =>
        obtain ⟨n₁, h₁⟩ := ih1 hbL.toB
        obtain ⟨n₂, h₂⟩ := ih2 hsr
        simp only [acfgOf] at h₁
        refine ⟨max n₁ n₂ + 2, ?_⟩
        simp only [acfgOf]
        rw [asyncRun_eq_seqCons]
        have htok : asyncRun T O (max n₁ n₂ + 1) (.tok (.ifT tst body)) s0 = .ok (s₁, none) := by
          simp only [asyncRun]
          rw [if_pos htr, asyncRun_mono_le T O (le_max_left n₁ n₂) h₁]
        rw [htok]
        exact asyncRun_mono_le T O (le_trans (le_max_right n₁ n₂) (Nat.le_succ _)) h₂
  | ifSkip htr hrest ih =>
    rename_i tst body s0 rest rr
    intro hs
    have hs' : SafeB _ := hs
    cases hs' with
    | cons hst hsr =>
      obtain ⟨n₁, h₁⟩ := ih hsr
      refine ⟨n₁ + 2, ?_⟩
      simp only [acfgOf]
      rw [asyncRun_eq_seqCons]
      have htok : asyncRun T O (n₁ + 1) (.tok (.ifT tst body)) s0 = .ok (s0, none) := by
        simp only [asyncRun]
        rw [if_neg (by simp [htr])]
      rw [htok]
      exact asyncRun_mono T O h₁
  | brkC => exact fun _ => ⟨2, rfl⟩
  | contC => exact fun _ => ⟨2, rfl⟩
  | cnt0 => exact fun _ => ⟨1, rfl⟩
  | cntBrk hb ih =>
    intro hs
    obtain ⟨n₁, h₁⟩ := ih hs
    simp only [acfgOf] at h₁
    refine ⟨n₁ + 1, ?_⟩
    simp only [acfgOf, asyncRun]
    rw [h₁]
  | cntGo hne hb hc ih1 ih2 =>
    intro hs
    obtain ⟨n₁, h₁⟩ := ih1 hs
    obtain ⟨n₂, h₂⟩ := ih2 hs
    simp only [acfgOf] at h₁ h₂
    refine ⟨max n₁ n₂ + 1, ?_⟩
    simp only [acfgOf]
    simp only [asyncRun]
    rw [asyncRun_mono_le T O (le_max_left n₁ n₂) h₁]
    rename_i sg rr
    cases sg with
    | none => exact asyncRun_mono_le T O (le_max_right n₁ n₂) h₂
    | some sg' =>
      cases sg' with
      | brk => exact absurd rfl hne
      | cont => exact asyncRun_mono_le T O (le_max_right n₁ n₂) h₂
  | untStop hq hnz =>
    intro hs
    refine ⟨1, ?_⟩
    simp only [acfgOf]
    simp only [asyncRun]
    rw [hq]
    dsimp only
    rw [if_pos hnz]
  | untBrk hq hb ih =>
    intro hs
    obtain ⟨n₁, h₁⟩ := ih hs
    simp only [acfgOf] at h₁
    refine ⟨n₁ + 1, ?_⟩
    simp only [acfgOf]
    simp only [asyncRun]
    rw [hq]
    dsimp only
    rw [if_neg (by simp), h₁]
  | untGo hq hne hb hu ih1 ih2 =>
    intro hs
    obtain ⟨n₁, h₁⟩ := ih1 hs
    obtain ⟨n₂, h₂⟩ := ih2 hs
    simp only [acfgOf] at h₁ h₂
    refine ⟨max n₁ n₂ + 1, ?_⟩
    simp only [acfgOf]
    simp only [asyncRun]
    rw [hq]
    dsimp only
    rw [if_neg (by simp), asyncRun_mono_le T O (le_max_left n₁ n₂) h₁]
    rename_i sg rr
    cases sg with
    | none => exact asyncRun_mono_le T O (le_max_right n₁ n₂) h₂
    | some sg' =>
      cases sg' with
      | brk => exact absurd rfl hne
      | cont => exact asyncRun_mono_le T O (le_max_right n₁ n₂) h₂

/-- A signal-free `execToken` walk is also an `interpretAsync` top-level run (the
top loop only differs in that it ignores signals, and there are none). -/
lemma asyncSeqTop (T : Trig) (O : Opts) :
    ∀ {n : ℕ} {l : List Tok} {s s' : TState},
      asyncRun T O n (.seq l) s = .ok (s', none) →
      ∃ m, asyncTop T O m l s = .ok s' := by
  intro n
  induction n with
  | zero => intro l s s' h; cases h
  | succ n ih =>
    intro l s s' h
    match l with
    | [] =>
      cases h
      exact ⟨1, rfl⟩
    | t :: rest =>
      simp only [asyncRun] at h
      split at h
      next s₁ sg hr => cases h
      next s₁ hr =>
        obtain ⟨m, hm⟩ := ih h
        refine ⟨max n m + 1, ?_⟩
        rw [asyncTop_eq_cons]
        rw [asyncRun_mono_le T O (le_max_left n m) hr]
        exact asyncTop_mono_le T O (le_max_right n m) hm
      next e hr => cases h
      next hr => cases h

/-- `Sim` is reflexive. -/
lemma Sim_refl (T : Trig) (O : Opts) (root : List Tok) (m : Mach) :
    Sim T O root m m := fun _ hr => hr

/-- `Sim` is transitive. -/
lemma Sim_trans {T : Trig} {O : Opts} {root : List Tok} {m₁ m₂ m₃ : Mach}
    (h₁ : Sim T O root m₁ m₂) (h₂ : Sim T O root m₂ m₃) : Sim T O root m₁ m₃ :=
  fun r hr => h₁ r (h₂ r hr)

/-- If `m`'s token stream is `m'`'s delayed by `d` `nextToken`-fuel units, a
completed `step()` from `m'` is matched from `m`. -/
lemma stepFn_of_shift (T : Trig) (O : Opts) (root : List Tok) {m m' : Mach}
    (d : ℕ) (hfin : m.finished = false) (hfin' : m'.finished = false)
    (hnt : ∀ k, nextTok root (k + d) m = nextTok root k m') :
    ∀ {n : ℕ} {m₃ : Mach}, stepFn T O root n m' = .ok m₃ →
      stepFn T O root (n + d) m = .ok m₃ := by
  intro n m₃ h
  match n with
  | 0 => cases h
  | k + 1 =>
    rw [stepFn_eq, if_neg (by simp [hfin'])] at h
    have hfuel : k + 1 + d = k + d + 1 := by omega
    rw [hfuel, stepFn_eq, if_neg (by simp [hfin]), hnt k]
    split at h
    next hr => cases h
    next e hr => cases h
    next m₁ hr => exact h
    next t m₁ hr =>
      split at h
      next e he => cases h
      next m₂ he =>
        split at h
        next hmt => rw [if_pos hmt]; exact h
        next hmt =>
          rw [if_neg hmt]
          exact stepFn_mono_le T O root (Nat.le_add_right k d) h

/-- A fuel-shifted `nextToken` equality between two machines makes the first
simulate the second. -/
lemma simShift (T : Trig) (O : Opts) (root : List Tok) {m m' : Mach} (d : ℕ)
    (hfin : m.finished = false) (hfin' : m'.finished = false)
    (hnt : ∀ k, nextTok root (k + d) m = nextTok root k m') :
    Sim T O root m m' := by
  intro res hres
  obtain ⟨N, hdr⟩ := hres
  match N, hdr with
  | 0, hdr => cases hdr
  | K + 1, hdr =>
    rw [drive_eq, if_neg (by simp [hfin'])] at hdr
    cases hst : stepFn T O root K m' with
    | ok m₁ =>
      rw [hst] at hdr
      refine ⟨K + d + 2, ?_⟩
      rw [drive_eq, if_neg (by simp [hfin])]
      rw [stepFn_mono T O root (stepFn_of_shift T O root d hfin hfin' hnt hst)]
      exact drive_mono_le T O root (by omega) hdr
    | err e m₁ => rw [hst] at hdr; cases hdr
    | out => rw [hst] at hdr; cases hdr

/-- Executing one fetched token (in the no-error case) is a simulation step. -/
lemma simTokStep (T : Trig) (O : Opts) (root : List Tok) {m : Mach} {t : Tok}
    {m₁ m₂ : Mach} {n₀ : ℕ} (hfin : m.finished = false)
    (hnt : nextTok root n₀ m = .ok (some t, m₁))
    (hex : stepExecTok T O t m₁ = .ok m₂)
    (hfin₂ : m₂.finished = false) :
    Sim T O root m m₂ := by
  intro res hres
  obtain ⟨N, hdr⟩ := hres
  by_cases hmt : isMoveTurn t = true
  · refine ⟨max n₀ N + 2, ?_⟩
    rw [drive_eq, if_neg (by simp [hfin])]
    have hstep : stepFn T O root (max n₀ N + 1) m = .ok m₂ := by
      rw [stepFn_eq, if_neg (by simp [hfin]),
        nextTok_mono_le root (le_max_left n₀ N) hnt]
      dsimp only
      rw [hex]
      dsimp only
      rw [if_pos hmt]
    rw [hstep]
    exact drive_mono_le T O root (le_trans (le_max_right n₀ N) (Nat.le_succ _)) hdr
  · match N, hdr with
    | 0, hdr => cases hdr
    | K + 1, hdr =>
      rw [drive_eq, if_neg (by simp [hfin₂])] at hdr
      cases hst : stepFn T O root K m₂ with
      | ok m₃ =>
        rw [hst] at hdr
        refine ⟨max n₀ K + 2, ?_⟩
        rw [drive_eq, if_neg (by simp [hfin])]
        have hstep : stepFn T O root (max n₀ K + 1) m = .ok m₃ := by
          rw [stepFn_eq, if_neg (by simp [hfin]),
            nextTok_mono_le root (le_max_left n₀ K) hnt]
          dsimp only
          rw [hex]
          dsimp only
          rw [if_neg hmt]
          exact stepFn_mono_le T O root (le_max_right n₀ K) hst
        rw [hstep]
        exact drive_mono_le T O root (le_trans (le_max_right n₀ K) (Nat.le_succ _)) hdr
      | err e m₃ => rw [hst] at hdr; cases hdr
      | out => rw [hst] at hdr; cases hdr

/-- Tail of a safe repeat body is safe. -/
lemma SafeB.tail {t : Tok} {rest : List Tok} (h : SafeB (t :: rest)) :
    SafeB rest := by
  cases h with
  | consBrk h => exact h
  | consCont h => exact h
  | cons _ h => exact h

/-- Tail of a safe non-loop list is safe. -/
lemma SafeL.tailL {t : Tok} {rest : List Tok} (h : SafeL (t :: rest)) :
    SafeL rest := by
  cases h with
  | cons _ h2 => exact h2

/-- Head of a safe non-loop list is a safe token. -/
lemma SafeL.headT {t : Tok} {rest : List Tok} (h : SafeL (t :: rest)) :
    SafeT t := by
  cases h with
  | cons h1 _ => exact h1

/-- A nonempty drop determines the element at the cursor. -/
lemma get?_of_drop {α : Type} {l : List α} {i : ℕ} {t : α} {rest : List α}
    (h : l.drop i = t :: rest) : l.get? i = some t := by
  have h0 : (l.drop i).get? 0 = some t := by rw [h]; rfl
  rwa [List.get?_drop, Nat.add_zero] at h0

/-- An empty drop means the cursor is past the end. -/
lemma get?_none_of_drop {α : Type} {l : List α} {i : ℕ}
    (h : l.drop i = []) : l.get? i = none := by
  have h0 : (l.drop i).get? 0 = none := by rw [h]; rfl
  rwa [List.get?_drop, Nat.add_zero] at h0

/-- Advancing the cursor drops the delivered head. -/
lemma drop_of_drop {α : Type} {l : List α} {i : ℕ} {t : α} {rest : List α}
    (h : l.drop i = t :: rest) : l.drop (i + 1) = rest := by
  rw [← List.tail_drop, h]
  rfl

/-- `nextToken` delivers the head of a frame's pending tokens and bumps its
cursor. -/
lemma nextTok_fetch (root : List Tok) {fr : Frame} {t : Tok} {rest : List Tok}
    (hrest : frameRest fr = t :: rest) (n : ℕ) (s : TState) (mi : ℕ)
    (R : List Frame) (f : Bool) :
    nextTok root (n + 1) ⟨s, mi, fr :: R, f⟩ =
      .ok (some t, ⟨s, mi, bumpIdx fr :: R, f⟩) := by
  match fr with
  | .fCount b i rem =>
    rw [nextTok_eq]
    dsimp only
    rw [get?_of_drop hrest]
    rfl
  | .fIf b i =>
    rw [nextTok_eq]
    dsimp only
    rw [get?_of_drop hrest]
    rfl
  | .fUntil b i c bf =>
    rw [nextTok_eq]
    dsimp only
    rw [get?_of_drop hrest]
    rfl

/-- The bumped frame's pending tokens are the tail. -/
lemma frameRest_bump {fr : Frame} {t : Tok} {rest : List Tok}
    (hrest : frameRest fr = t :: rest) : frameRest (bumpIdx fr) = rest := by
  match fr with
  | .fCount b i rem => exact drop_of_drop hrest
  | .fIf b i => exact drop_of_drop hrest
  | .fUntil b i c bf => exact drop_of_drop hrest

/-- Safety of the pending tokens survives a cursor bump. -/
lemma frOk_bump {fr : Frame} {t : Tok} {rest : List Tok}
    (hok : frOkAt fr) (h : frameRest fr = t :: rest) : frOkAt (bumpIdx fr) := by
  match fr with
  | .fCount b i rem =>
    have hok' : SafeB (t :: rest) := h ▸ hok
    show SafeB (b.drop (i + 1))
    rw [drop_of_drop h]
    exact hok'.tail
  | .fUntil b i c bf =>
    have hok' : SafeB (t :: rest) := h ▸ hok
    show SafeB (b.drop (i + 1))
    rw [drop_of_drop h]
    exact hok'.tail
  | .fIf b i =>
    have hok' : SafeL (t :: rest) := h ▸ hok
    show SafeL (b.drop (i + 1))
    rw [drop_of_drop h]
    exact hok'.tailL

/-- The post-body frame edit ignores the cursor (except for an `if` frame, which
cannot see a signal in the safe regime). -/
lemma sigFrames_bump (fr : Frame) (R : List Frame) {sg : Option Sig}
    (hIf : ∀ b i, fr = .fIf b i → sg = none) :
    sigFrames sg (bumpIdx fr) R = sigFrames sg fr R := by
  cases sg with
  | none => cases fr <;> rfl
  | some sig =>
    cases sig with
    | brk =>
      match fr with
      | .fCount b i rem => rfl
      | .fUntil b i c bf => rfl
      | .fIf b i => exact absurd (hIf b i rfl) (by simp)
    | cont =>
      match fr with
      | .fCount b i rem => rfl
      | .fUntil b i c bf => rfl
      | .fIf b i => exact absurd (hIf b i rfl) (by simp)

/-- A frame whose cursor is past the end behaves like the same frame parked at
`body.length`. -/
lemma simSetEnd (T : Trig) (O : Opts) (root : List Tok) {fr : Frame}
    (hend : frameRest fr = []) (s : TState) (mi : ℕ) (R : List Frame) :
    Sim T O root ⟨s, mi, fr :: R, false⟩ ⟨s, mi, setIdxEnd fr :: R, false⟩ := by
  apply simShift T O root 0 rfl rfl
  intro k
  rw [Nat.add_zero]
  match k with
  | 0 => rfl
  | k + 1 =>
    match fr, hend with
    | .fCount b i rem, hend =>
      rw [nextTok_eq, nextTok_eq]
      dsimp only [setIdxEnd]
      rw [get?_none_of_drop hend, List.get?_eq_none.mpr le_rfl]
    | .fIf b i, hend =>
      rw [nextTok_eq, nextTok_eq]
      dsimp only [setIdxEnd]
      rw [get?_none_of_drop hend, List.get?_eq_none.mpr le_rfl]
    | .fUntil b i c bf, hend =>
      rw [nextTok_eq, nextTok_eq]
      dsimp only [setIdxEnd]
      rw [get?_none_of_drop hend, List.get?_eq_none.mpr le_rfl]

/-- Popping an exhausted `if` frame. -/
lemma simPopIf (T : Trig) (O : Opts) (root : List Tok) {b : List Tok} {i : ℕ}
    (hg : b.get? i = none) (s : TState) (mi : ℕ) (R : List Frame) :
    Sim T O root ⟨s, mi, .fIf b i :: R, false⟩ ⟨s, mi, R, false⟩ := by
  apply simShift T O root 1 rfl rfl
  intro k
  rw [nextTok_eq]
  dsimp only
  rw [hg]

/-- Popping an exhausted count frame whose pending decrement reaches zero. -/
lemma simPopCount (T : Trig) (O : Opts) (root : List Tok) {b : List Tok}
    {i rem : ℕ} (hg : b.get? i = none) (hrem : ¬rem - 1 > 0)
    (s : TState) (mi : ℕ) (R : List Frame) :
    Sim T O root ⟨s, mi, .fCount b i rem :: R, false⟩ ⟨s, mi, R, false⟩ := by
  apply simShift T O root 1 rfl rfl
  intro k
  rw [nextTok_eq]
  dsimp only
  rw [hg, if_neg hrem]

/-- Re-entering an exhausted count frame with iterations left. -/
lemma simRestartCount (T : Trig) (O : Opts) (root : List Tok) {b : List Tok}
    {i rem : ℕ} (hg : b.get? i = none) (hrem : rem - 1 > 0)
    (s : TState) (mi : ℕ) (R : List Frame) :
    Sim T O root ⟨s, mi, .fCount b i rem :: R, false⟩
      ⟨s, mi, .fCount b 0 (rem - 1) :: R, false⟩ := by
  apply simShift T O root 1 rfl rfl
  intro k
  rw [nextTok_eq]
  dsimp only
  rw [hg, if_pos hrem]

/-- Popping an exhausted until frame whose `breakFlag` is set. -/
lemma simPopUntilFlag (T : Trig) (O : Opts) (root : List Tok) {b : List Tok}
    {i : ℕ} {c : Value} (hg : b.get? i = none)
    (s : TState) (mi : ℕ) (R : List Frame) :
    Sim T O root ⟨s, mi, .fUntil b i c true :: R, false⟩ ⟨s, mi, R, false⟩ := by
  apply simShift T O root 1 rfl rfl
  intro k
  rw [nextTok_eq]
  dsimp only
  rw [hg, if_pos rfl]

/-- Popping an exhausted until frame whose condition has become non-zero. -/
lemma simPopUntilCond (T : Trig) (O : Opts) (root : List Tok) {b : List Tok}
    {i : ℕ} {c : Value} {q : ℚ} {s : TState}
    (hg : b.get? i = none) (hq : (evalValue s.vars c).toQ? = some q)
    (hnz : q ≠ 0) (mi : ℕ) (R : List Frame) :
    Sim T O root ⟨s, mi, .fUntil b i c false :: R, false⟩ ⟨s, mi, R, false⟩ := by
  apply simShift T O root 1 rfl rfl
  intro k
  rw [nextTok_eq]
  dsimp only
  rw [hg, if_neg (by simp), hq]
  dsimp only
  rw [if_pos hnz]

/-- Re-entering an exhausted until frame whose condition is still zero. -/
lemma simRestartUntil (T : Trig) (O : Opts) (root : List Tok) {b : List Tok}
    {i : ℕ} {c : Value} {s : TState}
    (hg : b.get? i = none) (hq : (evalValue s.vars c).toQ? = some 0)
    (mi : ℕ) (R : List Frame) :
    Sim T O root ⟨s, mi, .fUntil b i c false :: R, false⟩
      ⟨s, mi, .fUntil b 0 c false :: R, false⟩ := by
  apply simShift T O root 1 rfl rfl
  intro k
  rw [nextTok_eq]
  dsimp only
  rw [hg, if_neg (by simp), hq]
  dsimp only
  rw [if_neg (by simp)]

/-- A non-`break`/`continue` token pending at a safe frame cursor is a safe
token. -/
lemma pendSafeT {fr : Frame} {t : Tok} {rest : List Tok}
    (hok : frOkAt fr) (h : frameRest fr = t :: rest)
    (hnb : t ≠ Tok.brk) (hnc : t ≠ Tok.cont) : SafeT t := by
  match fr with
  | .fCount b i rem =>
    have hd : b.drop i = t :: rest := h
    have hok' : SafeB (b.drop i) := hok
    rw [hd] at hok'
    cases hok' with
    | consBrk _ => exact absurd rfl hnb
    | consCont _ => exact absurd rfl hnc
    | cons hst _ => exact hst
  | .fUntil b i c bf =>
    have hd : b.drop i = t :: rest := h
    have hok' : SafeB (b.drop i) := hok
    rw [hd] at hok'
    cases hok' with
    | consBrk _ => exact absurd rfl hnb
    | consCont _ => exact absurd rfl hnc
    | cons hst _ => exact hst
  | .fIf b i =>
    have hd : b.drop i = t :: rest := h
    have hok' : SafeL (b.drop i) := hok
    rw [hd] at hok'
    exact hok'.headT

/-- When the delivering frame is an `if` frame, the continuation run of the rest
of its body carries no signal. -/
lemma sigNone_of_fIf (T : Trig) (O : Opts) {fr : Frame} {t : Tok}
    {rest : List Tok} {s₁ : TState} {rr : TState × Option Sig}
    (hok : frOkAt fr) (hrest : frameRest fr = t :: rest)
    (hr : Ev T O (.list rest) s₁ rr) :
    ∀ b i, fr = .fIf b i → rr.2 = none := by
  intro b i hfr
  subst hfr
  have hd : b.drop i = t :: rest := hrest
  have hok' : SafeL (b.drop i) := hok
  rw [hd] at hok'
  exact ev_safe_sig T O hr _ rfl hok'.tailL

/-- Soundness of the big-step relation: a completed synchronous run is an `Ev`
derivation. -/
lemma syncSound (T : Trig) (O : Opts) :
    ∀ {n : ℕ} {c : SCfg} {s : TState} {r : TState × Option Sig},
      syncRun T O n c s = .ok r → Ev T O c s r := by
  intro n
  induction n with
  | zero => intro c s r h; cases h
  | succ n ih =>
    intro c s r h
    match c with
    | .list [] =>
      cases h
      exact Ev.nil s
    | .list (t :: rest) =>
      match t with
      | .varT name v re =>
        simp only [syncRun] at h
        split at h
        next e hv => cases h
        next s₁ hv => exact Ev.varC hv (ih h)
      | .penT d =>
        simp only [syncRun] at h
        exact Ev.penC (ih h)
      | .turnT lf v =>
        simp only [syncRun] at h
        split at h
        next e hv => cases h
        next s₁ hv => exact Ev.turnC hv (ih h)
      | .hsvT ph ps pv =>
        simp only [syncRun] at h
        split at h
        next e hv => cases h
        next s₁ hv => exact Ev.hsvC hv (ih h)
      | .moveT fw v =>
        simp only [syncRun] at h
        split at h
        next e hv => cases h
        next s₁ hv => exact Ev.moveC hv (ih h)
      | .repC c body =>
        simp only [syncRun] at h
        split at h
        next hq => cases h
        next q hq =>
          split at h
          next s₁ sg hr => exact Ev.repCC hq (ih hr) (ih h)
          next e hr => cases h
          next hr => cases h
      | .repU c body =>
        simp only [syncRun] at h
        split at h
        next s₁ sg hr => exact Ev.repUC (ih hr) (ih h)
        next e hr => cases h
        next hr => cases h
      | .ifT tst body =>
        simp only [syncRun] at h
        split at h
        next htr =>
          split at h
          next s₁ sg hr =>
            cases h
            exact Ev.ifSig htr (ih hr)
          next s₁ hr => exact Ev.ifNone htr (ih hr) (ih h)
          next e hr => cases h
          next hr => cases h
        next htr =>
          exact Ev.ifSkip (Bool.eq_false_iff.mpr htr) (ih h)
      | .brk =>
        cases h
        exact Ev.brkC
      | .cont =>
        cases h
        exact Ev.contC
    | .cnt 0 body =>
      cases h
      exact Ev.cnt0
    | .cnt (k + 1) body =>
      simp only [syncRun] at h
      split at h
      next s₁ hr =>
        cases h
        exact Ev.cntBrk (ih hr)
      next s₁ sg hns hr => exact Ev.cntGo hns (ih hr) (ih h)
      next e hr => cases h
      next hr => cases h
    | .unt c body =>
      simp only [syncRun] at h
      split at h
      next hq => cases h
      next q hq =>
        split at h
        next hz =>
          cases h
          exact Ev.untStop hq hz
        next hz =>
          have hz' : q = 0 := not_not.mp hz
          subst hz'
          split at h
          next s₁ hr =>
            cases h
            exact Ev.untBrk hq (ih hr)
          next s₁ sg hns hr => exact Ev.untGo hq hns (ih hr) (ih h)
          next e hr => cases h
          next hr => cases h

/-- Vacuous-case helpers for the configuration-shaped motive. -/
lemma ofListCnt {l : List Tok} {P : ℕ → List Tok → Prop} :
    ∀ (k : ℕ) (b : List Tok), SCfg.list l = SCfg.cnt k b → P k b :=
  fun _ _ h => nomatch h

lemma ofListUnt {l : List Tok} {P : Value → List Tok → Prop} :
    ∀ (c : Value) (b : List Tok), SCfg.list l = SCfg.unt c b → P c b :=
  fun _ _ h => nomatch h

lemma ofCntList {k : ℕ} {b : List Tok} {P : List Tok → Prop} :
    ∀ l : List Tok, SCfg.cnt k b = SCfg.list l → P l :=
  fun _ h => nomatch h

lemma ofCntUnt {k : ℕ} {b : List Tok} {P : Value → List Tok → Prop} :
    ∀ (c : Value) (b' : List Tok), SCfg.cnt k b = SCfg.unt c b' → P c b' :=
  fun _ _ h => nomatch h

lemma ofUntList {c : Value} {b : List Tok} {P : List Tok → Prop} :
    ∀ l : List Tok, SCfg.unt c b = SCfg.list l → P l :=
  fun _ h => nomatch h

lemma ofUntCnt {c : Value} {b : List Tok} {P : ℕ → List Tok → Prop} :
    ∀ (k : ℕ) (b' : List Tok), SCfg.unt c b = SCfg.cnt k b' → P k b' :=
  fun _ _ h => nomatch h

/-- The stepper simulates the big-step semantics on signal-safe program text:
a list runs inside a frame (landing in the signal-adjusted frame stack) or at the
top level; a positive count loop consumes its count frame; a zero-condition until
loop consumes its until frame. -/
lemma stepSim (T : Trig) (O : Opts) (root : List Tok) {cfg : SCfg} {s : TState}
    {r : TState × Option Sig} (hev : Ev T O cfg s r) :
    (∀ l, cfg = .list l →
      (∀ (mi : ℕ) (fr : Frame) (R : List Frame), frameRest fr = l → frOkAt fr →
        Sim T O root ⟨s, mi, fr :: R, false⟩ ⟨r.1, mi, sigFrames r.2 fr R, false⟩) ∧
      (∀ mi : ℕ, root.drop mi = l → SafeL l →
        Sim T O root ⟨s, mi, [], false⟩ ⟨r.1, mi + l.length, [], false⟩)) ∧
    (∀ k b, cfg = .cnt k b → 1 ≤ k → SafeB b →
      ∀ (mi : ℕ) (R : List Frame),
        Sim T O root ⟨s, mi, .fCount b 0 k :: R, false⟩ ⟨r.1, mi, R, false⟩) ∧
    (∀ c b, cfg = .unt c b → SafeB b → (evalValue s.vars c).toQ? = some 0 →
      ∀ (mi : ℕ) (R : List Frame),
        Sim T O root ⟨s, mi, .fUntil b 0 c false :: R, false⟩ ⟨r.1, mi, R, false⟩) := by
  induction hev with
  | nil s0 =>
    refine ⟨?_, ofListCnt, ofListUnt⟩
    intro l hl
    cases hl
    constructor
    · intro mi fr R hrest hok
      exact simSetEnd T O root hrest s0 mi R
    · intro mi hdrop hsafe
      simp only [List.length_nil, Nat.add_zero]
      exact Sim_refl T O root _
  | varC hv hr ih =>
    rename_i name v re s0 s₁ rest rr
    refine ⟨?_, ofListCnt, ofListUnt⟩
    intro l hl
    cases hl
    constructor
    · intro mi fr R hrest hok
      have hfetch := nextTok_fetch root hrest 0 s0 mi R false
      have hex : stepExecTok T O (.varT name v re) ⟨s0, mi, bumpIdx fr :: R, false⟩ =
          .ok ⟨s₁, mi, bumpIdx fr :: R, false⟩ := by
        simp only [stepExecTok]
        rw [hv]
      refine Sim_trans (simTokStep T O root rfl hfetch hex rfl) ?_
      rw [← sigFrames_bump fr R (sigNone_of_fIf T O hok hrest hr)]
      exact (ih.1 rest rfl).1 mi (bumpIdx fr) R (frameRest_bump hrest) (frOk_bump hok hrest)
    · intro mi hdrop hsafe
      have hfetch : nextTok root 1 ⟨s0, mi, [], false⟩ =
          .ok (some (.varT name v re), ⟨s0, mi + 1, [], false⟩) := by
        rw [nextTok_eq]
        dsimp only
        rw [get?_of_drop hdrop]
      have hex : stepExecTok T O (.varT name v re) ⟨s0, mi + 1, [], false⟩ =
          .ok ⟨s₁, mi + 1, [], false⟩ := by
        simp only [stepExecTok]
        rw [hv]
      refine Sim_trans (simTokStep T O root rfl hfetch hex rfl) ?_
      simp only [List.length_cons]
      rw [show mi + (rest.length + 1) = mi + 1 + rest.length from by omega]
      exact (ih.1 rest rfl).2 (mi + 1) (drop_of_drop hdrop) hsafe.tailL
  | penC hr ih =>
    rename_i d s0 rest rr
    refine ⟨?_, ofListCnt, ofListUnt⟩
    intro l hl
    cases hl
    constructor
    · intro mi fr R hrest hok
      have hfetch := nextTok_fetch root hrest 0 s0 mi R false
      have hex : stepExecTok T O (.penT d) ⟨s0, mi, bumpIdx fr :: R, false⟩ =
          .ok ⟨penStep O d s0, mi, bumpIdx fr :: R, false⟩ := rfl
      refine Sim_trans (simTokStep T O root rfl hfetch hex rfl) ?_
      rw [← sigFrames_bump fr R (sigNone_of_fIf T O hok hrest hr)]
      exact (ih.1 rest rfl).1 mi (bumpIdx fr) R (frameRest_bump hrest) (frOk_bump hok hrest)
    · intro mi hdrop hsafe
      have hfetch : nextTok root 1 ⟨s0, mi, [], false⟩ =
          .ok (some (.penT d), ⟨s0, mi + 1, [], false⟩) := by
        rw [nextTok_eq]
        dsimp only
        rw [get?_of_drop hdrop]
      have hex : stepExecTok T O (.penT d) ⟨s0, mi + 1, [], false⟩ =
          .ok ⟨penStep O d s0, mi + 1, [], false⟩ := rfl
      refine Sim_trans (simTokStep T O root rfl hfetch hex rfl) ?_
      simp only [List.length_cons]
      rw [show mi + (rest.length + 1) = mi + 1 + rest.length from by omega]
      exact (ih.1 rest rfl).2 (mi + 1) (drop_of_drop hdrop) hsafe.tailL
  | turnC hv hr ih =>
    rename_i lf v s0 s₁ rest rr
    refine ⟨?_, ofListCnt, ofListUnt⟩
    intro l hl
    cases hl
    constructor
    · intro mi fr R hrest hok
      have hfetch := nextTok_fetch root hrest 0 s0 mi R false
      have hex : stepExecTok T O (.turnT lf v) ⟨s0, mi, bumpIdx fr :: R, false⟩ =
          .ok ⟨s₁, mi, bumpIdx fr :: R, false⟩ := by
        simp only [stepExecTok]
        rw [hv]
      refine Sim_trans (simTokStep T O root rfl hfetch hex rfl) ?_
      rw [← sigFrames_bump fr R (sigNone_of_fIf T O hok hrest hr)]
      exact (ih.1 rest rfl).1 mi (bumpIdx fr) R (frameRest_bump hrest) (frOk_bump hok hrest)
    · intro mi hdrop hsafe
      have hfetch : nextTok root 1 ⟨s0, mi, [], false⟩ =
          .ok (some (.turnT lf v), ⟨s0, mi + 1, [], false⟩) := by
        rw [nextTok_eq]
        dsimp only
        rw [get?_of_drop hdrop]
      have hex : stepExecTok T O (.turnT lf v) ⟨s0, mi + 1, [], false⟩ =
          .ok ⟨s₁, mi + 1, [], false⟩ := by
        simp only [stepExecTok]
        rw [hv]
      refine Sim_trans (simTokStep T O root rfl hfetch hex rfl) ?_
      simp only [List.length_cons]
      rw [show mi + (rest.length + 1) = mi + 1 + rest.length from by omega]
      exact (ih.1 rest rfl).2 (mi + 1) (drop_of_drop hdrop) hsafe.tailL
  | hsvC hv hr ih =>
    rename_i ph ps pv s0 s₁ rest rr
    refine ⟨?_, ofListCnt, ofListUnt⟩
    intro l hl
    cases hl
    constructor
    · intro mi fr R hrest hok
      have hfetch := nextTok_fetch root hrest 0 s0 mi R false
      have hex : stepExecTok T O (.hsvT ph ps pv) ⟨s0, mi, bumpIdx fr :: R, false⟩ =
          .ok ⟨s₁, mi, bumpIdx fr :: R, false⟩ := by
        simp only [stepExecTok]
        rw [hv]
      refine Sim_trans (simTokStep T O root rfl hfetch hex rfl) ?_
      rw [← sigFrames_bump fr R (sigNone_of_fIf T O hok hrest hr)]
      exact (ih.1 rest rfl).1 mi (bumpIdx fr) R (frameRest_bump hrest) (frOk_bump hok hrest)
    · intro mi hdrop hsafe
      have hfetch : nextTok root 1 ⟨s0, mi, [], false⟩ =
          .ok (some (.hsvT ph ps pv), ⟨s0, mi + 1, [], false⟩) := by
        rw [nextTok_eq]
        dsimp only
        rw [get?_of_drop hdrop]
      have hex : stepExecTok T O (.hsvT ph ps pv) ⟨s0, mi + 1, [], false⟩ =
          .ok ⟨s₁, mi + 1, [], false⟩ := by
        simp only [stepExecTok]
        rw [hv]
      refine Sim_trans (simTokStep T O root rfl hfetch hex rfl) ?_
      simp only [List.length_cons]
      rw [show mi + (rest.length + 1) = mi + 1 + rest.length from by omega]
      exact (ih.1 rest rfl).2 (mi + 1) (drop_of_drop hdrop) hsafe.tailL
  | moveC hv hr ih =>
    rename_i fw v s0 s₁ rest rr
    refine ⟨?_, ofListCnt, ofListUnt⟩
    intro l hl
    cases hl
    constructor
    · intro mi fr R hrest hok
      have hfetch := nextTok_fetch root hrest 0 s0 mi R false
      have hex : stepExecTok T O (.moveT fw v) ⟨s0, mi, bumpIdx fr :: R, false⟩ =
          .ok ⟨s₁, mi, bumpIdx fr :: R, false⟩ := by
        simp only [stepExecTok]
        rw [hv]
      refine Sim_trans (simTokStep T O root rfl hfetch hex rfl) ?_
      rw [← sigFrames_bump fr R (sigNone_of_fIf T O hok hrest hr)]
      exact (ih.1 rest rfl).1 mi (bumpIdx fr) R (frameRest_bump hrest) (frOk_bump hok hrest)
    · intro mi hdrop hsafe
      have hfetch : nextTok root 1 ⟨s0, mi, [], false⟩ =
          .ok (some (.moveT fw v), ⟨s0, mi + 1, [], false⟩) := by
        rw [nextTok_eq]
        dsimp only
        rw [get?_of_drop hdrop]
      have hex : stepExecTok T O (.moveT fw v) ⟨s0, mi + 1, [], false⟩ =
          .ok ⟨s₁, mi + 1, [], false⟩ := by
        simp only [stepExecTok]
        rw [hv]
      refine Sim_trans (simTokStep T O root rfl hfetch hex rfl) ?_
      simp only [List.length_cons]
      rw [show mi + (rest.length + 1) = mi + 1 + rest.length from by omega]
      exact (ih.1 rest rfl).2 (mi + 1) (drop_of_drop hdrop) hsafe.tailL
  | repCC hq hcnt hrest ih1 ih2 =>
    rename_i c q body s0 s₁ sg₁ rest rr
    refine ⟨?_, ofListCnt, ofListUnt⟩
    intro l hl
    cases hl
    constructor
    · intro mi fr R hrest0 hok
      have hfetch := nextTok_fetch root hrest0 0 s0 mi R false
      have hsT : SafeT (.repC c body) :=
        pendSafeT hok hrest0 (by simp) (by simp)
      have hbS : SafeB body := by cases hsT with | repC hb => exact hb
      by_cases hpos : 0 < ⌊q⌋
      · have hex : stepExecTok T O (.repC c body) ⟨s0, mi, bumpIdx fr :: R, false⟩ =
            .ok ⟨s0, mi, .fCount body 0 (Int.toNat ⌊q⌋) :: bumpIdx fr :: R, false⟩ := by
          simp only [stepExecTok]
          rw [hq]
          dsimp only
          rw [if_pos hpos]
        refine Sim_trans (simTokStep T O root rfl hfetch hex rfl) ?_
        refine Sim_trans (ih1.2.1 _ body rfl (by omega) hbS mi (bumpIdx fr :: R)) ?_
        rw [← sigFrames_bump fr R (sigNone_of_fIf T O hok hrest0 hrest)]
        exact (ih2.1 rest rfl).1 mi (bumpIdx fr) R (frameRest_bump hrest0) (frOk_bump hok hrest0)
      · have hk0 : Int.toNat ⌊q⌋ = 0 := by omega
        rw [hk0] at hcnt
        cases hcnt
        have hex : stepExecTok T O (.repC c body) ⟨s0, mi, bumpIdx fr :: R, false⟩ =
            .ok ⟨s0, mi, bumpIdx fr :: R, false⟩ := by
          simp only [stepExecTok]
          rw [hq]
          dsimp only
          rw [if_neg hpos]
        refine Sim_trans (simTokStep T O root rfl hfetch hex rfl) ?_
        rw [← sigFrames_bump fr R (sigNone_of_fIf T O hok hrest0 hrest)]
        exact (ih2.1 rest rfl).1 mi (bumpIdx fr) R (frameRest_bump hrest0) (frOk_bump hok hrest0)
    · intro mi hdrop hsafe
      have hsT : SafeT (.repC c body) := hsafe.headT
      have hbS : SafeB body := by cases hsT with | repC hb => exact hb
      have hfetch : nextTok root 1 ⟨s0, mi, [], false⟩ =
          .ok (some (.repC c body), ⟨s0, mi + 1, [], false⟩) := by
        rw [nextTok_eq]
        dsimp only
        rw [get?_of_drop hdrop]
      by_cases hpos : 0 < ⌊q⌋
      · have hex : stepExecTok T O (.repC c body) ⟨s0, mi + 1, [], false⟩ =
            .ok ⟨s0, mi + 1, [.fCount body 0 (Int.toNat ⌊q⌋)], false⟩ := by
          simp only [stepExecTok]
          rw [hq]
          dsimp only
          rw [if_pos hpos]
        refine Sim_trans (simTokStep T O root rfl hfetch hex rfl) ?_
        refine Sim_trans (ih1.2.1 _ body rfl (by omega) hbS (mi + 1) []) ?_
        simp only [List.length_cons]
        rw [show mi + (rest.length + 1) = mi + 1 + rest.length from by omega]
        exact (ih2.1 rest rfl).2 (mi + 1) (drop_of_drop hdrop) hsafe.tailL
      · have hk0 : Int.toNat ⌊q⌋ = 0 := by omega
        rw [hk0] at hcnt
        cases hcnt
        have hex : stepExecTok T O (.repC c body) ⟨s0, mi + 1, [], false⟩ =
            .ok ⟨s0, mi + 1, [], false⟩ := by
          simp only [stepExecTok]
          rw [hq]
          dsimp only
          rw [if_neg hpos]
        refine Sim_trans (simTokStep T O root rfl hfetch hex rfl) ?_
        simp only [List.length_cons]
        rw [show mi + (rest.length + 1) = mi + 1 + rest.length from by omega]
        exact (ih2.1 rest rfl).2 (mi + 1) (drop_of_drop hdrop) hsafe.tailL
  | repUC hunt hrest ih1 ih2 =>
    rename_i c body s0 s₁ sg₁ rest rr
    refine ⟨?_, ofListCnt, ofListUnt⟩
    intro l hl
    cases hl
    constructor
    · intro mi fr R hrest0 hok
      have hfetch := nextTok_fetch root hrest0 0 s0 mi R false
      have hsT : SafeT (.repU c body) :=
        pendSafeT hok hrest0 (by simp) (by simp)
      have hbS : SafeB body := by cases hsT with | repU hb => exact hb
      cases hunt with
      | untStop hq' hnz =>
        have hex : stepExecTok T O (.repU c body) ⟨s0, mi, bumpIdx fr :: R, false⟩ =
            .ok ⟨s0, mi, bumpIdx fr :: R, false⟩ := by
          simp only [stepExecTok]
          rw [hq']
          dsimp only
          rw [if_neg hnz]
        refine Sim_trans (simTokStep T O root rfl hfetch hex rfl) ?_
        rw [← sigFrames_bump fr R (sigNone_of_fIf T O hok hrest0 hrest)]
        exact (ih2.1 rest rfl).1 mi (bumpIdx fr) R (frameRest_bump hrest0) (frOk_bump hok hrest0)
      | untBrk hq' hb' =>
        have hex : stepExecTok T O (.repU c body) ⟨s0, mi, bumpIdx fr :: R, false⟩ =
            .ok ⟨s0, mi, .fUntil body 0 c false :: bumpIdx fr :: R, false⟩ := by
          simp only [stepExecTok]
          rw [hq']
          dsimp only
          rw [if_pos rfl]
        refine Sim_trans (simTokStep T O root rfl hfetch hex rfl) ?_
        refine Sim_trans (ih1.2.2 c body rfl hbS hq' mi (bumpIdx fr :: R)) ?_
        rw [← sigFrames_bump fr R (sigNone_of_fIf T O hok hrest0 hrest)]
        exact (ih2.1 rest rfl).1 mi (bumpIdx fr) R (frameRest_bump hrest0) (frOk_bump hok hrest0)
      | untGo hq' hne' hb' hu' =>
        have hex : stepExecTok T O (.repU c body) ⟨s0, mi, bumpIdx fr :: R, false⟩ =
            .ok ⟨s0, mi, .fUntil body 0 c false :: bumpIdx fr :: R, false⟩ := by
          simp only [stepExecTok]
          rw [hq']
          dsimp only
          rw [if_pos rfl]
        refine Sim_trans (simTokStep T O root rfl hfetch hex rfl) ?_
        refine Sim_trans (ih1.2.2 c body rfl hbS hq' mi (bumpIdx fr :: R)) ?_
        rw [← sigFrames_bump fr R (sigNone_of_fIf T O hok hrest0 hrest)]
        exact (ih2.1 rest rfl).1 mi (bumpIdx fr) R (frameRest_bump hrest0) (frOk_bump hok hrest0)
    · intro mi hdrop hsafe
      have hsT : SafeT (.repU c body) := hsafe.headT
      have hbS : SafeB body := by cases hsT with | repU hb => exact hb
      have hfetch : nextTok root 1 ⟨s0, mi, [], false⟩ =
          .ok (some (.repU c body), ⟨s0, mi + 1, [], false⟩) := by
        rw [nextTok_eq]
        dsimp only
        rw [get?_of_drop hdrop]
      cases hunt with
      | untStop hq' hnz =>
        have hex : stepExecTok T O (.repU c body) ⟨s0, mi + 1, [], false⟩ =
            .ok ⟨s0, mi + 1, [], false⟩ := by
          simp only [stepExecTok]
          rw [hq']
          dsimp only
          rw [if_neg hnz]
        refine Sim_trans (simTokStep T O root rfl hfetch hex rfl) ?_
        simp only [List.length_cons]
        rw [show mi + (rest.length + 1) = mi + 1 + rest.length from by omega]
        exact (ih2.1 rest rfl).2 (mi + 1) (drop_of_drop hdrop) hsafe.tailL
      | untBrk hq' hb' =>
        have hex : stepExecTok T O (.repU c body) ⟨s0, mi + 1, [], false⟩ =
            .ok ⟨s0, mi + 1, [.fUntil body 0 c false], false⟩ := by
          simp only [stepExecTok]
          rw [hq']
          dsimp only
          rw [if_pos rfl]
        refine Sim_trans (simTokStep T O root rfl hfetch hex rfl) ?_
        refine Sim_trans (ih1.2.2 c body rfl hbS hq' (mi + 1) []) ?_
        simp only [List.length_cons]
        rw [show mi + (rest.length + 1) = mi + 1 + rest.length from by omega]
        exact (ih2.1 rest rfl).2 (mi + 1) (drop_of_drop hdrop) hsafe.tailL
      | untGo hq' hne' hb' hu' =>
        have hex : stepExecTok T O (.repU c body) ⟨s0, mi + 1, [], false⟩ =
            .ok ⟨s0, mi + 1, [.fUntil body 0 c false], false⟩ := by
          simp only [stepExecTok]
          rw [hq']
          dsimp only
          rw [if_pos rfl]
        refine Sim_trans (simTokStep T O root rfl hfetch hex rfl) ?_
        refine Sim_trans (ih1.2.2 c body rfl hbS hq' (mi + 1) []) ?_
        simp only [List.length_cons]
        rw [show mi + (rest.length + 1) = mi + 1 + rest.length from by omega]
        exact (ih2.1 rest rfl).2 (mi + 1) (drop_of_drop hdrop) hsafe.tailL
  | ifSig htr hbody ih =>
    rename_i tst body s0 s₁ sg rest
    refine ⟨?_, ofListCnt, ofListUnt⟩
    intro l hl
    cases hl
    constructor
    · intro mi fr R hrest0 hok
      have hsT : SafeT (.ifT tst body) :=
        pendSafeT hok hrest0 (by simp) (by simp)
      have hbL : SafeL body := by cases hsT with | ifT hb => exact hb
      exact absurd (ev_safe_sig T O hbody _ rfl hbL) (by simp)
    · intro mi hdrop hsafe
      have hsT : SafeT (.ifT tst body) := hsafe.headT
      have hbL : SafeL body := by cases hsT with | ifT hb => exact hb
      exact absurd (ev_safe_sig T O hbody _ rfl hbL) (by simp)
  | ifNone htr hbody hrest ih1 ih2 =>
    rename_i tst body s0 s₁ rest rr
    refine ⟨?_, ofListCnt, ofListUnt⟩
    intro l hl
    cases hl
    constructor
    · intro mi fr R hrest0 hok
      have hfetch := nextTok_fetch root hrest0 0 s0 mi R false
      have hsT : SafeT (.ifT tst body) :=
        pendSafeT hok hrest0 (by simp) (by simp)
      have hbL : SafeL body := by cases hsT with | ifT hb => exact hb
      have hex : stepExecTok T O (.ifT tst body) ⟨s0, mi, bumpIdx fr :: R, false⟩ =
          .ok ⟨s0, mi, .fIf body 0 :: bumpIdx fr :: R, false⟩ := by
        simp only [stepExecTok]
        rw [if_pos htr]
      refine Sim_trans (simTokStep T O root rfl hfetch hex rfl) ?_
      refine Sim_trans ((ih1.1 body rfl).1 mi (.fIf body 0) (bumpIdx fr :: R)
        (List.drop_zero body)
        (show SafeL (body.drop 0) by rw [List.drop_zero]; exact hbL)) ?_
      refine Sim_trans (simPopIf T O root (List.get?_eq_none.mpr le_rfl) s₁ mi
        (bumpIdx fr :: R)) ?_
      rw [← sigFrames_bump fr R (sigNone_of_fIf T O hok hrest0 hrest)]
      exact (ih2.1 rest rfl).1 mi (bumpIdx fr) R (frameRest_bump hrest0) (frOk_bump hok hrest0)
    · intro mi hdrop hsafe
      have hsT : SafeT (.ifT tst body) := hsafe.headT
      have hbL : SafeL body := by cases hsT with | ifT hb => exact hb
      have hfetch : nextTok root 1 ⟨s0, mi, [], false⟩ =
          .ok (some (.ifT tst body), ⟨s0, mi + 1, [], false⟩) := by
        rw [nextTok_eq]
        dsimp only
        rw [get?_of_drop hdrop]
      have hex : stepExecTok T O (.ifT tst body) ⟨s0, mi + 1, [], false⟩ =
          .ok ⟨s0, mi + 1, [.fIf body 0], false⟩ := by
        simp only [stepExecTok]
        rw [if_pos htr]
      refine Sim_trans (simTokStep T O root rfl hfetch hex rfl) ?_
      refine Sim_trans ((ih1.1 body rfl).1 (mi + 1) (.fIf body 0) []
        (List.drop_zero body)
        (show SafeL (body.drop 0) by rw [List.drop_zero]; exact hbL)) ?_
      refine Sim_trans (simPopIf T O root (List.get?_eq_none.mpr le_rfl) s₁ (mi + 1) []) ?_
      simp only [List.length_cons]
      rw [show mi + (rest.length + 1) = mi + 1 + rest.length from by omega]
      exact (ih2.1 rest rfl).2 (mi + 1) (drop_of_drop hdrop) hsafe.tailL
  | ifSkip htr hrest ih =>
    rename_i tst body s0 rest rr
    refine ⟨?_, ofListCnt, ofListUnt⟩
    intro l hl
    cases hl
    constructor
    · intro mi fr R hrest0 hok
      have hfetch := nextTok_fetch root hrest0 0 s0 mi R false
      have hex : stepExecTok T O (.ifT tst body) ⟨s0, mi, bumpIdx fr :: R, false⟩ =
          .ok ⟨s0, mi, bumpIdx fr :: R, false⟩ := by
        simp only [stepExecTok]
        rw [if_neg (by simp [htr])]
      refine Sim_trans (simTokStep T O root rfl hfetch hex rfl) ?_
      rw [← sigFrames_bump fr R (sigNone_of_fIf T O hok hrest0 hrest)]
      exact (ih.1 rest rfl).1 mi (bumpIdx fr) R (frameRest_bump hrest0) (frOk_bump hok hrest0)
    · intro mi hdrop hsafe
      have hfetch : nextTok root 1 ⟨s0, mi, [], false⟩ =
          .ok (some (.ifT tst body), ⟨s0, mi + 1, [], false⟩) := by
        rw [nextTok_eq]
        dsimp only
        rw [get?_of_drop hdrop]
      have hex : stepExecTok T O (.ifT tst body) ⟨s0, mi + 1, [], false⟩ =
          .ok ⟨s0, mi + 1, [], false⟩ := by
        simp only [stepExecTok]
        rw [if_neg (by simp [htr])]
      refine Sim_trans (simTokStep T O root rfl hfetch hex rfl) ?_
      simp only [List.length_cons]
      rw [show mi + (rest.length + 1) = mi + 1 + rest.length from by omega]
      exact (ih.1 rest rfl).2 (mi + 1) (drop_of_drop hdrop) hsafe.tailL
  | brkC =>
    rename_i s0 rest
    refine ⟨?_, ofListCnt, ofListUnt⟩
    intro l hl
    cases hl
    constructor
    · intro mi fr R hrest0 hok
      have hfetch := nextTok_fetch root hrest0 0 s0 mi R false
      have hbrkeq : breakFrames (bumpIdx fr :: R) = breakFrames (fr :: R) := by
        match fr with
        | .fCount b i rem => rfl
        | .fUntil b i c bf => rfl
        | .fIf b i =>
          have hd : b.drop i = .brk :: rest := hrest0
          have hok' : SafeL (b.drop i) := hok
          rw [hd] at hok'
          cases hok'.headT
      have hex : stepExecTok T O .brk ⟨s0, mi, bumpIdx fr :: R, false⟩ =
          .ok ⟨s0, mi, breakFrames (fr :: R), false⟩ := by
        rw [← hbrkeq]
        rfl
      have hfin₂ : (⟨s0, mi, breakFrames (fr :: R), false⟩ : Mach).finished = false := rfl
      exact simTokStep T O root rfl hfetch hex hfin₂
    · intro mi hdrop hsafe
      cases hsafe.headT
  | contC =>
    rename_i s0 rest
    refine ⟨?_, ofListCnt, ofListUnt⟩
    intro l hl
    cases hl
    constructor
    · intro mi fr R hrest0 hok
      have hfetch := nextTok_fetch root hrest0 0 s0 mi R false
      have hconteq : contFrames (bumpIdx fr :: R) = contFrames (fr :: R) := by
        match fr with
        | .fCount b i rem => rfl
        | .fUntil b i c bf => rfl
        | .fIf b i =>
          have hd : b.drop i = .cont :: rest := hrest0
          have hok' : SafeL (b.drop i) := hok
          rw [hd] at hok'
          cases hok'.headT
      have hex : stepExecTok T O .cont ⟨s0, mi, bumpIdx fr :: R, false⟩ =
          .ok ⟨s0, mi, contFrames (fr :: R), false⟩ := by
        rw [← hconteq]
        rfl
      have hfin₂ : (⟨s0, mi, contFrames (fr :: R), false⟩ : Mach).finished = false := rfl
      exact simTokStep T O root rfl hfetch hex hfin₂
    · intro mi hdrop hsafe
      cases hsafe.headT
  | cnt0 =>
    refine ⟨ofCntList, ?_, ofCntUnt⟩
    intro k b hl hk hbS mi R
    cases hl
    exact absurd hk (by omega)
  | cntBrk hb ih =>
    rename_i k body s0 s₁
    refine ⟨ofCntList, ?_, ofCntUnt⟩
    intro k' b hl hk hbS mi R
    cases hl
    refine Sim_trans ((ih.1 body rfl).1 mi (.fCount body 0 (k + 1)) R
      (List.drop_zero body)
      (show SafeB (body.drop 0) by rw [List.drop_zero]; exact hbS)) ?_
    exact simPopCount T O root (List.get?_eq_none.mpr le_rfl) (by omega) s₁ mi R
  | cntGo hne hb hc ihb ihc =>
    rename_i k body s0 s₁ sg rr
    refine ⟨ofCntList, ?_, ofCntUnt⟩
    intro k' b hl hk hbS mi R
    cases hl
    refine Sim_trans ((ihb.1 body rfl).1 mi (.fCount body 0 (k + 1)) R
      (List.drop_zero body)
      (show SafeB (body.drop 0) by rw [List.drop_zero]; exact hbS)) ?_
    have hF : sigFrames sg (.fCount body 0 (k + 1)) R =
        .fCount body body.length (k + 1) :: R := by
      cases sg with
      | none => rfl
      | some sg' =>
        cases sg' with
        | brk => exact absurd rfl hne
        | cont => rfl
    rw [hF]
    match k, hc, ihc with
    | 0, hc, ihc =>
      cases hc
      exact simPopCount T O root (List.get?_eq_none.mpr le_rfl) (by omega) s₁ mi R
    | k'' + 1, hc, ihc =>
      refine Sim_trans (simRestartCount T O root (List.get?_eq_none.mpr le_rfl)
        (by omega) s₁ mi R) ?_
      rw [show (k'' + 1 + 1 - 1) = k'' + 1 from by omega]
      exact ihc.2.1 (k'' + 1) body rfl (by omega) hbS mi R
  | untStop hq hnz =>
    refine ⟨ofUntList, ofUntCnt, ?_⟩
    intro c' b hl hbS hq0 mi R
    cases hl
    rw [hq] at hq0
    injection hq0 with h0
    exact absurd h0 hnz
  | untBrk hq hb ih =>
    rename_i c body s0 s₁
    refine ⟨ofUntList, ofUntCnt, ?_⟩
    intro c' b hl hbS hq0 mi R
    cases hl
    refine Sim_trans ((ih.1 body rfl).1 mi (.fUntil body 0 c false) R
      (List.drop_zero body)
      (show SafeB (body.drop 0) by rw [List.drop_zero]; exact hbS)) ?_
    exact simPopUntilFlag T O root (List.get?_eq_none.mpr le_rfl) s₁ mi R
  | untGo hq hne hb hu ihb ihu =>
    rename_i c body s0 s₁ sg rr
    refine ⟨ofUntList, ofUntCnt, ?_⟩
    intro c' b hl hbS hq0 mi R
    cases hl
    refine Sim_trans ((ihb.1 body rfl).1 mi (.fUntil body 0 c false) R
      (List.drop_zero body)
      (show SafeB (body.drop 0) by rw [List.drop_zero]; exact hbS)) ?_
    have hF : sigFrames sg (.fUntil body 0 c false) R =
        .fUntil body body.length c false :: R := by
      cases sg with
      | none => rfl
      | some sg' =>
        cases sg' with
        | brk => exact absurd rfl hne
        | cont => rfl
    rw [hF]
    cases hu with
    | untStop hq' hnz' =>
      exact simPopUntilCond T O root (List.get?_eq_none.mpr le_rfl) hq' hnz' mi R
    | untBrk hq' hb' =>
      refine Sim_trans (simRestartUntil T O root (List.get?_eq_none.mpr le_rfl)
        hq' mi R) ?_
      exact ihu.2.2 c body rfl hbS hq' mi R
    | untGo hq' hne' hb' hu' =>
      refine Sim_trans (simRestartUntil T O root (List.get?_eq_none.mpr le_rfl)
        hq' mi R) ?_
      exact ihu.2.2 c body rfl hbS hq' mi R

/-- Driving the stepper on safe program text realizes a signal-free big-step run
and finishes. -/
lemma stepComplete (T : Trig) (O : Opts) (root : List Tok) {s s' : TState}
    (hev : Ev T O (.list root) s (s', none)) (hsafe : SafeL root) :
    ∃ n, drive T O root n ⟨s, 0, [], false⟩ =
      .ok ⟨s', root.length, [], true⟩ := by
  have hsim := ((stepSim T O root hev).1 root rfl).2 0 rfl hsafe
  rw [Nat.zero_add] at hsim
  refine hsim _ ⟨3, ?_⟩
  show drive T O root 3 ⟨s', root.length, [], false⟩ =
    .ok ⟨s', root.length, [], true⟩
  rw [drive_eq, if_neg (by simp)]
  have hst : stepFn T O root 2 ⟨s', root.length, [], false⟩ =
      .ok ⟨s', root.length, [], true⟩ := by
    rw [stepFn_eq, if_neg (by simp), nextTok_eq]
    dsimp only
    rw [List.get?_eq_none.mpr le_rfl]
  rw [hst]
  dsimp only
  rw [drive_eq, if_pos rfl]

/-- `k` signal-free body runs make a `k`-fold count-loop derivation. -/
lemma bodyIter_ev (T : Trig) (O : Opts) {body : List Tok} :
    ∀ {k : ℕ} {s s' : TState}, BodyIter T O body k s s' →
      Ev T O (.cnt k body) s (s', none) := by
  intro k
  induction k with
  | zero =>
    intro s s' h
    have h' : s' = s := h
    subst h'
    exact Ev.cnt0
  | succ k ih =>
    intro s s' h
    obtain ⟨mid, ⟨n, hrun⟩, hiter⟩ := h
    exact Ev.cntGo (by simp) (syncSound T O hrun) (ih hiter)

/-- C1 (amended): for signal-safe programs — every `break`/`continue` a direct
child of a repeat body — the three engines agree: if the synchronous `interpret`
completes with result `r`, then `interpretAsync` completes with the same `r` (for
some fuel), and driving the stepper to completion yields a machine whose
`result()` is the same `r`.  (Unrestricted programs diverge: see the
counterexample, where a top-level `break` stops the synchronous engine but not
the other two.) -/
theorem claim_c1 (T : Trig) (O : Opts) (root : List Tok) (fuel : ℕ) (r : IResult)
    (hsafe : SafeL root) (hsync : interpret T O fuel root = .ok r) :
    (∃ n, interpretAsync T O n root = .ok r) ∧
    (∃ n m, drive T O root n (initMach O) = .ok m ∧ stepResult O m = some r) := by
  unfold interpret at hsync
  split at hsync
  next s sg hrun =>
    cases hsync
    have hev := syncSound T O hrun
    have hsg : sg = none := ev_safe_sig T O hev _ rfl hsafe
    subst hsg
    constructor
    · obtain ⟨n₁, h₁⟩ := asyncComplete T O hev hsafe.toB
      simp only [acfgOf] at h₁
      obtain ⟨n₂, h₂⟩ := asyncSeqTop T O h₁
      refine ⟨n₂, ?_⟩
      unfold interpretAsync
      rw [h₂]
    · obtain ⟨n₃, h₃⟩ := stepComplete T O root hev hsafe
      exact ⟨n₃, _, h₃, rfl⟩
  next e hrun => cases hsync
  next hrun => cases hsync

/-- Counterexample to C1 as stated: for the program `break · forward 1` the
synchronous engine stops at the top-level `break` (no move, final x `0`), while
the async engine ignores the top-level signal and moves (final x `1`, one `move`
operation). -/
theorem claim_c1_counterexample :
    interpret ⟨fun _ => 1, fun _ => 0⟩ {} 5 [Tok.brk, .moveT true (.num 1)] =
      .ok ⟨0, 0, 0, false, ⟨0, 0, 100⟩, [], []⟩ ∧
    interpretAsync ⟨fun _ => 1, fun _ => 0⟩ {} 5 [Tok.brk, .moveT true (.num 1)] =
      .ok ⟨1, 0, 0, false, ⟨0, 0, 100⟩, [.move 1 0], []⟩ ∧
    (⟨0, 0, 0, false, ⟨0, 0, 100⟩, [], []⟩ : IResult) ≠
      ⟨1, 0, 0, false, ⟨0, 0, 100⟩, [.move 1 0], []⟩ :=
  ⟨rfl, rfl, by decide⟩

/-- Witness for C1 at a concrete input: `right 90` runs to the same result in all
three engines. -/
theorem claim_c1_witness :
    (∃ n, interpretAsync ⟨fun _ => 1, fun _ => 0⟩ {} n [.turnT false (.num 90)] =
      .ok ⟨0, 0, 90, false, ⟨0, 0, 100⟩, [.turn 90], []⟩) ∧
    (∃ n m, drive ⟨fun _ => 1, fun _ => 0⟩ {} [.turnT false (.num 90)] n
        (initMach {}) = .ok m ∧
      stepResult {} m = some ⟨0, 0, 90, false, ⟨0, 0, 100⟩, [.turn 90], []⟩) :=
  claim_c1 ⟨fun _ => 1, fun _ => 0⟩ {} [.turnT false (.num 90)] 3
    ⟨0, 0, 90, false, ⟨0, 0, 100⟩, [.turn 90], []⟩
    (SafeL.cons SafeT.turnT SafeL.nil) rfl

/-- C5: a count-mode REPEAT evaluates its count once, floors it, and executes its
body exactly `max(0, ⌊count⌋)` times, in every engine: if the count evaluates to
`q` and `Int.toNat ⌊q⌋` successive signal-free body runs take `s` to `s'`, then
`repeat q: body` runs from `s` to exactly `s'` in the synchronous engine, the
async engine, and the stepper (which finishes after its sole top-level token). -/
theorem claim_c5 (T : Trig) (O : Opts) (c : Value) (body : List Tok) (q : ℚ)
    (s s' : TState) (hq : (evalValue s.vars c).toQ? = some q)
    (hsafe : SafeB body)
    (hiter : BodyIter T O body (Int.toNat ⌊q⌋) s s') :
    (∃ n, syncRun T O n (.list [.repC c body]) s = .ok (s', none)) ∧
    (∃ n, asyncRun T O n (.seq [.repC c body]) s = .ok (s', none)) ∧
    (∃ n, drive T O [.repC c body] n ⟨s, 0, [], false⟩ =
      .ok ⟨s', 1, [], true⟩) := by
  have hev : Ev T O (.list [.repC c body]) s (s', none) :=
    Ev.repCC hq (bodyIter_ev T O hiter) (Ev.nil s')
  have hsafeL : SafeL [.repC c body] := SafeL.cons (SafeT.repC hsafe) SafeL.nil
  refine ⟨syncComplete T O hev, ?_, ?_⟩
  · have h := asyncComplete T O hev hsafeL.toB
    simpa only [acfgOf] using h
  · exact stepComplete T O [.repC c body] hev hsafeL

/-- Witness for C5 at a concrete input: `repeat 3.9: right 90` executes the body
exactly 3 times in all three engines (final heading 270, three turn records). -/
theorem claim_c5_witness :
    (∃ n, syncRun ⟨fun _ => 1, fun _ => 0⟩ {} n
        (.list [.repC (.num (39/10)) [.turnT false (.num 90)]]) (initState {}) =
      .ok (⟨0, 0, 270, false, ⟨0, 0, 100⟩,
        [.turn 90, .turn 180, .turn 270], []⟩, none)) ∧
    (∃ n, asyncRun ⟨fun _ => 1, fun _ => 0⟩ {} n
        (.seq [.repC (.num (39/10)) [.turnT false (.num 90)]]) (initState {}) =
      .ok (⟨0, 0, 270, false, ⟨0, 0, 100⟩,
        [.turn 90, .turn 180, .turn 270], []⟩, none)) ∧
    (∃ n, drive ⟨fun _ => 1, fun _ => 0⟩ {}
        [.repC (.num (39/10)) [.turnT false (.num 90)]] n
        ⟨initState {}, 0, [], false⟩ =
      .ok ⟨⟨0, 0, 270, false, ⟨0, 0, 100⟩,
        [.turn 90, .turn 180, .turn 270], []⟩, 1, [], true⟩) :=
  claim_c5 ⟨fun _ => 1, fun _ => 0⟩ {} (.num (39/10)) [.turnT false (.num 90)]
    (39/10) (initState {})
    ⟨0, 0, 270, false, ⟨0, 0, 100⟩, [.turn 90, .turn 180, .turn 270], []⟩
    rfl (SafeB.cons SafeT.turnT SafeB.nil)
    ⟨⟨0, 0, 90, false, ⟨0, 0, 100⟩, [.turn 90], []⟩, ⟨2, rfl⟩,
      ⟨0, 0, 180, false, ⟨0, 0, 100⟩, [.turn 90, .turn 180], []⟩, ⟨2, rfl⟩,
      ⟨0, 0, 270, false, ⟨0, 0, 100⟩, [.turn 90, .turn 180, .turn 270], []⟩,
        ⟨2, rfl⟩, rfl⟩

end Turtle
